import Mathlib

set_option maxHeartbeats 1000000
set_option maxRecDepth 4000

/-!
Shallow embedding of the arbitrary-precision integer kernel (num-bigint
excerpt: `biguint/{addition,subtraction,convert}.rs`,
`bigint/{addition,multiplication,division}.rs`).

The build fixes the digit width at 32 bits (`cfg_digit` selects the `u32`
branches, `BigDigit = u32`, `DoubleBigDigit = u64`).  Machine digits are
modelled as `Nat` with explicit reduction `% 2 ^ 32` where the machine
arithmetic wraps.  An unsigned magnitude (`BigUint.data`) is a little-endian
`List Nat` of digits; a signed integer is a `Sign` paired with such a
magnitude.  A Rust `panic!`/failed `assert!` is modelled by an `Option`
result being `none`; a Rust function returning `Option<T>` on top of code
that can panic is modelled as `Option (Option T)` (outer `none` = panic,
inner `none` = Rust `None`).
-/

namespace NumBigint

/-- Digit base `2^32` (`big_digit::BASE` for the 32-bit build). -/
def B : Nat := 2 ^ 32

/-- Add-with-carry on one digit pair (`adc` in `biguint/addition.rs`): two
chained overflowing additions, as in the portable fallback copied from the
standard library's `carrying_add`; the x86 intrinsic has the same semantics.
Returns the output digit and the outgoing carry bit. -/
def adc (carry a b : Nat) : Nat × Nat :=
  let a1 := (a + b) % B
  let b1 := if a + b < B then 0 else 1
  let c := (a1 + carry) % B
  let d := if a1 + carry < B then 0 else 1
  (c, if b1 = 0 ∧ d = 0 then 0 else 1)

/-- Subtract-with-borrow on one digit pair (`sbb` in
`biguint/subtraction.rs`): two chained overflowing subtractions
(`borrowing_sub` fallback; the x86 intrinsic agrees).  Returns the output
digit and the outgoing borrow bit. -/
def sbb (borrow a b : Nat) : Nat × Nat :=
  let a1 := (a + B - b % B) % B
  let b1 := if a < b % B then 1 else 0
  let c := (a1 + B - borrow % B) % B
  let d := if a1 < borrow % B then 1 else 0
  (c, if b1 = 0 ∧ d = 0 then 0 else 1)

/-- The paired loop of `__add2`: `for (a, b) in a_lo.iter_mut().zip(b)`,
adding with carry elementwise.  Returns the updated `a_lo` and the carry. -/
def addPairs : List Nat → List Nat → Nat → List Nat × Nat
  | _, [], carry => ([], carry)
  | [], _, carry => ([], carry)
  | a :: as_, b :: bs, carry =>
    let p := adc carry a b
    let q := addPairs as_ bs p.2
    (p.1 :: q.1, q.2)

/-- The high part of `__add2`: `if carry != 0 { for a in a_hi { ... break } }`,
propagating the carry through `a`'s remaining digits, stopping early once it
dies out. -/
def propagateAddCarry : List Nat → Nat → List Nat × Nat
  | as_, 0 => (as_, 0)
  | [], carry + 1 => ([], carry + 1)
  | a :: as_, carry + 1 =>
    let p := adc (carry + 1) a 0
    let q := propagateAddCarry as_ p.2
    (p.1 :: q.1, q.2)

/-- Core digit-vector addition `__add2(a: &mut [BigDigit], b: &[BigDigit]) ->
BigDigit` (`biguint/addition.rs` lines 55-75): `a += b` returning the final
carry.  The caller must ensure `a.len() >= b.len()`; `split_at_mut(b.len())`
fails otherwise (modelled by `none`). -/
def __add2 (a b : List Nat) : Option (List Nat × Nat) :=
  if b.length ≤ a.length then
    let lo := addPairs (a.take b.length) b 0
    let hi := propagateAddCarry (a.drop b.length) lo.2
    some (lo.1 ++ hi.1, hi.2)
  else
    none

/-- Little-endian numeric value of a digit vector. -/
def val : List Nat → Nat
  | [] => 0
  | d :: ds => d + B * val ds

/-- The canonical (normalized) digit vector of a number: little-endian base
`2^32` digits with no trailing zeros, as built by `From<u64>`/`From<u128>`
(`biguint/convert.rs` lines 490-517). -/
def ofNat (n : Nat) : List Nat :=
  if h : n = 0 then []
  else
    n % B :: ofNat (n / B)
decreasing_by
  exact Nat.div_lt_self (Nat.pos_of_ne_zero h) (by norm_num [B])

/-- Pop trailing (most-significant) zero digits: `BigUint::normalize`, and
also the trailing-zero `pop` loop of `to_inexact_bitwise_digits_le`. -/
def stripTrailingZeros (l : List Nat) : List Nat :=
  (l.reverse.dropWhile (· = 0)).reverse

/-- A well-formed `BigUint` digit vector: every digit fits in 32 bits and
there is no trailing zero digit (the normalization invariant). -/
def Wf (l : List Nat) : Prop :=
  (∀ d ∈ l, d < B) ∧ l.getLast? ≠ some 0

/-- In-place unsigned addition `AddAssign<&BigUint> for BigUint`
(`biguint/addition.rs` lines 99-114): extend the shorter buffer, run
`__add2`, push a final nonzero carry as a new high digit. -/
def addAssign (self other : List Nat) : Option (List Nat) := do
  if self.length < other.length then
    let lo ← __add2 self (other.take self.length)
    -- self.data.extend_from_slice(&other.data[self_len..]);
    let hi ← __add2 (other.drop self.length) [lo.2]
    let data := lo.1 ++ hi.1
    pure (if hi.2 ≠ 0 then data ++ [hi.2] else data)
  else
    let s ← __add2 self other
    pure (if s.2 ≠ 0 then s.1 ++ [s.2] else s.1)

/-- Unsigned `a + b` (`Add for BigUint` forwards to `AddAssign`). -/
def biguintAdd (a b : List Nat) : Option (List Nat) :=
  addAssign a b

/-- The paired loop of `sub2` (and the whole of `__sub2rev`): elementwise
subtract-with-borrow over the zipped prefix, storing into the first slice.
Returns the updated digits and the final borrow. -/
def subPairs : List Nat → List Nat → Nat → List Nat × Nat
  | _, [], borrow => ([], borrow)
  | [], _, borrow => ([], borrow)
  | a :: as_, b :: bs, borrow =>
    let p := sbb borrow a b
    let q := subPairs as_ bs p.2
    (p.1 :: q.1, q.2)

/-- The high part of `sub2`: `if borrow != 0 { for a in a_hi { ... break } }`,
propagating the borrow through `a`'s remaining digits with early exit. -/
def propagateSubBorrow : List Nat → Nat → List Nat × Nat
  | as_, 0 => (as_, 0)
  | [], borrow + 1 => ([], borrow + 1)
  | a :: as_, borrow + 1 =>
    let p := sbb (borrow + 1) a 0
    let q := propagateSubBorrow as_ p.2
    (p.1 :: q.1, q.2)

/-- Core digit-vector subtraction `sub2(a: &mut [BigDigit], b: &[BigDigit])`
(`biguint/subtraction.rs` lines 48-73): `a -= b` over the common prefix, the
borrow propagated through `a`'s high digits; the final `assert!` (required to
fail on underflow) demands a zero final borrow and all-zero excess digits of
`b`.  `none` models the failed assert (panic). -/
def sub2 (a b : List Nat) : Option (List Nat) :=
  let len := min a.length b.length
  let lo := subPairs (a.take len) (b.take len) 0
  let hi :=
    if lo.2 ≠ 0 then propagateSubBorrow (a.drop len) lo.2
    else (a.drop len, 0)
  if hi.2 = 0 ∧ (b.drop len).all (· = 0) then some (lo.1 ++ hi.1)
  else none

/-- Equal-length reverse subtraction `__sub2rev(a: &[BigDigit], b: &mut
[BigDigit]) -> u8` (`biguint/subtraction.rs` lines 77-87): `b := a - b` over
the zipped prefix, returning the borrow. -/
def __sub2rev (a b : List Nat) : List Nat × Nat :=
  subPairs a b 0

/-- Reverse digit-vector subtraction `sub2rev(a: &[BigDigit], b: &mut
[BigDigit])` (`biguint/subtraction.rs` lines 89-105): computes `b := a - b`
in place; `assert!(a_hi.is_empty())` demands `b.len() >= a.len()`, and the
final `assert!` fails on a remaining borrow or a nonzero excess digit of
`b`.  `none` models either failed assert. -/
def sub2rev (a b : List Nat) : Option (List Nat) :=
  let len := min a.length b.length
  let lo := __sub2rev (a.take len) (b.take len)
  if (a.drop len).isEmpty ∧ lo.2 = 0 ∧ (b.drop len).all (· = 0) then
    some (lo.1 ++ b.drop len)
  else none

/-- In-place unsigned subtraction `SubAssign<&BigUint> for BigUint`
(`biguint/subtraction.rs` lines 119-124): `sub2` then `normalize`. -/
def subAssign (self other : List Nat) : Option (List Nat) :=
  (sub2 self other).map stripTrailingZeros

/-- Unsigned `a - b` (`Sub<&BigUint> for BigUint` forwards to `SubAssign`). -/
def biguintSub (a b : List Nat) : Option (List Nat) :=
  subAssign a b

/-- Modelled from the spec: comparison of magnitudes (`Ord for BigUint`, in
`biguint.rs` which is not part of the excerpt).  The signed wrapper resolves
opposite-sign addition "via comparison/cancellation rules" (spec 4.3), so
comparison is by numeric value. -/
def biguintCmp (a b : List Nat) : Ordering :=
  compare (val a) (val b)

/-- Modelled from the spec: schoolbook long multiplication of magnitudes
(spec 4.2 Multiplication; `biguint/multiplication.rs` is not part of the
excerpt).  Modelled by its value semantics: the normalized digit vector of
the product of the values. -/
def biguintMul (a b : List Nat) : List Nat :=
  ofNat (val a * val b)

/-- Modelled from the spec: unsigned division with remainder (spec 4.2
Division/Remainder; `biguint/division.rs` is not part of the excerpt).
Division by zero is a fatal precondition error (`none`); otherwise the
normalized quotient and remainder digit vectors of Euclidean division of
the values. -/
def biguintDivRem (a b : List Nat) : Option (List Nat × List Nat) :=
  if val b = 0 then none
  else some (ofNat (val a / val b), ofNat (val a % val b))

/-- Modelled from the spec: the single-digit fast path `div_rem_digit`
(spec 4.2: "a digit-at-a-time algorithm when the divisor fits in one digit";
`biguint/division.rs` is not part of the excerpt). -/
def div_rem_digit (a : List Nat) (b : Nat) : Option (List Nat × Nat) :=
  if b = 0 then none
  else some (ofNat (val a / b), val a % b)

/-- Modelled from the spec: `BigUint % u32` (scalar-width interop, spec 4.2;
not part of the excerpt).  `none` models division by zero. -/
def biguintModU32 (a : List Nat) (u : Nat) : Option (List Nat) :=
  if u = 0 then none
  else some (ofNat (val a % u))

/-- Sign tag of a signed integer (`bigint.rs`; the variants and their use
appear throughout the excerpt's `bigint/` files). -/
inductive Sign
  | Minus
  | NoSign
  | Plus
deriving DecidableEq, Repr

/-- Sign multiplication (`Mul<Sign> for Sign`, `bigint/multiplication.rs`
lines 11-22). -/
def signMul : Sign → Sign → Sign
  | .NoSign, _ => .NoSign
  | _, .NoSign => .NoSign
  | .Plus, .Plus => .Plus
  | .Minus, .Minus => .Plus
  | .Plus, .Minus => .Minus
  | .Minus, .Plus => .Minus

/-- Modelled from the spec: `Neg for Sign` (`bigint.rs`, not part of the
excerpt): negation swaps `Plus` and `Minus` ("result takes the sign ...",
spec 4.3). -/
def signNeg : Sign → Sign
  | .Minus => .Plus
  | .NoSign => .NoSign
  | .Plus => .Minus

/-- A signed big integer: a sign tag paired with an unsigned magnitude
(`struct BigInt { sign: Sign, data: BigUint }`). -/
structure BigInt where
  sign : Sign
  data : List Nat
deriving DecidableEq, Repr

/-- The canonical zero `BigInt::ZERO`. -/
def bigintZero : BigInt :=
  ⟨.NoSign, []⟩

/-- Modelled from the spec: the constructor `BigInt::from_biguint`
(`bigint.rs`, not part of the excerpt): "every public constructor must
either enforce or restore the sign/magnitude invariant before returning"
(spec 3): a zero magnitude forces `NoSign`, and `NoSign` forces a zero
magnitude. -/
def from_biguint (s : Sign) (d : List Nat) : BigInt :=
  if s = .NoSign ∨ d.isEmpty then bigintZero else ⟨s, d⟩

/-- Signed numeric value of a `BigInt`. -/
def intVal (x : BigInt) : Int :=
  match x.sign with
  | .Plus => (val x.data : Int)
  | .NoSign => 0
  | .Minus => -(val x.data : Int)

/-- Well-formed `BigInt`: well-formed magnitude, and the sign/magnitude
invariant — `NoSign` exactly when the magnitude is zero (spec 3). -/
def WfInt (x : BigInt) : Prop :=
  Wf x.data ∧ (x.sign = .NoSign ↔ x.data = [])

/-- The canonical `BigInt` of an integer value. -/
def ofInt (n : Int) : BigInt :=
  if n = 0 then bigintZero
  else if 0 < n then ⟨.Plus, ofNat n.natAbs⟩
  else ⟨.Minus, ofNat n.natAbs⟩

/-- Zero test `Zero::is_zero for BigInt` (`bigint.rs`, not part of the
excerpt; with the invariant, zero is exactly the `NoSign` value). -/
def bigintIsZero (x : BigInt) : Bool :=
  x.sign = .NoSign

/-- Negativity test `Signed::is_negative for BigInt`: the sign is `Minus`. -/
def bigintIsNegative (x : BigInt) : Bool :=
  x.sign = .Minus

/-- Positivity test `Signed::is_positive for BigInt`: the sign is `Plus`. -/
def bigintIsPositive (x : BigInt) : Bool :=
  x.sign = .Plus

/-- Signed addition (the `bigint_add!` macro body, `bigint/addition.rs`
lines 16-31): dispatch on the pair of signs; same signs add magnitudes and
keep the sign, opposite signs compare magnitudes and subtract the smaller,
the result taking the larger operand's sign (`BigInt::ZERO` on equality). -/
def bigintAdd (a b : BigInt) : Option BigInt :=
  match a.sign, b.sign with
  | _, .NoSign => some a
  | .NoSign, _ => some b
  | .Plus, .Plus => (biguintAdd a.data b.data).map (from_biguint a.sign)
  | .Minus, .Minus => (biguintAdd a.data b.data).map (from_biguint a.sign)
  | .Plus, .Minus =>
    match biguintCmp a.data b.data with
    | .lt => (biguintSub b.data a.data).map (from_biguint b.sign)
    | .gt => (biguintSub a.data b.data).map (from_biguint a.sign)
    | .eq => some bigintZero
  | .Minus, .Plus =>
    match biguintCmp a.data b.data with
    | .lt => (biguintSub b.data a.data).map (from_biguint b.sign)
    | .gt => (biguintSub a.data b.data).map (from_biguint a.sign)
    | .eq => some bigintZero

/-- Modelled from the spec: `Neg for BigInt` (`bigint.rs`, not part of the
excerpt): flip the sign, keep the magnitude. -/
def bigintNeg (a : BigInt) : BigInt :=
  ⟨signNeg a.sign, a.data⟩

/-- Modelled from the spec: signed subtraction (`bigint/subtraction.rs` is
not part of the excerpt): `a - b = a + (-b)`, the opposite-sign dispatch of
spec 4.3. -/
def bigintSub (a b : BigInt) : Option BigInt :=
  bigintAdd a (bigintNeg b)

/-- Signed multiplication (the `impl_mul!` macro body,
`bigint/multiplication.rs` lines 24-44): multiply magnitudes and signs. -/
def bigintMul (a b : BigInt) : BigInt :=
  from_biguint (signMul a.sign b.sign) (biguintMul a.data b.data)

/-- In-place signed multiplication (the `impl_mul_assign!` macro body,
`bigint/multiplication.rs` lines 46-62): multiply the magnitudes in place,
then restore the invariant directly. -/
def bigintMulAssign (a b : BigInt) : BigInt :=
  let data := biguintMul a.data b.data
  if data.isEmpty then ⟨.NoSign, data⟩
  else ⟨signMul a.sign b.sign, data⟩

/-- Modelled from the spec: truncating signed division with remainder
(`Integer::div_rem for BigInt`, `bigint.rs`, not part of the excerpt):
"truncating (toward zero) division/remainder computed via unsigned division
on magnitudes, then sign assigned as sign(a)×sign(b) for the quotient and
sign(a) for the remainder" (spec 4.3).  `none` models division by zero. -/
def bigintDivRem (a b : BigInt) : Option (BigInt × BigInt) :=
  (biguintDivRem a.data b.data).map fun qr =>
    (from_biguint (signMul a.sign b.sign) qr.1, from_biguint a.sign qr.2)

/-- Signed division `Div<&BigInt> for &BigInt` (`bigint/division.rs` lines
13-21): the quotient of `div_rem`. -/
def bigintDiv (a b : BigInt) : Option BigInt :=
  (bigintDivRem a b).map Prod.fst

/-- Scalar remainder `Rem<u32> for BigInt` (`bigint/division.rs` lines
268-275): `from_biguint(self.sign, self.data % other)`. -/
def bigintRemU32 (a : BigInt) (u : Nat) : Option BigInt :=
  (biguintModU32 a.data u).map (from_biguint a.sign)

/-- Modelled from the spec: `ToPrimitive::to_u32 for BigInt` (not part of
the excerpt): the value when it is exactly representable in `u32`. -/
def bigintToU32 (b : BigInt) : Option Nat :=
  if 0 ≤ intVal b ∧ intVal b < 2 ^ 32 then some (intVal b).natAbs else none

/-- Modelled from the spec: `ToPrimitive::to_i32 for BigInt` (not part of
the excerpt): the value when it is exactly representable in `i32`. -/
def bigintToI32 (b : BigInt) : Option Int :=
  if -(2 ^ 31) ≤ intVal b ∧ intVal b < 2 ^ 31 then some (intVal b) else none

/-- Signed remainder `Rem<&BigInt> for &BigInt` (`bigint/division.rs` lines
238-252): fast scalar paths when the divisor fits `u32`/`i32` (the `i32`
path is `self % other.unsigned_abs()`, lines 356-363), otherwise the
remainder of `div_rem`. -/
def bigintRem (a b : BigInt) : Option BigInt :=
  match bigintToU32 b with
  | some u => bigintRemU32 a u
  | none =>
    match bigintToI32 b with
    | some i => bigintRemU32 a i.natAbs
    | none => (bigintDivRem a b).map Prod.snd

/-- The canonical `BigInt` one, used for the `q - 1` / `q + 1` Euclidean
adjustments. -/
def bigintOne : BigInt :=
  ⟨.Plus, [1]⟩

/-- Euclidean division `Euclid::div_euclid for BigInt`
(`bigint/division.rs` lines 473-485): truncating quotient, decremented or
incremented by one when the truncating remainder is negative. -/
def bigintDivEuclid (a v : BigInt) : Option BigInt := do
  let qr ← bigintDivRem a v
  if bigintIsNegative qr.2 then
    if bigintIsPositive v then bigintSub qr.1 bigintOne
    else bigintAdd qr.1 bigintOne
  else pure qr.1

/-- Euclidean remainder `Euclid::rem_euclid for BigInt`
(`bigint/division.rs` lines 487-499): truncating remainder, with the
divisor added or subtracted when it is negative. -/
def bigintRemEuclid (a v : BigInt) : Option BigInt := do
  let r ← bigintRem a v
  if bigintIsNegative r then
    if bigintIsPositive v then bigintAdd r v
    else bigintSub r v
  else pure r

/-- Combined Euclidean division `Euclid::div_rem_euclid for BigInt`
(`bigint/division.rs` lines 501-512). -/
def bigintDivRemEuclid (a v : BigInt) : Option (BigInt × BigInt) := do
  let qr ← bigintDivRem a v
  if bigintIsNegative qr.2 then
    if bigintIsPositive v then do
      let q' ← bigintSub qr.1 bigintOne
      let r' ← bigintAdd qr.2 v
      pure (q', r')
    else do
      let q' ← bigintAdd qr.1 bigintOne
      let r' ← bigintSub qr.2 v
      pure (q', r')
  else pure qr

/-- Checked division `CheckedDiv for BigInt` (`bigint/division.rs` lines
440-448): `None` on a zero divisor, otherwise `Some` of the quotient.  The
outer `Option` models a panic, the inner one the Rust `Option`. -/
def checkedDiv (a v : BigInt) : Option (Option BigInt) :=
  if bigintIsZero v then some none
  else (bigintDiv a v).map some

/-- Modelled from the spec: `CheckedRem for BigInt` (not part of the
excerpt): "explicit checked variants (`checked_add`, ..., `checked_rem`)
that turn fatal preconditions (divide-by-zero, ...) into an absent-result
signal" (spec 6). -/
def checkedRem (a v : BigInt) : Option (Option BigInt) :=
  if bigintIsZero v then some none
  else (bigintRem a v).map some

/-- Checked Euclidean division `CheckedEuclid::checked_div_euclid`
(`bigint/division.rs` lines 452-457): `None` on a zero divisor. -/
def checkedDivEuclid (a v : BigInt) : Option (Option BigInt) :=
  if bigintIsZero v then some none
  else (bigintDivEuclid a v).map some

/-- Checked Euclidean remainder `CheckedEuclid::checked_rem_euclid`
(`bigint/division.rs` lines 459-465): `None` on a zero divisor. -/
def checkedRemEuclid (a v : BigInt) : Option (Option BigInt) :=
  if bigintIsZero v then some none
  else (bigintRemEuclid a v).map some

/-- Checked combined Euclidean division
`CheckedEuclid::checked_div_rem_euclid` (`bigint/division.rs` lines
467-469): `Some(self.div_rem_euclid(v))`, with no zero-divisor check. -/
def checkedDivRemEuclid (a v : BigInt) : Option (Option (BigInt × BigInt)) :=
  (bigintDivRemEuclid a v).map some

/-!
Radix conversion (`biguint/convert.rs`).  The radix loops that the excerpt
defines are embedded structurally; the `BigUint` primitives they call that
are not part of the excerpt (`div_rem`, `div_rem_digit`, `mac_with_carry`,
`biguint_from_vec`) are modelled from the spec at value level, so the
division-based export loops track the current `BigUint` as its numeric
value, with `natLen` standing for `data.len()` of its (normalized)
representation.
-/

/-- Power-of-two test `u32::is_power_of_two`. -/
def isPowerOfTwo (n : Nat) : Bool :=
  n ≠ 0 && 2 ^ Nat.log2 n == n

/-- Modelled from the spec: `biguint_from_vec` (`biguint.rs`, not part of
the excerpt) builds a `BigUint` from a raw digit vector, restoring the
normalization invariant (spec 3: "all arithmetic results must be
renormalized"). -/
def biguint_from_vec (l : List Nat) : List Nat :=
  stripTrailingZeros l

/-- Digit count of the normalized representation of a value
(`data.len()`). -/
def natLen (n : Nat) : Nat :=
  if n = 0 then 0 else Nat.log2 n / 32 + 1

/-- The maximal digit-group base for a non-power-of-two radix:
`get_radix_base` reads `generate_radix_bases(big_digit::MAX)` (lines
791-840), whose entry at `radix` is the largest `radix^power` not exceeding
`u32::MAX` together with that `power` (the characterization asserted by the
source's own `test_radix_bases`). -/
def getRadixBase (radix : Nat) : Nat × Nat :=
  (radix ^ Nat.log radix (B - 1), Nat.log radix (B - 1))

/-- Slice-into-chunks (`slice::chunks(k)`): chunks of `k` elements, the last
possibly shorter.  `chunks(0)` is a Rust panic; both call sites pass
`k ≥ 1`, and this model returns `[]` there. -/
def chunksOf (k : Nat) (l : List α) : List (List α) :=
  if k = 0 ∨ l.isEmpty then []
  else l.take k :: chunksOf k (l.drop k)
termination_by l.length
decreasing_by
  rename_i h
  push_neg at h
  have hl : l ≠ [] := by
    simpa [List.isEmpty_iff] using h.2
  have : 0 < l.length := List.length_pos.mpr hl
  simp only [List.length_drop]
  omega

/-- Import for a power-of-two radix whose bit width divides 32:
`from_bitwise_digits_le` (lines 44-61).  Each group of `32/bits` radix
digits is packed into one machine digit; `(acc << bits) | c` is exact
addition `acc * 2^bits + c` here since every `c < 2^bits` (the
`debug_assert`) and a full group fits in 32 bits. -/
def fromBitwiseDigitsLe (v : List Nat) (bits : Nat) : List Nat :=
  biguint_from_vec
    ((chunksOf (32 / bits) v).map fun chunk =>
      chunk.reverse.foldl (fun acc c => acc * 2 ^ bits + c) 0)

/-- The accumulation loop of `from_inexact_bitwise_digits_le` (lines 75-96)
with state `(d, dbits)`: `d |= c << dbits` is the `u32`-truncated
`(d + c * 2^dbits % 2^32)` (the or is addition as `d < 2^dbits`); when 32
bits have accumulated, the digit is pushed and the bits `c` lost to the
truncation are recovered by `c >> (bits - dbits')`. -/
def fromInexactLoop (bits : Nat) : List Nat → Nat → Nat → List Nat
  | [], d, dbits => if 0 < dbits then [d] else []
  | c :: rest, d, dbits =>
    let d1 := d + c * 2 ^ dbits % B
    let dbits1 := dbits + bits
    if 32 ≤ dbits1 then
      d1 :: fromInexactLoop bits rest (c / 2 ^ (bits - (dbits1 - 32))) (dbits1 - 32)
    else
      fromInexactLoop bits rest d1 dbits1

/-- Import for a power-of-two radix whose bit width does not divide 32:
`from_inexact_bitwise_digits_le` (lines 65-99). -/
def fromInexactBitwiseDigitsLe (v : List Nat) (bits : Nat) : List Nat :=
  biguint_from_vec (fromInexactLoop bits v 0 0)

/-- Modelled from the spec: `mac_with_carry(a, b, c, &mut carry)`
(`biguint/multiplication.rs`, not part of the excerpt): the double-width
multiply-accumulate `a + b * c + carry`, returning the low digit and
leaving the high digit in `carry` (spec 4.2 Multiplication). -/
def macWithCarry (a b c carry : Nat) : Nat × Nat :=
  ((a + b * c + carry) % B, (a + b * c + carry) / B)

/-- The scalar-multiply pass of `from_radix_digits_be`: `for d in
data.iter_mut() { *d = mac_with_carry(0, *d, base, &mut carry) }`. -/
def mulDigitLoop (base : Nat) : List Nat → Nat → List Nat × Nat
  | [], carry => ([], carry)
  | d :: ds, carry =>
    let p := macWithCarry 0 d base carry
    let q := mulDigitLoop base ds p.2
    (p.1 :: q.1, q.2)

/-- Digit-vector addition with the carry asserted away: `add2`
(`biguint/addition.rs` lines 82-86), `__add2` followed by
`debug_assert!(carry == 0)`. -/
def add2 (a b : List Nat) : Option (List Nat) :=
  (__add2 a b).map Prod.fst

/-- Big-endian Horner fold of one group of radix digits:
`chunk.iter().fold(0, |acc, &d| acc * radix + d)` — exact on `u32` since a
group has at most `power` digits below `radix`, so the fold stays below
`base ≤ u32::MAX`. -/
def foldChunk (radix : Nat) (chunk : List Nat) : Nat :=
  chunk.foldl (fun acc d => acc * radix + d) 0

/-- The per-group loop of `from_radix_digits_be` (lines 135-150): grow the
accumulator by a zero top digit unless one is already there, multiply it by
the group base, and add the group's value. -/
def fromRadixChunkLoop (radix base : Nat) : List (List Nat) → List Nat → Option (List Nat)
  | [], data => some data
  | chunk :: rest, data => do
    let data1 := if data.getLast? ≠ some 0 then data ++ [0] else data
    let m := mulDigitLoop base data1 0
    let data2 ← add2 m.1 [foldChunk radix chunk]
    fromRadixChunkLoop radix base rest data2

/-- Import for a non-power-of-two radix: `from_radix_digits_be` (lines
102-153): split the big-endian digit string into a short head and
`power`-sized groups, then Horner over groups with the maximal digit-group
base. -/
def fromRadixDigitsBe (v : List Nat) (radix : Nat) : Option (List Nat) :=
  let bp := getRadixBase radix
  let r := v.length % bp.2
  let i := if r = 0 then bp.2 else r
  (fromRadixChunkLoop radix bp.1 (chunksOf bp.2 (v.drop i))
      [foldChunk radix (v.take i)]).map
    biguint_from_vec

/-- Byte-radix import, big-endian: `from_radix_be` (lines 155-184).  The
outer `Option` models the `assert!(2 <= radix <= 256)` panic; the inner one
is the Rust `Option` (`None` on an out-of-range digit). -/
def fromRadixBe (buf : List Nat) (radix : Nat) : Option (Option (List Nat)) :=
  if ¬(2 ≤ radix ∧ radix ≤ 256) then none
  else if buf.isEmpty then some (some [])
  else if radix ≠ 256 ∧ buf.any (fun b => radix ≤ b) then some none
  else if isPowerOfTwo radix then
    let bits := Nat.log2 radix
    let v := buf.reverse
    if 32 % bits = 0 then some (some (fromBitwiseDigitsLe v bits))
    else some (some (fromInexactBitwiseDigitsLe v bits))
  else (fromRadixDigitsBe buf radix).map some

/-- Byte-radix import, little-endian: `from_radix_le` (lines 186-215). -/
def fromRadixLe (buf : List Nat) (radix : Nat) : Option (Option (List Nat)) :=
  if ¬(2 ≤ radix ∧ radix ≤ 256) then none
  else if buf.isEmpty then some (some [])
  else if radix ≠ 256 ∧ buf.any (fun b => radix ≤ b) then some none
  else if isPowerOfTwo radix then
    let bits := Nat.log2 radix
    if 32 % bits = 0 then some (some (fromBitwiseDigitsLe buf bits))
    else some (some (fromInexactBitwiseDigitsLe buf bits))
  else (fromRadixDigitsBe buf.reverse radix).map some

/-- Parse error kinds: `ParseBigIntError` distinguishes "empty input"
(`ParseBigIntError::empty`) from "invalid digit" (`::invalid`). -/
inductive ParseBigIntError
  | empty
  | invalid
deriving DecidableEq, Repr

/-- The leading-`+` strip of `from_str_radix`: `strip_prefix('+')` applied
only when the remaining text does not start with another `+`. -/
def stripPlus (s : List Nat) : List Nat :=
  match s with
  | 43 :: tail => if tail.head? = some 43 then s else tail
  | _ => s

/-- Byte-to-digit normalization of `from_str_radix`: `'0'..='9'`,
`'a'..='z'`, `'A'..='Z'` map to their digit values, anything else to
`u8::MAX` (underscores are handled by the caller). -/
def charDigit (b : Nat) : Nat :=
  if 48 ≤ b ∧ b ≤ 57 then b - 48
  else if 97 ≤ b ∧ b ≤ 122 then b - 97 + 10
  else if 65 ≤ b ∧ b ≤ 90 then b - 65 + 10
  else 255

/-- The digit-collection loop of `from_str_radix`: skip underscores, keep
digits below the radix, fail on anything else. -/
def mapDigits (radix : Nat) : List Nat → Option (List Nat)
  | [] => some []
  | b :: bs =>
    if b = 95 then mapDigits radix bs
    else if charDigit b < radix then (mapDigits radix bs).map (charDigit b :: ·)
    else none

/-- Textual parse `Num::from_str_radix for BigUint` (lines 221-269), on the
string's byte sequence.  The outer `Option` models the
`assert!(2 <= radix <= 36)` panic; inside, `Except` carries the
distinguished parse error. -/
def fromStrRadix (s : List Nat) (radix : Nat) : Option (Except ParseBigIntError (List Nat)) :=
  if ¬(2 ≤ radix ∧ radix ≤ 36) then none
  else
    let s1 := stripPlus s
    if s1.isEmpty then some (.error .empty)
    else if s1.head? = some 95 then some (.error .invalid)
    else
      match mapDigits radix s1 with
      | none => some (.error .invalid)
      | some v =>
        if isPowerOfTwo radix then
          let bits := Nat.log2 radix
          if 32 % bits = 0 then some (.ok (fromBitwiseDigitsLe v.reverse bits))
          else some (.ok (fromInexactBitwiseDigitsLe v.reverse bits))
        else (fromRadixDigitsBe v radix).map .ok

/-- Fixed-count little-endian digit extraction: the inner
`for _ in 0..k { res.push(r % radix); r /= radix }` loops of the export
paths (also `r & mask` / `r >>= bits` with `radix = 2^bits`). -/
def fixedDigits (radix : Nat) : Nat → Nat → List Nat
  | 0, _ => []
  | k + 1, r => r % radix :: fixedDigits radix k (r / radix)

/-- Open-ended digit extraction: the `while r != 0 { res.push(r % radix);
r /= radix }` loops that finish the export paths.  (With `radix < 2` the
Rust loop would not terminate or would divide by zero; every call site has
`radix ≥ 2`.) -/
def digitsOf (radix : Nat) (r : Nat) : List Nat :=
  if h : r = 0 ∨ radix ≤ 1 then []
  else r % radix :: digitsOf radix (r / radix)
decreasing_by
  push_neg at h
  exact Nat.div_lt_self (Nat.pos_of_ne_zero h.1) h.2

/-- Export for a power-of-two radix whose bit width divides 32:
`to_bitwise_digits_le` (lines 601-626): full mask-shift groups from every
digit but the last, then the last digit (`u.data[last_i]`, whence the
nonzero precondition) while it is nonzero. -/
def toBitwiseDigitsLe (u : List Nat) (bits : Nat) : List Nat :=
  (u.dropLast.flatMap fun r => fixedDigits (2 ^ bits) (32 / bits) r)
    ++ digitsOf (2 ^ bits) (u.getLastD 0)

/-- The draining inner `while rbits >= bits` loop of
`to_inexact_bitwise_digits_le` (lines 645-655), with the recovery of the
bits of `c` lost to the `u32` truncation on the first pass
(`rbits > 32`). -/
def toInexactInner (bits c : Nat) (r rbits : Nat) : List Nat × Nat × Nat :=
  if _h : bits = 0 then ([], r, rbits)
  else if _h2 : bits ≤ rbits then
    let d := r % 2 ^ bits
    let r1 := r / 2 ^ bits
    let r2 := if 32 < rbits then c / 2 ^ (32 - (rbits - bits)) else r1
    let rest := toInexactInner bits c r2 (rbits - bits)
    (d :: rest.1, rest.2)
  else ([], r, rbits)
decreasing_by
  omega

/-- The outer per-digit loop of `to_inexact_bitwise_digits_le` (lines
638-660) with state `(r, rbits)`: `r |= c << rbits` is the `u32`-truncated
`r + c * 2^rbits % 2^32` (the or is addition as `r < 2^rbits`), then the
inner loop drains whole `bits`-sized digits; a final partial digit is
pushed after the loop. -/
def toInexactOuter (bits : Nat) : List Nat → Nat → Nat → List Nat
  | [], r, rbits => if rbits ≠ 0 then [r] else []
  | c :: rest, r, rbits =>
    let r1 := r + c * 2 ^ rbits % B
    let t := toInexactInner bits c r1 (rbits + 32)
    t.1 ++ toInexactOuter bits rest t.2.1 t.2.2

/-- Export for a power-of-two radix whose bit width does not divide 32:
`to_inexact_bitwise_digits_le` (lines 629-667), with its final
trailing-zero pop loop. -/
def toInexactBitwiseDigitsLe (u : List Nat) (bits : Nat) : List Nat :=
  stripTrailingZeros (toInexactOuter bits u 0 0)

/-- The squaring loop of the large-magnitude export path (lines 703-711):
square the chunk base until its digit count reaches `target_len`.  The
`2^24 ≤ bb` conjunct records (for termination) that every maximal
digit-group base exceeds `2^24`, since `base * radix > u32::MAX` and
`radix < 256`. -/
def growBase (targetLen : Nat) (bb bp : Nat) : Nat × Nat :=
  if h : 2 ^ 24 ≤ bb ∧ natLen bb < targetLen then
    growBase targetLen (bb * bb) (bp * 2)
  else (bb, bp)
termination_by 32 * targetLen - Nat.log2 bb
decreasing_by
  have h24 : 24 ≤ Nat.log2 bb := by
    have hne : bb ≠ 0 := by
      intro hb
      rw [hb] at h
      exact absurd h.1 (by norm_num)
    exact (Nat.le_log2 hne).2 h.1
  have hsq : Nat.log2 bb + Nat.log2 bb ≤ Nat.log2 (bb * bb) := by
    have hne : bb * bb ≠ 0 := by
      have : bb ≠ 0 := by
        intro hb
        rw [hb] at h
        exact absurd h.1 (by norm_num)
      positivity
    refine (Nat.le_log2 hne).2 ?_
    rw [pow_add]
    exact Nat.mul_le_mul (Nat.log2_self_le (by omega)) (Nat.log2_self_le (by omega))
  have hlen : Nat.log2 bb / 32 + 1 < targetLen := by
    have := h.2
    unfold natLen at this
    split at this
    · omega
    · exact this
  have : Nat.log2 bb < 32 * targetLen := by omega
  omega

/-- The digit-group emission for one chunk remainder of the two-level
export (lines 720-729): `big_power` rounds of `div_rem_digit(big_r, base)`
(modelled at value level), each remainder expanded into `power` radix
digits. -/
def emitGroups (radix base power : Nat) : Nat → Nat → List Nat
  | 0, _ => []
  | k + 1, bigR =>
    fixedDigits radix power (bigR % base) ++ emitGroups radix base power k (bigR / base)

/-- The `while digits > big_base` loop of the large-magnitude export path
(lines 714-730), tracking the current `BigUint` as its value: divide by the
squared chunk base (spec-modelled `div_rem`) and emit the remainder's digit
groups.  The `1 < bigBase` conjunct records (for termination) that the
chunk base exceeds one. -/
def toRadixBigLoop (radix base power bigBase bigPower : Nat) (d : Nat) : List Nat × Nat :=
  if h : 1 < bigBase ∧ bigBase < d then
    let rest := toRadixBigLoop radix base power bigBase bigPower (d / bigBase)
    (emitGroups radix base power bigPower (d % bigBase) ++ rest.1, rest.2)
  else ([], d)
decreasing_by
  exact Nat.div_lt_self (by omega) h.1

/-- The `while digits.data.len() > 1` loop of `to_radix_digits_le` (lines
732-739): `div_rem_digit` by the maximal digit-group base (spec-modelled,
value level), emitting `power` radix digits per round.  The `1 < base`
conjunct records (for termination) that the digit-group base exceeds
one. -/
def toRadixSmallLoop (radix base power : Nat) (d : Nat) : List Nat × Nat :=
  if h : 1 < base ∧ 1 < natLen d then
    let rest := toRadixSmallLoop radix base power (d / base)
    (fixedDigits radix power (d % base) ++ rest.1, rest.2)
  else ([], d)
decreasing_by
  have : d ≠ 0 := by
    intro hd
    rw [hd] at h
    simp [natLen] at h
  exact Nat.div_lt_self (Nat.pos_of_ne_zero this) (by omega)

/-- Export for a non-power-of-two radix: `to_radix_digits_le` (lines
671-748).  The build has `FAST_DIV_WIDE` (x86, matching the `adc`/`sbb`
intrinsics in the excerpt), so the full-width `get_radix_base` is used.
For 64 digits and up, the two-level scheme first divides by a squared
chunk base sized near the square root of the digit count; the remaining
value is drained digit-group-wise, and the last machine digit
(`digits.data[0]`) directly. -/
def toRadixDigitsLe (u : List Nat) (radix : Nat) : List Nat :=
  let bp := getRadixBase radix
  let d0 := val u
  let big :=
    if 64 ≤ natLen d0 then
      let gb := growBase (Nat.sqrt (natLen d0)) bp.1 1
      toRadixBigLoop radix bp.1 bp.2 gb.1 gb.2 d0
    else ([], d0)
  let small := toRadixSmallLoop radix bp.1 bp.2 big.2
  big.1 ++ small.1 ++ digitsOf radix ((ofNat small.2).headD 0)

/-- Little-endian radix export `to_radix_le` (lines 750-768): zero exports
as the single digit `0`; power-of-two radices use bit extraction, others
the division-based path (the source's separate `radix == 10` arm calls the
same function and is collapsed here). -/
def toRadixLe (u : List Nat) (radix : Nat) : List Nat :=
  if val u = 0 then [0]
  else if isPowerOfTwo radix then
    let bits := Nat.log2 radix
    if 32 % bits = 0 then toBitwiseDigitsLe u bits
    else toInexactBitwiseDigitsLe u bits
  else toRadixDigitsLe u radix

/-- Reversed textual export `to_str_radix_reversed` (lines 770-789): the
little-endian digits mapped to ASCII (`0..9a..z`).  The outer `Option`
models the `assert!(2 <= radix <= 36)` panic. -/
def toStrRadixReversed (u : List Nat) (radix : Nat) : Option (List Nat) :=
  if ¬(2 ≤ radix ∧ radix ≤ 36) then none
  else if val u = 0 then some [48]
  else some ((toRadixLe u radix).map fun r => if r < 10 then r + 48 else r + 97 - 10)

/-- Modelled from the spec: the public formatter `to_str_radix`
(`biguint.rs`, not part of the excerpt) reverses the reversed digit string
into the most-significant-first text. -/
def toStrRadix (u : List Nat) (radix : Nat) : Option (List Nat) :=
  (toStrRadixReversed u radix).map List.reverse

/-- Verification helper: little-endian value of a digit sequence in an
arbitrary radix (the numeric reading of a radix digit sequence, spec 3). -/
def valR (radix : Nat) : List Nat → Nat
  | [] => 0
  | d :: ds => d + radix * valR radix ds

/-- Verification helper: a sign tag as an integer factor. -/
def signFactor : Sign → Int
  | .Minus => -1
  | .NoSign => 0
  | .Plus => 1

/-!
Theorems.  First the arithmetic facts about the digit-vector core, then the
claim theorems.
-/

theorem B_pos : 0 < B := by
  norm_num [B]

theorem one_lt_B : 1 < B := by
  norm_num [B]

theorem adc_eq (carry a b : Nat) (hc : carry ≤ 1) (ha : a < B) (hb : b < B) :
    adc carry a b = ((a + b + carry) % B, (a + b + carry) / B) := by
  unfold adc
  simp only [B] at *
  split_ifs <;> refine Prod.ext ?_ ?_ <;> simp_all <;> omega

theorem sbb_eq (borrow a b : Nat) (hc : borrow ≤ 1) (ha : a < B) (hb : b < B) :
    sbb borrow a b = ((a + B - b - borrow) % B, if a < b + borrow then 1 else 0) := by
  unfold sbb
  simp only [B] at *
  split_ifs <;> refine Prod.ext ?_ ?_ <;> simp_all <;> omega

theorem div_B_le_one {n : Nat} (h : n < 2 * B) : n / B ≤ 1 := by
  have := (Nat.div_lt_iff_lt_mul B_pos).mpr (show n < 2 * B from h)
  omega

theorem val_append (a b : List Nat) : val (a ++ b) = val a + B ^ a.length * val b := by
  induction a with
  | nil => simp [val]
  | cons d ds ih =>
    simp only [List.cons_append, val, List.length_cons, pow_succ, List.append_eq]
    rw [ih]
    ring

theorem val_lt (l : List Nat) (h : ∀ d ∈ l, d < B) : val l < B ^ l.length := by
  induction l with
  | nil => simp [val]
  | cons d ds ih =>
    have hd := h d (by simp)
    have hds := ih fun x hx => h x (by simp [hx])
    simp only [val, List.length_cons, pow_succ]
    calc d + B * val ds < B + B * val ds := by omega
    _ = B * (val ds + 1) := by ring
    _ ≤ B * B ^ ds.length := by
        have : val ds + 1 ≤ B ^ ds.length := hds
        exact Nat.mul_le_mul_left B this
    _ = B ^ ds.length * B := by ring

theorem addPairs_spec (a b : List Nat) (carry : Nat) (hlen : a.length = b.length)
    (ha : ∀ d ∈ a, d < B) (hb : ∀ d ∈ b, d < B) (hc : carry ≤ 1) :
    (addPairs a b carry).1.length = a.length ∧
    (∀ d ∈ (addPairs a b carry).1, d < B) ∧
    (addPairs a b carry).2 ≤ 1 ∧
    val (addPairs a b carry).1 + B ^ a.length * (addPairs a b carry).2 =
      val a + val b + carry := by
  induction a generalizing b carry with
  | nil =>
    cases b with
    | nil => exact ⟨rfl, by simp [addPairs], hc, by simp [addPairs, val]⟩
    | cons x xs => simp at hlen
  | cons x xs ih =>
    cases b with
    | nil => simp at hlen
    | cons y ys =>
      have hx : x < B := ha x (by simp)
      have hy : y < B := hb y (by simp)
      have hcarry1 : (x + y + carry) / B ≤ 1 := div_B_le_one (by omega)
      have hrec := ih ys ((x + y + carry) / B) (by simpa using hlen)
        (fun d hd => ha d (by simp [hd])) (fun d hd => hb d (by simp [hd])) hcarry1
      have hstep : addPairs (x :: xs) (y :: ys) carry =
          ((x + y + carry) % B :: (addPairs xs ys ((x + y + carry) / B)).1,
            (addPairs xs ys ((x + y + carry) / B)).2) := by
        simp only [addPairs, adc_eq carry x y hc hx hy]
      rw [hstep]
      simp only [val, List.length_cons, pow_succ]
      refine ⟨by simp [hrec.1], ?_, hrec.2.2.1, ?_⟩
      · intro d hd
        rcases List.mem_cons.mp hd with h | h
        · subst h
          exact Nat.mod_lt _ B_pos
        · exact hrec.2.1 d h
      · have hval := hrec.2.2.2
        have hdm := Nat.div_add_mod (x + y + carry) B
        calc (x + y + carry) % B + B * val (addPairs xs ys ((x + y + carry) / B)).1 +
              B ^ xs.length * B * (addPairs xs ys ((x + y + carry) / B)).2
            = (x + y + carry) % B +
              B * (val (addPairs xs ys ((x + y + carry) / B)).1 +
                B ^ xs.length * (addPairs xs ys ((x + y + carry) / B)).2) := by ring
        _ = (x + y + carry) % B + B * (val xs + val ys + (x + y + carry) / B) := by rw [hval]
        _ = (x + y + carry) % B + B * ((x + y + carry) / B) + B * (val xs + val ys) := by ring
        _ = x + y + carry + B * (val xs + val ys) := by rw [Nat.mod_add_div]
        _ = x + B * val xs + (y + B * val ys) + carry := by ring

theorem propagateAddCarry_spec (a : List Nat) (carry : Nat)
    (ha : ∀ d ∈ a, d < B) (hc : carry ≤ 1) :
    (propagateAddCarry a carry).1.length = a.length ∧
    (∀ d ∈ (propagateAddCarry a carry).1, d < B) ∧
    (propagateAddCarry a carry).2 ≤ 1 ∧
    val (propagateAddCarry a carry).1 + B ^ a.length * (propagateAddCarry a carry).2 =
      val a + carry := by
  induction a generalizing carry with
  | nil =>
    interval_cases carry <;> simp [propagateAddCarry, val]
  | cons x xs ih =>
    interval_cases carry
    · exact ⟨rfl, ha, Nat.zero_le 1, by simp [propagateAddCarry]⟩
    · have hx : x < B := ha x (by simp)
      have h1 : (1 : Nat) ≤ 1 := le_refl 1
      have hcarry1 : (x + 0 + 1) / B ≤ 1 := div_B_le_one (by omega)
      have hrec := ih ((x + 0 + 1) / B) (fun d hd => ha d (by simp [hd])) hcarry1
      have hstep : propagateAddCarry (x :: xs) 1 =
          ((x + 0 + 1) % B :: (propagateAddCarry xs ((x + 0 + 1) / B)).1,
            (propagateAddCarry xs ((x + 0 + 1) / B)).2) := by
        simp only [propagateAddCarry, adc_eq 1 x 0 h1 hx B_pos]
      rw [hstep]
      simp only [val, List.length_cons, pow_succ]
      refine ⟨by simp [hrec.1], ?_, hrec.2.2.1, ?_⟩
      · intro d hd
        rcases List.mem_cons.mp hd with h | h
        · subst h
          exact Nat.mod_lt _ B_pos
        · exact hrec.2.1 d h
      · have hval := hrec.2.2.2
        have hdm := Nat.div_add_mod (x + 0 + 1) B
        calc (x + 0 + 1) % B + B * val (propagateAddCarry xs ((x + 0 + 1) / B)).1 +
              B ^ xs.length * B * (propagateAddCarry xs ((x + 0 + 1) / B)).2
            = (x + 0 + 1) % B +
              B * (val (propagateAddCarry xs ((x + 0 + 1) / B)).1 +
                B ^ xs.length * (propagateAddCarry xs ((x + 0 + 1) / B)).2) := by ring
        _ = (x + 0 + 1) % B + B * (val xs + (x + 0 + 1) / B) := by rw [hval]
        _ = (x + 0 + 1) % B + B * ((x + 0 + 1) / B) + B * val xs := by ring
        _ = x + 0 + 1 + B * val xs := by rw [Nat.mod_add_div]
        _ = x + B * val xs + 1 := by ring

theorem __add2_spec (a b : List Nat) (hlen : b.length ≤ a.length)
    (ha : ∀ d ∈ a, d < B) (hb : ∀ d ∈ b, d < B) :
    ∃ res c, __add2 a b = some (res, c) ∧ res.length = a.length ∧
      (∀ d ∈ res, d < B) ∧ c ≤ 1 ∧ val res + B ^ a.length * c = val a + val b := by
  have htl : (a.take b.length).length = b.length := by
    simp [List.length_take, Nat.min_eq_left hlen]
  have hlo := addPairs_spec (a.take b.length) b 0 htl
    (fun d hd => ha d (List.take_subset _ _ hd)) hb (by norm_num)
  have hhi := propagateAddCarry_spec (a.drop b.length)
    ((addPairs (a.take b.length) b 0).2)
    (fun d hd => ha d (List.drop_subset _ _ hd)) hlo.2.2.1
  refine ⟨(addPairs (a.take b.length) b 0).1 ++
      (propagateAddCarry (a.drop b.length) (addPairs (a.take b.length) b 0).2).1,
    (propagateAddCarry (a.drop b.length) (addPairs (a.take b.length) b 0).2).2,
    ?_, ?_, ?_, hhi.2.2.1, ?_⟩
  · simp [__add2, hlen]
  · simp only [List.length_append, hlo.1, htl, hhi.1, List.length_drop]
    omega
  · intro d hd
    rcases List.mem_append.mp hd with h | h
    · exact hlo.2.1 d h
    · exact hhi.2.1 d h
  · rw [val_append]
    have h1 := hlo.2.2.2
    have h2 := hhi.2.2.2
    have hlen2 : (a.drop b.length).length = a.length - b.length := List.length_drop _ _
    have hpow : B ^ a.length = B ^ b.length * B ^ (a.length - b.length) := by
      rw [← pow_add]
      congr 1
      omega
    have hva : val a = val (a.take b.length) + B ^ b.length * val (a.drop b.length) := by
      conv_lhs => rw [← List.take_append_drop b.length a]
      rw [val_append, htl]
    rw [hlo.1, htl, hpow, hva]
    rw [hlen2] at h2
    calc val (addPairs (a.take b.length) b 0).1 +
          B ^ b.length *
            val (propagateAddCarry (a.drop b.length) (addPairs (a.take b.length) b 0).2).1 +
          B ^ b.length * B ^ (a.length - b.length) *
            (propagateAddCarry (a.drop b.length) (addPairs (a.take b.length) b 0).2).2
        = val (addPairs (a.take b.length) b 0).1 +
          B ^ b.length *
            (val (propagateAddCarry (a.drop b.length) (addPairs (a.take b.length) b 0).2).1 +
              B ^ (a.length - b.length) *
                (propagateAddCarry (a.drop b.length) (addPairs (a.take b.length) b 0).2).2) := by
          ring
    _ = val (addPairs (a.take b.length) b 0).1 +
          B ^ b.length * (val (a.drop b.length) + (addPairs (a.take b.length) b 0).2) := by
          rw [h2]
    _ = (val (addPairs (a.take b.length) b 0).1 +
          B ^ b.length * (addPairs (a.take b.length) b 0).2) +
          B ^ b.length * val (a.drop b.length) := by ring
    _ = val (a.take b.length) + val b + 0 + B ^ b.length * val (a.drop b.length) := by
          rw [htl] at h1
          rw [h1]
    _ = val (a.take b.length) + B ^ b.length * val (a.drop b.length) + val b := by ring

theorem val_single (c : Nat) : val [c] = c := by
  simp [val]

theorem last_ne_zero_of_val_ge (l : List Nat) (hne : l ≠ [])
    (hd : ∀ d ∈ l, d < B) (hge : B ^ (l.length - 1) ≤ val l) :
    l.getLast? ≠ some 0 := by
  induction l with
  | nil => simp at hne
  | cons x xs ih =>
    cases xs with
    | nil =>
      intro hcontra
      have hx0 : x = 0 := by simpa using hcontra
      subst hx0
      have hv : val [(0 : Nat)] = 0 := by simp [val]
      rw [hv] at hge
      simp at hge
    | cons y ys =>
      rw [List.getLast?_cons_cons]
      refine ih (by simp) (fun d h => hd d (by simp [h])) ?_
      have hx : x < B := hd x (by simp)
      have hlen : (x :: y :: ys).length - 1 = (y :: ys).length := by simp
      rw [hlen] at hge
      have hpow : B ^ (y :: ys).length = B * B ^ ((y :: ys).length - 1) := by
        simp only [List.length_cons, Nat.add_sub_cancel]
        rw [pow_succ]
        ring
      rw [hpow, show val (x :: y :: ys) = x + B * val (y :: ys) from rfl] at hge
      by_contra hlt
      push_neg at hlt
      have h3 : val (y :: ys) + 1 ≤ B ^ ((y :: ys).length - 1) := hlt
      have h4 : B * val (y :: ys) + B ≤ B * B ^ ((y :: ys).length - 1) := by
        calc B * val (y :: ys) + B = B * (val (y :: ys) + 1) := by ring
        _ ≤ B * B ^ ((y :: ys).length - 1) := Nat.mul_le_mul_left B h3
      omega

theorem val_ge_of_wf (l : List Nat) (hl : Wf l) (hne : l ≠ []) :
    B ^ (l.length - 1) ≤ val l := by
  induction l with
  | nil => simp at hne
  | cons x xs ih =>
    cases xs with
    | nil =>
      have hx : x ≠ 0 := by
        intro h
        exact hl.2 (by simp [List.getLast?_singleton, h])
      have hv : val [x] = x := by simp [val]
      rw [hv]
      simp only [List.length_singleton, Nat.sub_self, pow_zero]
      omega
    | cons y ys =>
      have hwf : Wf (y :: ys) := by
        refine ⟨fun d h => hl.1 d (by simp [h]), ?_⟩
        have := hl.2
        rwa [List.getLast?_cons_cons] at this
      have hih := ih hwf (by simp)
      have hlen : (x :: y :: ys).length - 1 = (y :: ys).length := by simp
      rw [hlen, show val (x :: y :: ys) = x + B * val (y :: ys) from rfl]
      have hpow : B ^ (y :: ys).length = B * B ^ ((y :: ys).length - 1) := by
        simp only [List.length_cons, Nat.add_sub_cancel]
        rw [pow_succ]
        ring
      rw [hpow]
      have h2 : B * B ^ ((y :: ys).length - 1) ≤ B * val (y :: ys) :=
        Nat.mul_le_mul_left B hih
      omega

theorem addAssign_spec (a b : List Nat) (ha : Wf a) (hb : Wf b) :
    ∃ r, addAssign a b = some r ∧ val r = val a + val b ∧ Wf r := by
  by_cases hlen : a.length < b.length
  · -- self is the shorter buffer
    have htake : (b.take a.length).length = a.length := by
      simp [List.length_take]
      omega
    obtain ⟨res1, c1, heq1, hlen1, hd1, hc1, hval1⟩ :=
      __add2_spec a (b.take a.length) (by omega)
        ha.1 (fun d hd => hb.1 d (List.take_subset _ _ hd))
    obtain ⟨res2, c2, heq2, hlen2, hd2, hc2, hval2⟩ :=
      __add2_spec (b.drop a.length) [c1]
        (by simp [List.length_drop]; omega)
        (fun d hd => hb.1 d (List.drop_subset _ _ hd))
        (by
          intro d hd
          simp at hd
          subst hd
          have := one_lt_B
          omega)
    have hres : addAssign a b =
        some (if c2 ≠ 0 then (res1 ++ res2) ++ [c2] else res1 ++ res2) := by
      simp only [addAssign, if_pos hlen, heq1, heq2, Option.bind_eq_bind,
        Option.some_bind]
      rfl
    have hvalfull : val (res1 ++ res2) + B ^ b.length * c2 = val a + val b := by
      rw [val_append, hlen1]
      have hbsplit : val b = val (b.take a.length) + B ^ a.length * val (b.drop a.length) := by
        conv_lhs => rw [← List.take_append_drop a.length b]
        rw [val_append, htake]
      have hpow : B ^ b.length = B ^ a.length * B ^ (b.length - a.length) := by
        rw [← pow_add]
        congr 1
        omega
      rw [List.length_drop] at hlen2 hval2
      rw [val_single] at hval2
      rw [hbsplit, hpow]
      calc val res1 + B ^ a.length * val res2 +
            B ^ a.length * B ^ (b.length - a.length) * c2
          = val res1 + B ^ a.length * (val res2 + B ^ (b.length - a.length) * c2) := by ring
      _ = val res1 + B ^ a.length * (val (b.drop a.length) + c1) := by rw [hval2]
      _ = (val res1 + B ^ a.length * c1) + B ^ a.length * val (b.drop a.length) := by ring
      _ = val a + val (b.take a.length) + B ^ a.length * val (b.drop a.length) := by rw [hval1]
      _ = val a + (val (b.take a.length) + B ^ a.length * val (b.drop a.length)) := by ring
    have hlenfull : (res1 ++ res2).length = b.length := by
      simp [hlen1, hlen2, List.length_drop]
      omega
    by_cases hc : c2 ≠ 0
    · refine ⟨(res1 ++ res2) ++ [c2], by rw [hres, if_pos hc], ?_, ?_, ?_⟩
      · rw [val_append, hlenfull, val_single, hvalfull]
      · intro d hd
        rcases List.mem_append.mp hd with h | h
        · rcases List.mem_append.mp h with h' | h'
          · exact hd1 d h'
          · exact hd2 d h'
        · simp at h
          subst h
          have := one_lt_B
          omega
      · rw [List.getLast?_concat]
        simp
        omega
    · push_neg at hc
      subst hc
      refine ⟨res1 ++ res2, by rw [hres]; simp, ?_, ?_, ?_⟩
      · have := hvalfull
        simpa using this
      · intro d hd
        rcases List.mem_append.mp hd with h | h
        · exact hd1 d h
        · exact hd2 d h
      · have hbne : b ≠ [] := by
          intro h
          subst h
          simp at hlen
        refine last_ne_zero_of_val_ge _ ?_ ?_ ?_
        · intro h
          rw [h] at hlenfull
          simp at hlenfull
          omega
        · intro d hd
          rcases List.mem_append.mp hd with h | h
          · exact hd1 d h
          · exact hd2 d h
        · rw [hlenfull]
          have h1 : B ^ (b.length - 1) ≤ val b := val_ge_of_wf b hb hbne
          have h2 : val (res1 ++ res2) = val a + val b := by simpa using hvalfull
          omega
  · -- self is at least as long
    push_neg at hlen
    obtain ⟨res, c, heq, hlenr, hd, hc, hval⟩ := __add2_spec a b hlen ha.1 hb.1
    have hres : addAssign a b = some (if c ≠ 0 then res ++ [c] else res) := by
      simp only [addAssign, if_neg (by omega : ¬ a.length < b.length), heq,
        Option.bind_eq_bind, Option.some_bind]
      rfl
    by_cases hcc : c ≠ 0
    · refine ⟨res ++ [c], by rw [hres, if_pos hcc], ?_, ?_, ?_⟩
      · rw [val_append, hlenr, val_single, hval]
      · intro d hd'
        rcases List.mem_append.mp hd' with h | h
        · exact hd d h
        · simp at h
          subst h
          have := one_lt_B
          omega
      · rw [List.getLast?_concat]
        simp
        omega
    · push_neg at hcc
      subst hcc
      refine ⟨res, by rw [hres]; simp, by simpa using hval, hd, ?_⟩
      by_cases hane : a = []
      · subst hane
        have hb0 : b.length = 0 := by simpa using hlen
        have : b = [] := List.length_eq_zero.mp hb0
        subst this
        have : res = [] := List.length_eq_zero.mp (by simpa using hlenr)
        subst this
        simp [List.getLast?]
      · refine last_ne_zero_of_val_ge _ ?_ hd ?_
        · intro h
          rw [h] at hlenr
          exact hane (List.length_eq_zero.mp hlenr.symm)
        · rw [hlenr]
          have h1 : B ^ (a.length - 1) ≤ val a := val_ge_of_wf a ha hane
          have h2 : val res = val a + val b := by simpa using hval
          omega

theorem val_ofNat (n : Nat) : val (ofNat n) = n := by
  induction n using Nat.strong_induction_on with
  | _ n ih =>
    rw [ofNat]
    by_cases h : n = 0
    · simp [h, val]
    · rw [dif_neg h]
      have hlt : n / B < n := Nat.div_lt_self (Nat.pos_of_ne_zero h) one_lt_B
      simp only [val, ih (n / B) hlt]
      rw [Nat.mod_add_div]

theorem ofNat_digits_lt (n : Nat) : ∀ d ∈ ofNat n, d < B := by
  induction n using Nat.strong_induction_on with
  | _ n ih =>
    rw [ofNat]
    by_cases h : n = 0
    · simp [h]
    · rw [dif_neg h]
      intro d hd
      rcases List.mem_cons.mp hd with h' | h'
      · subst h'
        exact Nat.mod_lt _ B_pos
      · exact ih (n / B) (Nat.div_lt_self (Nat.pos_of_ne_zero h) one_lt_B) d h'

theorem ofNat_last (n : Nat) : (ofNat n).getLast? ≠ some 0 := by
  induction n using Nat.strong_induction_on with
  | _ n ih =>
    rw [ofNat]
    by_cases h : n = 0
    · simp [h]
    · rw [dif_neg h]
      by_cases hdiv : n / B = 0
      · rw [hdiv, ofNat]
        simp only [dif_pos rfl, List.getLast?_singleton]
        have : n % B = n := Nat.mod_eq_of_lt ((Nat.div_eq_zero_iff (by exact B_pos)).mp hdiv)
        rw [this]
        simpa using h
      · have hne : ofNat (n / B) ≠ [] := by
          rw [ofNat, dif_neg hdiv]
          simp
        rcases List.exists_cons_of_ne_nil hne with ⟨y, ys, hys⟩
        rw [hys, List.getLast?_cons_cons]
        rw [← hys]
        exact ih (n / B) (Nat.div_lt_self (Nat.pos_of_ne_zero h) one_lt_B)

theorem Wf_ofNat (n : Nat) : Wf (ofNat n) :=
  ⟨ofNat_digits_lt n, ofNat_last n⟩

theorem val_eq_zero_iff (l : List Nat) (hl : Wf l) : val l = 0 ↔ l = [] := by
  constructor
  · intro h
    cases l with
    | nil => rfl
    | cons x xs =>
      exfalso
      have hx : x = 0 ∧ val xs = 0 := by
        have hsum : x + B * val xs = 0 := h
        have h1 := Nat.eq_zero_of_add_eq_zero_right hsum
        have h2 := Nat.eq_zero_of_add_eq_zero_left hsum
        rcases Nat.mul_eq_zero.mp h2 with h3 | h3
        · have := B_pos
          omega
        · exact ⟨h1, h3⟩
      cases xs with
      | nil =>
        exact hl.2 (by simp [List.getLast?_singleton, hx.1])
      | cons y ys =>
        have hwf : Wf (y :: ys) := by
          refine ⟨fun d hh => hl.1 d (by simp [hh]), ?_⟩
          have := hl.2
          rwa [List.getLast?_cons_cons] at this
        have hge := val_ge_of_wf (y :: ys) hwf (by simp)
        have : val (y :: ys) = 0 := by
          have hx2 := hx.2
          have hB := B_pos
          exact hx2
        rw [this] at hge
        have hpos : 0 < B ^ ((y :: ys).length - 1) := pow_pos B_pos _
        omega
  · intro h
    subst h
    rfl

theorem ofNat_val (l : List Nat) (hl : Wf l) : ofNat (val l) = l := by
  induction l with
  | nil =>
    show ofNat 0 = []
    rw [ofNat]
    simp
  | cons x xs ih =>
    have hx : x < B := hl.1 x (by simp)
    have hwfxs : Wf xs := by
      refine ⟨fun d h => hl.1 d (by simp [h]), ?_⟩
      cases xs with
      | nil => simp
      | cons y ys =>
        have := hl.2
        rwa [List.getLast?_cons_cons] at this
    have hne : x + B * val xs ≠ 0 := by
      intro h
      have hx0 : x = 0 := by omega
      have hvs : val xs = 0 := by
        have hB := B_pos
        rcases Nat.eq_zero_of_add_eq_zero_left h with h'
        rcases Nat.mul_eq_zero.mp h' with h'' | h''
        · omega
        · exact h''
      have hxs : xs = [] := (val_eq_zero_iff xs hwfxs).mp hvs
      subst hxs
      subst hx0
      exact hl.2 (by simp [List.getLast?_singleton])
    show ofNat (val (x :: xs)) = x :: xs
    rw [show val (x :: xs) = x + B * val xs from rfl]
    rw [ofNat, dif_neg hne]
    congr 1
    · rw [Nat.add_mul_mod_self_left]
      exact Nat.mod_eq_of_lt hx
    · rw [Nat.add_mul_div_left _ _ B_pos, Nat.div_eq_of_lt hx]
      simpa using ih hwfxs

theorem val_inj_of_wf (a b : List Nat) (ha : Wf a) (hb : Wf b) (h : val a = val b) :
    a = b := by
  rw [← ofNat_val a ha, ← ofNat_val b hb, h]

theorem stripTrailingZeros_nil : stripTrailingZeros [] = [] := by
  rfl

theorem stripTrailingZeros_concat_zero (l : List Nat) :
    stripTrailingZeros (l ++ [0]) = stripTrailingZeros l := by
  simp [stripTrailingZeros, List.dropWhile]

theorem stripTrailingZeros_concat_ne (l : List Nat) (d : Nat) (hd : d ≠ 0) :
    stripTrailingZeros (l ++ [d]) = l ++ [d] := by
  simp [stripTrailingZeros, List.dropWhile, hd]

theorem val_stripTrailingZeros (l : List Nat) : val (stripTrailingZeros l) = val l := by
  induction l using List.reverseRecOn with
  | nil => rfl
  | append_singleton xs d ih =>
    by_cases hd : d = 0
    · subst hd
      rw [stripTrailingZeros_concat_zero, ih, val_append]
      simp [val]
    · rw [stripTrailingZeros_concat_ne xs d hd]

theorem Wf_stripTrailingZeros (l : List Nat) (hd : ∀ d ∈ l, d < B) :
    Wf (stripTrailingZeros l) := by
  induction l using List.reverseRecOn with
  | nil => exact ⟨by simp [stripTrailingZeros_nil], by simp [stripTrailingZeros_nil]⟩
  | append_singleton xs d ih =>
    by_cases hzero : d = 0
    · subst hzero
      rw [stripTrailingZeros_concat_zero]
      exact ih fun x hx => hd x (by simp [hx])
    · rw [stripTrailingZeros_concat_ne xs d hzero]
      refine ⟨hd, ?_⟩
      rw [List.getLast?_concat]
      simpa using hzero

theorem stripTrailingZeros_eq_self (l : List Nat) (hl : l.getLast? ≠ some 0) :
    stripTrailingZeros l = l := by
  induction l using List.reverseRecOn with
  | nil => rfl
  | append_singleton xs d ih =>
    have hdne : d ≠ 0 := by
      intro h
      subst h
      exact hl (by rw [List.getLast?_concat])
    exact stripTrailingZeros_concat_ne xs d hdne

theorem biguint_from_vec_of_val (l : List Nat) (hd : ∀ d ∈ l, d < B) :
    biguint_from_vec l = ofNat (val l) := by
  have h1 : Wf (biguint_from_vec l) := Wf_stripTrailingZeros l hd
  have h2 : val (biguint_from_vec l) = val l := val_stripTrailingZeros l
  rw [← h2, ofNat_val _ h1]

theorem sbb_add (borrow a b : Nat) (hc : borrow ≤ 1) (ha : a < B) (hb : b < B) :
    (sbb borrow a b).1 + b + borrow = a + B * (sbb borrow a b).2 ∧
    (sbb borrow a b).1 < B ∧ (sbb borrow a b).2 ≤ 1 := by
  rw [sbb_eq borrow a b hc ha hb]
  simp only [B] at *
  split_ifs <;> refine ⟨?_, ?_, ?_⟩ <;> omega

theorem subPairs_spec (a b : List Nat) (borrow : Nat) (hlen : a.length = b.length)
    (ha : ∀ d ∈ a, d < B) (hb : ∀ d ∈ b, d < B) (hc : borrow ≤ 1) :
    (subPairs a b borrow).1.length = a.length ∧
    (∀ d ∈ (subPairs a b borrow).1, d < B) ∧
    (subPairs a b borrow).2 ≤ 1 ∧
    val (subPairs a b borrow).1 + val b + borrow =
      val a + B ^ a.length * (subPairs a b borrow).2 := by
  induction a generalizing b borrow with
  | nil =>
    cases b with
    | nil => exact ⟨rfl, by simp [subPairs], hc, by simp [subPairs, val]⟩
    | cons x xs => simp at hlen
  | cons x xs ih =>
    cases b with
    | nil => simp at hlen
    | cons y ys =>
      have hx : x < B := ha x (by simp)
      have hy : y < B := hb y (by simp)
      obtain ⟨hs1, hs2, hs3⟩ := sbb_add borrow x y hc hx hy
      have hrec := ih ys ((sbb borrow x y).2) (by simpa using hlen)
        (fun d hd => ha d (by simp [hd])) (fun d hd => hb d (by simp [hd])) hs3
      have hstep : subPairs (x :: xs) (y :: ys) borrow =
          ((sbb borrow x y).1 :: (subPairs xs ys (sbb borrow x y).2).1,
            (subPairs xs ys (sbb borrow x y).2).2) := by
        simp only [subPairs]
      rw [hstep]
      simp only [val, List.length_cons, pow_succ]
      refine ⟨by simp [hrec.1], ?_, hrec.2.2.1, ?_⟩
      · intro d hd
        rcases List.mem_cons.mp hd with h | h
        · subst h
          exact hs2
        · exact hrec.2.1 d h
      · have hval := hrec.2.2.2
        calc (sbb borrow x y).1 + B * val (subPairs xs ys (sbb borrow x y).2).1 +
              (y + B * val ys) + borrow
            = ((sbb borrow x y).1 + y + borrow) +
              B * val (subPairs xs ys (sbb borrow x y).2).1 + B * val ys := by ring
        _ = (x + B * (sbb borrow x y).2) +
              B * val (subPairs xs ys (sbb borrow x y).2).1 + B * val ys := by rw [hs1]
        _ = x + B * (val (subPairs xs ys (sbb borrow x y).2).1 + val ys +
              (sbb borrow x y).2) := by ring
        _ = x + B * (val xs + B ^ xs.length * (subPairs xs ys (sbb borrow x y).2).2) := by
              rw [hval]
        _ = x + B * val xs + B ^ xs.length * B * (subPairs xs ys (sbb borrow x y).2).2 := by
              ring

theorem propagateSubBorrow_spec (a : List Nat) (borrow : Nat)
    (ha : ∀ d ∈ a, d < B) (hc : borrow ≤ 1) :
    (propagateSubBorrow a borrow).1.length = a.length ∧
    (∀ d ∈ (propagateSubBorrow a borrow).1, d < B) ∧
    (propagateSubBorrow a borrow).2 ≤ 1 ∧
    val (propagateSubBorrow a borrow).1 + borrow =
      val a + B ^ a.length * (propagateSubBorrow a borrow).2 := by
  induction a generalizing borrow with
  | nil =>
    interval_cases borrow
    · exact ⟨rfl, by simp [propagateSubBorrow], by decide, by simp [propagateSubBorrow, val]⟩
    · exact ⟨rfl, by simp [propagateSubBorrow], by decide, by simp [propagateSubBorrow, val]⟩
  | cons x xs ih =>
    interval_cases borrow
    · exact ⟨rfl, ha, Nat.zero_le 1, by simp [propagateSubBorrow]⟩
    · have hx : x < B := ha x (by simp)
      obtain ⟨hs1, hs2, hs3⟩ := sbb_add 1 x 0 (le_refl 1) hx B_pos
      have hrec := ih ((sbb 1 x 0).2) (fun d hd => ha d (by simp [hd])) hs3
      have hstep : propagateSubBorrow (x :: xs) 1 =
          ((sbb 1 x 0).1 :: (propagateSubBorrow xs (sbb 1 x 0).2).1,
            (propagateSubBorrow xs (sbb 1 x 0).2).2) := by
        simp only [propagateSubBorrow]
      rw [hstep]
      simp only [val, List.length_cons, pow_succ]
      refine ⟨by simp [hrec.1], ?_, hrec.2.2.1, ?_⟩
      · intro d hd
        rcases List.mem_cons.mp hd with h | h
        · rw [h]
          exact hs2
        · exact hrec.2.1 d h
      · have hval := hrec.2.2.2
        calc (sbb 1 x 0).1 + B * val (propagateSubBorrow xs (sbb 1 x 0).2).1 + 1
            = ((sbb 1 x 0).1 + 0 + 1) + B * val (propagateSubBorrow xs (sbb 1 x 0).2).1 := by
              ring
        _ = (x + B * (sbb 1 x 0).2) + B * val (propagateSubBorrow xs (sbb 1 x 0).2).1 := by
              rw [hs1]
        _ = x + B * (val (propagateSubBorrow xs (sbb 1 x 0).2).1 + (sbb 1 x 0).2) := by ring
        _ = x + B * (val xs + B ^ xs.length * (propagateSubBorrow xs (sbb 1 x 0).2).2) := by
              rw [hval]
        _ = x + B * val xs + B ^ xs.length * B * (propagateSubBorrow xs (sbb 1 x 0).2).2 := by
              ring

theorem val_eq_zero_iff_all (l : List Nat) : val l = 0 ↔ l.all (· = 0) := by
  induction l with
  | nil => simp [val]
  | cons x xs ih =>
    simp only [val, List.all_cons, Bool.and_eq_true, decide_eq_true_eq]
    constructor
    · intro h
      have hB := B_pos
      have hx : x = 0 := by omega
      have hxs : B * val xs = 0 := by omega
      rcases Nat.mul_eq_zero.mp hxs with h' | h'
      · omega
      · exact ⟨hx, by simpa using ih.mp h'⟩
    · rintro ⟨h1, h2⟩
      have hxs : val xs = 0 := ih.mpr (by simpa using h2)
      simp [h1, hxs]

theorem sub2_spec (a b : List Nat) (ha : ∀ d ∈ a, d < B) (hb : ∀ d ∈ b, d < B) :
    (sub2 a b = none ↔ val a < val b) ∧
    (∀ r, sub2 a b = some r →
      val r + val b = val a ∧ r.length = a.length ∧ ∀ d ∈ r, d < B) := by
  set len := min a.length b.length with hlendef
  have htake_a : (a.take len).length = len := by
    simp [List.length_take, hlendef]
  have htake_b : (b.take len).length = len := by
    simp [List.length_take, hlendef]
  obtain ⟨hl1, hl2, hl3, hl4⟩ := subPairs_spec (a.take len) (b.take len) 0
    (by rw [htake_a, htake_b])
    (fun d hd => ha d (List.take_subset _ _ hd))
    (fun d hd => hb d (List.take_subset _ _ hd)) (by norm_num)
  rw [htake_a] at hl4
  set lo := subPairs (a.take len) (b.take len) 0 with hlo
  -- the unified high part: in both branches of the `if`, the pair
  -- (digits, final borrow) satisfies the propagate identity
  have hhi : ∃ hi : List Nat × Nat,
      (if lo.2 ≠ 0 then propagateSubBorrow (a.drop len) lo.2 else (a.drop len, 0)) = hi ∧
      hi.1.length = (a.drop len).length ∧ (∀ d ∈ hi.1, d < B) ∧ hi.2 ≤ 1 ∧
      val hi.1 + lo.2 = val (a.drop len) + B ^ (a.drop len).length * hi.2 := by
    by_cases hz : lo.2 ≠ 0
    · obtain ⟨p1, p2, p3, p4⟩ := propagateSubBorrow_spec (a.drop len) lo.2
        (fun d hd => ha d (List.drop_subset _ _ hd)) hl3
      refine ⟨propagateSubBorrow (a.drop len) lo.2, by rw [if_pos hz], p1, p2, p3, p4⟩
    · push_neg at hz
      refine ⟨(a.drop len, 0), by rw [if_neg (by simp [hz])], rfl,
        fun d hd => ha d (List.drop_subset _ _ hd), Nat.zero_le 1, by simp [hz]⟩
  obtain ⟨hi, hieq, hi1, hi2, hi3, hi4⟩ := hhi
  have hlen_le : len ≤ a.length := by omega
  have hsplit : val a = val (a.take len) + B ^ len * val (a.drop len) := by
    conv_lhs => rw [← List.take_append_drop len a]
    rw [val_append, htake_a]
  have hbsplit : val b = val (b.take len) + B ^ len * val (b.drop len) := by
    conv_lhs => rw [← List.take_append_drop len b]
    rw [val_append, htake_b]
  have hpow : B ^ a.length = B ^ len * B ^ (a.length - len) := by
    rw [← pow_add]
    congr 1
    omega
  rw [List.length_drop] at hi4
  have hR : val (lo.1 ++ hi.1) + val (b.take len) = val a + B ^ a.length * hi.2 := by
    calc val (lo.1 ++ hi.1) + val (b.take len)
        = val lo.1 + B ^ len * val hi.1 + val (b.take len) := by
          rw [val_append, hl1, htake_a]
    _ = (val lo.1 + val (b.take len) + 0) + B ^ len * val hi.1 := by ring
    _ = (val (a.take len) + B ^ len * lo.2) + B ^ len * val hi.1 := by rw [hl4]
    _ = val (a.take len) + B ^ len * (val hi.1 + lo.2) := by ring
    _ = val (a.take len) + B ^ len * (val (a.drop len) + B ^ (a.length - len) * hi.2) := by
          rw [hi4]
    _ = (val (a.take len) + B ^ len * val (a.drop len)) +
          (B ^ len * B ^ (a.length - len)) * hi.2 := by ring
    _ = val a + B ^ a.length * hi.2 := by rw [← hsplit, ← hpow]
  have hRlen : (lo.1 ++ hi.1).length = a.length := by
    rw [List.length_append, hl1, htake_a, hi1, List.length_drop]
    omega
  have hRlt : val (lo.1 ++ hi.1) < B ^ a.length := by
    have := val_lt (lo.1 ++ hi.1) (by
      intro d hd
      rcases List.mem_append.mp hd with h | h
      · exact hl2 d h
      · exact hi2 d h)
    rwa [hRlen] at this
  have hsub2 : sub2 a b =
      (if hi.2 = 0 ∧ (b.drop len).all (· = 0) then some (lo.1 ++ hi.1) else none) := by
    simp only [sub2]
    rw [← hlendef, ← hlo, hieq]
  have hBpow_pos : 0 < B ^ len := pow_pos B_pos len
  constructor
  · constructor
    · intro hnone
      rw [hsub2] at hnone
      by_cases hcond : hi.2 = 0 ∧ (b.drop len).all (· = 0)
      · rw [if_pos hcond] at hnone
        simp at hnone
      · push_neg at hcond
        by_cases hz : hi.2 = 0
        · -- excess digits of b are nonzero
          have hall := hcond hz
          have hvd : val (b.drop len) ≠ 0 := by
            intro h
            exact hall ((val_eq_zero_iff_all _).mp h)
          -- then b is strictly longer than a, and its high part dominates
          have hblen : a.length < b.length := by
            by_contra hc
            push_neg at hc
            have : len = b.length := by omega
            have : (b.drop len).length = 0 := by
              rw [List.length_drop]
              omega
            have : b.drop len = [] := List.length_eq_zero.mp this
            rw [this] at hvd
            exact hvd rfl
          have hlena : len = a.length := by omega
          have hva : val a < B ^ len := by
            rw [hlena]
            exact val_lt a ha
          have hge : 1 ≤ val (b.drop len) := Nat.pos_of_ne_zero hvd
          have h2 : B ^ len ≤ B ^ len * val (b.drop len) := by
            calc B ^ len = B ^ len * 1 := by ring
            _ ≤ B ^ len * val (b.drop len) := Nat.mul_le_mul_left _ hge
          omega
        · -- a final borrow remained
          have hz1 : hi.2 = 1 := by omega
          rw [hz1, Nat.mul_one] at hR
          have hbtake : val (b.take len) ≤ val b := by omega
          omega
    · intro hlt
      rw [hsub2]
      have hnc : ¬ (hi.2 = 0 ∧ (b.drop len).all (· = 0)) := by
        rintro ⟨h1, h2⟩
        have hvd : val (b.drop len) = 0 := (val_eq_zero_iff_all _).mpr h2
        have hb2 : val b = val (b.take len) := by
          rw [hbsplit, hvd]
          ring
        rw [h1, Nat.mul_zero] at hR
        omega
      rw [if_neg hnc]
  · intro r hr
    rw [hsub2] at hr
    by_cases hcond : hi.2 = 0 ∧ (b.drop len).all (· = 0)
    · rw [if_pos hcond] at hr
      have hreq : r = lo.1 ++ hi.1 := by
        injection hr with h
        exact h.symm
      subst hreq
      have hvd : val (b.drop len) = 0 := (val_eq_zero_iff_all _).mpr hcond.2
      have hb2 : val b = val (b.take len) := by
        rw [hbsplit, hvd]
        ring
      rw [hcond.1, Nat.mul_zero] at hR
      refine ⟨by omega, hRlen, ?_⟩
      intro d hd
      rcases List.mem_append.mp hd with h | h
      · exact hl2 d h
      · exact hi2 d h
    · rw [if_neg hcond] at hr
      simp at hr

theorem sub2rev_spec (a b : List Nat) (ha : ∀ d ∈ a, d < B) (hb : ∀ d ∈ b, d < B) :
    (b.length < a.length → sub2rev a b = none) ∧
    (a.length ≤ b.length →
      ((sub2rev a b = none ↔ val a < val b) ∧
        (∀ r, sub2rev a b = some r →
          val r + val b = val a ∧ r.length = b.length ∧ ∀ d ∈ r, d < B))) := by
  constructor
  · intro hlt
    have hlen : min a.length b.length = b.length := by omega
    have hne : (a.drop (min a.length b.length)).isEmpty = false := by
      have hlen2 : 0 < (a.drop (min a.length b.length)).length := by
        rw [List.length_drop]
        omega
      cases hdrop : a.drop (min a.length b.length) with
      | nil =>
        rw [hdrop] at hlen2
        simp at hlen2
      | cons x xs => simp
    simp only [sub2rev, hne]
    simp
  · intro hle
    have hlen : min a.length b.length = a.length := by omega
    have htakea : a.take (min a.length b.length) = a := by
      rw [hlen]
      exact List.take_length a
    have hdropa : (a.drop (min a.length b.length)).isEmpty = true := by
      have : a.drop (min a.length b.length) = [] := by
        rw [List.drop_eq_nil_iff_le]
        omega
      rw [this]
      rfl
    have htake_b : (b.take (min a.length b.length)).length = a.length := by
      simp [List.length_take]
      omega
    obtain ⟨hl1, hl2, hl3, hl4⟩ := subPairs_spec a (b.take (min a.length b.length)) 0
      (by rw [htake_b]) ha (fun d hd => hb d (List.take_subset _ _ hd)) (by norm_num)
    have hbsplit : val b = val (b.take (min a.length b.length)) +
        B ^ a.length * val (b.drop (min a.length b.length)) := by
      conv_lhs => rw [← List.take_append_drop (min a.length b.length) b]
      rw [val_append, htake_b]
    have hva : val a < B ^ a.length := val_lt a ha
    have hlolt : val (subPairs a (b.take (min a.length b.length)) 0).1 < B ^ a.length := by
      have := val_lt (subPairs a (b.take (min a.length b.length)) 0).1 hl2
      rwa [hl1] at this
    have hsub2rev : sub2rev a b =
        (if (a.drop (min a.length b.length)).isEmpty ∧
            (subPairs a (b.take (min a.length b.length)) 0).2 = 0 ∧
            (b.drop (min a.length b.length)).all (· = 0) then
          some ((subPairs a (b.take (min a.length b.length)) 0).1 ++
            b.drop (min a.length b.length))
        else none) := by
      simp only [sub2rev, __sub2rev, htakea]
    constructor
    · constructor
      · intro hnone
        rw [hsub2rev] at hnone
        by_cases hcond : (a.drop (min a.length b.length)).isEmpty ∧
            (subPairs a (b.take (min a.length b.length)) 0).2 = 0 ∧
            (b.drop (min a.length b.length)).all (· = 0)
        · rw [if_pos hcond] at hnone
          simp at hnone
        · rw [if_neg hcond] at hnone
          have hcond2 : ¬ ((subPairs a (b.take (min a.length b.length)) 0).2 = 0 ∧
              (b.drop (min a.length b.length)).all (· = 0)) := by
            intro hc
            exact hcond ⟨hdropa, hc.1, hc.2⟩
          by_cases hz : (subPairs a (b.take (min a.length b.length)) 0).2 = 0
          · have hall := fun hc => hcond2 ⟨hz, hc⟩
            have hvd : val (b.drop (min a.length b.length)) ≠ 0 := by
              intro h
              exact hall ((val_eq_zero_iff_all _).mp h)
            have hge : 1 ≤ val (b.drop (min a.length b.length)) := Nat.pos_of_ne_zero hvd
            have h2 : B ^ a.length ≤
                B ^ a.length * val (b.drop (min a.length b.length)) := by
              calc B ^ a.length = B ^ a.length * 1 := by ring
              _ ≤ B ^ a.length * val (b.drop (min a.length b.length)) :=
                  Nat.mul_le_mul_left _ hge
            omega
          · have hz1 : (subPairs a (b.take (min a.length b.length)) 0).2 = 1 := by omega
            rw [hz1, Nat.mul_one] at hl4
            omega
      · intro hvlt
        rw [hsub2rev]
        have hnc : ¬ ((a.drop (min a.length b.length)).isEmpty ∧
            (subPairs a (b.take (min a.length b.length)) 0).2 = 0 ∧
            (b.drop (min a.length b.length)).all (· = 0)) := by
          rintro ⟨h0, h1, h2⟩
          have hvd : val (b.drop (min a.length b.length)) = 0 :=
            (val_eq_zero_iff_all _).mpr h2
          have hb2 : val b = val (b.take (min a.length b.length)) := by
            rw [hbsplit, hvd]
            ring
          rw [h1, Nat.mul_zero] at hl4
          omega
        rw [if_neg hnc]
    · intro r hr
      rw [hsub2rev] at hr
      by_cases hcond : (a.drop (min a.length b.length)).isEmpty ∧
          (subPairs a (b.take (min a.length b.length)) 0).2 = 0 ∧
          (b.drop (min a.length b.length)).all (· = 0)
      · rw [if_pos hcond] at hr
        injection hr with h
        subst h
        have hvd : val (b.drop (min a.length b.length)) = 0 :=
          (val_eq_zero_iff_all _).mpr hcond.2.2
        have hb2 : val b = val (b.take (min a.length b.length)) := by
          rw [hbsplit, hvd]
          ring
        rw [hcond.2.1, Nat.mul_zero] at hl4
        refine ⟨?_, ?_, ?_⟩
        · rw [val_append, hl1, hvd, Nat.mul_zero, Nat.add_zero]
          omega
        · rw [List.length_append, hl1, List.length_drop]
          omega
        · intro d hd
          rcases List.mem_append.mp hd with h | h
          · exact hl2 d h
          · have hz := hcond.2.2
            have : d = 0 := by
              have := List.all_eq_true.mp hz d h
              simpa using this
            rw [this]
            exact B_pos
      · rw [if_neg hcond] at hr
        simp at hr

/-- Claim C5 (amended): over the zipped prefix plus propagation, `sub2 a b`
fails fatally exactly when the numeric value of `b` exceeds the numeric
value of `a` — a nonzero final borrow, or a nonzero excess high digit of
`b` — and otherwise leaves `a` holding exactly `a - b`.  The reversed
variant `sub2rev` requires `b.len() >= a.len()` and fails fatally whenever
`a` is strictly longer, regardless of the values; under that length
precondition it fails exactly when the value of `b` exceeds the value of
`a`, and otherwise leaves `b` holding exactly `a - b`. -/
theorem claim_C5 (a b : List Nat) (ha : ∀ d ∈ a, d < B) (hb : ∀ d ∈ b, d < B) :
    (sub2 a b = none ↔ val a < val b) ∧
    (∀ r, sub2 a b = some r → val r = val a - val b ∧ r.length = a.length) ∧
    (b.length < a.length → sub2rev a b = none) ∧
    (a.length ≤ b.length →
      ((sub2rev a b = none ↔ val a < val b) ∧
        (∀ r, sub2rev a b = some r → val r = val a - val b ∧ r.length = b.length))) := by
  obtain ⟨h1, h2⟩ := sub2_spec a b ha hb
  obtain ⟨h3, h4⟩ := sub2rev_spec a b ha hb
  refine ⟨h1, ?_, h3, ?_⟩
  · intro r hr
    obtain ⟨hv, hl, _⟩ := h2 r hr
    exact ⟨by omega, hl⟩
  · intro hle
    obtain ⟨h5, h6⟩ := h4 hle
    refine ⟨h5, ?_⟩
    intro r hr
    obtain ⟨hv, hl, _⟩ := h6 r hr
    exact ⟨by omega, hl⟩

/-- Claim C5, counterexample to the claim as stated: `sub2rev` applied to
`a = [5, 0]` and `b = [3]` fails fatally (the `assert!(a_hi.is_empty())`
fires because `a` is the longer slice) even though the numeric value of `b`
(3) does not exceed the numeric value of `a` (5). -/
theorem claim_C5_counterexample :
    sub2rev [5, 0] [3] = none ∧ ¬ (val [5, 0] < val [3]) := by
  constructor
  · rfl
  · decide

/-- Claim C5, witness for the amended theorem at a concrete input. -/
theorem claim_C5_witness :
    (sub2 [5, 0, 7] [6, 0, 2] = none ↔ val [5, 0, 7] < val [6, 0, 2]) ∧
    (∀ r, sub2 [5, 0, 7] [6, 0, 2] = some r →
      val r = val [5, 0, 7] - val [6, 0, 2] ∧ r.length = [5, 0, 7].length) ∧
    ([6, 0, 2].length < [5, 0, 7].length → sub2rev [5, 0, 7] [6, 0, 2] = none) ∧
    ([5, 0, 7].length ≤ [6, 0, 2].length →
      ((sub2rev [5, 0, 7] [6, 0, 2] = none ↔ val [5, 0, 7] < val [6, 0, 2]) ∧
        (∀ r, sub2rev [5, 0, 7] [6, 0, 2] = some r →
          val r = val [5, 0, 7] - val [6, 0, 2] ∧ r.length = [6, 0, 2].length))) :=
  claim_C5 [5, 0, 7] [6, 0, 2] (by decide) (by decide)

/-- Claim C6: `BigUint` addition (`a + b` and `a += b`) produces the exact
sum of the two magnitudes and a well-formed result; the digit-vector core
`__add2` returns a final carry of 0 or 1 accounting exactly for the sum
after propagating through all of `a`'s digits; and the one-digit magnitude
`{0xFFFFFFFF}` plus `{1}` yields `{0, 1}` with 32-bit digits. -/
theorem claim_C6 (a b : List Nat) (ha : Wf a) (hb : Wf b) :
    (∃ r, biguintAdd a b = some r ∧ val r = val a + val b ∧ Wf r) ∧
    (∀ a' b' : List Nat, b'.length ≤ a'.length →
      (∀ d ∈ a', d < B) → (∀ d ∈ b', d < B) →
      ∃ res c, __add2 a' b' = some (res, c) ∧ c ≤ 1 ∧
        val res + B ^ a'.length * c = val a' + val b') ∧
    biguintAdd [4294967295] [1] = some [0, 1] := by
  refine ⟨addAssign_spec a b ha hb, ?_, ?_⟩
  · intro a' b' hlen ha' hb'
    obtain ⟨res, c, heq, _, _, hc, hval⟩ := __add2_spec a' b' hlen ha' hb'
    exact ⟨res, c, heq, hc, hval⟩
  · rfl

/-- Claim C6, witness at the concrete input from the spec's scenario. -/
theorem claim_C6_witness :
    (∃ r, biguintAdd [4294967295] [1] = some r ∧
      val r = val [4294967295] + val [1] ∧ Wf r) ∧
    (∀ a' b' : List Nat, b'.length ≤ a'.length →
      (∀ d ∈ a', d < B) → (∀ d ∈ b', d < B) →
      ∃ res c, __add2 a' b' = some (res, c) ∧ c ≤ 1 ∧
        val res + B ^ a'.length * c = val a' + val b') ∧
    biguintAdd [4294967295] [1] = some [0, 1] :=
  claim_C6 [4294967295] [1] ⟨by decide, by decide⟩ ⟨by decide, by decide⟩

theorem intVal_eq (x : BigInt) : intVal x = signFactor x.sign * (val x.data : Int) := by
  rcases x with ⟨s, d⟩
  cases s <;> simp [intVal, signFactor]

theorem WfInt_zero : WfInt bigintZero := by
  refine ⟨⟨?_, ?_⟩, ?_⟩
  · intro d hd
    simp [bigintZero] at hd
  · simp [bigintZero]
  · simp [bigintZero]

theorem intVal_zero : intVal bigintZero = 0 := rfl

theorem val_pos_of_sign (x : BigInt) (hx : WfInt x) (hs : x.sign ≠ .NoSign) :
    0 < val x.data := by
  have hne : x.data ≠ [] := fun h => hs (hx.2.mpr h)
  have := val_ge_of_wf x.data hx.1 hne
  have hp : 0 < B ^ (x.data.length - 1) := pow_pos B_pos _
  omega

theorem from_biguint_spec (s : Sign) (d : List Nat) (hd : Wf d) :
    WfInt (from_biguint s d) ∧
    intVal (from_biguint s d) = signFactor s * (val d : Int) := by
  unfold from_biguint
  split_ifs with h
  · refine ⟨WfInt_zero, ?_⟩
    rcases h with h | h
    · subst h
      simp [intVal_zero, signFactor]
    · have hdeq : d = [] := by
        cases d with
        | nil => rfl
        | cons x xs => simp at h
      subst hdeq
      simp [intVal_zero, val]
  · push_neg at h
    refine ⟨⟨hd, ?_⟩, ?_⟩
    · constructor
      · intro hcontra
        exact absurd hcontra h.1
      · intro hcontra
        subst hcontra
        simp at h
    · rw [intVal_eq]

theorem intVal_eq_zero_iff (x : BigInt) (hx : WfInt x) :
    intVal x = 0 ↔ x = bigintZero := by
  constructor
  · intro h
    rcases x with ⟨s, d⟩
    cases s with
    | NoSign =>
      have : d = [] := hx.2.mp rfl
      subst this
      rfl
    | Plus =>
      exfalso
      have hpos : 0 < val d := by
        have := val_pos_of_sign ⟨.Plus, d⟩ hx (by simp)
        simpa using this
      rw [intVal_eq] at h
      simp [signFactor] at h
      omega
    | Minus =>
      exfalso
      have hpos : 0 < val d := by
        have := val_pos_of_sign ⟨.Minus, d⟩ hx (by simp)
        simpa using this
      rw [intVal_eq] at h
      simp [signFactor] at h
      omega
  · intro h
    subst h
    rfl

theorem biguintSub_spec (a b : List Nat) (ha : ∀ d ∈ a, d < B) (hb : ∀ d ∈ b, d < B)
    (hle : val b ≤ val a) :
    ∃ r, biguintSub a b = some r ∧ val r = val a - val b ∧ Wf r := by
  obtain ⟨h1, h2⟩ := sub2_spec a b ha hb
  cases hs : sub2 a b with
  | none =>
    exfalso
    have := h1.mp hs
    omega
  | some r0 =>
    obtain ⟨hv, _, hdig⟩ := h2 r0 hs
    refine ⟨stripTrailingZeros r0, ?_, ?_, Wf_stripTrailingZeros r0 hdig⟩
    · simp [biguintSub, subAssign, hs]
    · rw [val_stripTrailingZeros]
      omega

theorem biguintCmp_lt (a b : List Nat) : biguintCmp a b = .lt ↔ val a < val b := by
  simp [biguintCmp, Nat.compare_eq_lt]

theorem biguintCmp_gt (a b : List Nat) : biguintCmp a b = .gt ↔ val b < val a := by
  simp [biguintCmp, Nat.compare_eq_gt]

theorem biguintCmp_eq (a b : List Nat) : biguintCmp a b = .eq ↔ val a = val b := by
  simp [biguintCmp, Nat.compare_eq_eq]

theorem bigintAdd_spec (a b : BigInt) (ha : WfInt a) (hb : WfInt b) :
    ∃ c, bigintAdd a b = some c ∧ WfInt c ∧ intVal c = intVal a + intVal b := by
  rcases a with ⟨sa, da⟩
  rcases b with ⟨sb, db⟩
  cases sb with
  | NoSign =>
    refine ⟨⟨sa, da⟩, ?_, ha, ?_⟩
    · cases sa <;> rfl
    · have : db = [] := hb.2.mp rfl
      subst this
      simp [intVal]
  | Plus =>
    cases sa with
    | NoSign =>
      refine ⟨⟨.Plus, db⟩, rfl, hb, ?_⟩
      have : da = [] := ha.2.mp rfl
      subst this
      simp [intVal, val]
    | Plus =>
      obtain ⟨r, hr, hrv, hrw⟩ := addAssign_spec da db ha.1 hb.1
      have hps : 0 < val da := val_pos_of_sign ⟨.Plus, da⟩ ha (by simp)
      have hrpos : 0 < val r := by omega
      have hrne : ¬ r.isEmpty := by
        intro h
        have : r = [] := by
          cases r with
          | nil => rfl
          | cons x xs => simp at h
        subst this
        simp [val] at hrpos
      obtain ⟨hw, hv⟩ := from_biguint_spec .Plus r hrw
      refine ⟨from_biguint .Plus r, ?_, hw, ?_⟩
      · show (biguintAdd da db).map (from_biguint .Plus) = _
        simp [biguintAdd, hr]
      · rw [hv, hrv]
        simp only [intVal, signFactor]
        push_cast
        ring
    | Minus =>
      -- opposite signs: Minus + Plus
      rcases Nat.lt_trichotomy (val da) (val db) with hlt | heq | hgt
      · have hcmp : biguintCmp da db = .lt := (biguintCmp_lt da db).mpr hlt
        obtain ⟨r, hr, hrv, hrw⟩ := biguintSub_spec db da hb.1.1 ha.1.1 (le_of_lt hlt)
        obtain ⟨hw, hv⟩ := from_biguint_spec .Plus r hrw
        refine ⟨from_biguint .Plus r, ?_, hw, ?_⟩
        · show (match biguintCmp da db with
            | .lt => (biguintSub db da).map (from_biguint .Plus)
            | .gt => (biguintSub da db).map (from_biguint .Minus)
            | .eq => some bigintZero) = _
          rw [hcmp, hr]
          rfl
        · rw [hv, hrv]
          simp only [intVal, signFactor]
          push_cast [Nat.cast_sub (le_of_lt hlt)]
          ring
      · have hcmp : biguintCmp da db = .eq := (biguintCmp_eq da db).mpr heq
        refine ⟨bigintZero, ?_, WfInt_zero, ?_⟩
        · show (match biguintCmp da db with
            | .lt => (biguintSub db da).map (from_biguint .Plus)
            | .gt => (biguintSub da db).map (from_biguint .Minus)
            | .eq => some bigintZero) = _
          rw [hcmp]
        · have hz : intVal bigintZero = 0 := rfl
          rw [hz]
          simp only [intVal]
          rw [heq]
          ring
      · have hcmp : biguintCmp da db = .gt := (biguintCmp_gt da db).mpr hgt
        obtain ⟨r, hr, hrv, hrw⟩ := biguintSub_spec da db ha.1.1 hb.1.1 (le_of_lt hgt)
        obtain ⟨hw, hv⟩ := from_biguint_spec .Minus r hrw
        refine ⟨from_biguint .Minus r, ?_, hw, ?_⟩
        · show (match biguintCmp da db with
            | .lt => (biguintSub db da).map (from_biguint .Plus)
            | .gt => (biguintSub da db).map (from_biguint .Minus)
            | .eq => some bigintZero) = _
          rw [hcmp, hr]
          rfl
        · rw [hv, hrv]
          simp only [intVal, signFactor]
          push_cast [Nat.cast_sub (le_of_lt hgt)]
          ring
  | Minus =>
    cases sa with
    | NoSign =>
      refine ⟨⟨.Minus, db⟩, rfl, hb, ?_⟩
      have : da = [] := ha.2.mp rfl
      subst this
      simp [intVal, val]
    | Minus =>
      obtain ⟨r, hr, hrv, hrw⟩ := addAssign_spec da db ha.1 hb.1
      have hps : 0 < val da := val_pos_of_sign ⟨.Minus, da⟩ ha (by simp)
      have hrpos : 0 < val r := by omega
      have hrne : ¬ r.isEmpty := by
        intro h
        have : r = [] := by
          cases r with
          | nil => rfl
          | cons x xs => simp at h
        subst this
        simp [val] at hrpos
      obtain ⟨hw, hv⟩ := from_biguint_spec .Minus r hrw
      refine ⟨from_biguint .Minus r, ?_, hw, ?_⟩
      · show (biguintAdd da db).map (from_biguint .Minus) = _
        simp [biguintAdd, hr]
      · rw [hv, hrv]
        simp only [intVal, signFactor]
        push_cast
        ring
    | Plus =>
      -- opposite signs: Plus + Minus
      rcases Nat.lt_trichotomy (val da) (val db) with hlt | heq | hgt
      · have hcmp : biguintCmp da db = .lt := (biguintCmp_lt da db).mpr hlt
        obtain ⟨r, hr, hrv, hrw⟩ := biguintSub_spec db da hb.1.1 ha.1.1 (le_of_lt hlt)
        obtain ⟨hw, hv⟩ := from_biguint_spec .Minus r hrw
        refine ⟨from_biguint .Minus r, ?_, hw, ?_⟩
        · show (match biguintCmp da db with
            | .lt => (biguintSub db da).map (from_biguint .Minus)
            | .gt => (biguintSub da db).map (from_biguint .Plus)
            | .eq => some bigintZero) = _
          rw [hcmp, hr]
          rfl
        · rw [hv, hrv]
          simp only [intVal, signFactor]
          push_cast [Nat.cast_sub (le_of_lt hlt)]
          ring
      · have hcmp : biguintCmp da db = .eq := (biguintCmp_eq da db).mpr heq
        refine ⟨bigintZero, ?_, WfInt_zero, ?_⟩
        · show (match biguintCmp da db with
            | .lt => (biguintSub db da).map (from_biguint .Minus)
            | .gt => (biguintSub da db).map (from_biguint .Plus)
            | .eq => some bigintZero) = _
          rw [hcmp]
        · have hz : intVal bigintZero = 0 := rfl
          rw [hz]
          simp only [intVal]
          rw [heq]
          ring
      · have hcmp : biguintCmp da db = .gt := (biguintCmp_gt da db).mpr hgt
        obtain ⟨r, hr, hrv, hrw⟩ := biguintSub_spec da db ha.1.1 hb.1.1 (le_of_lt hgt)
        obtain ⟨hw, hv⟩ := from_biguint_spec .Plus r hrw
        refine ⟨from_biguint .Plus r, ?_, hw, ?_⟩
        · show (match biguintCmp da db with
            | .lt => (biguintSub db da).map (from_biguint .Minus)
            | .gt => (biguintSub da db).map (from_biguint .Plus)
            | .eq => some bigintZero) = _
          rw [hcmp, hr]
          rfl
        · rw [hv, hrv]
          simp only [intVal, signFactor]
          push_cast [Nat.cast_sub (le_of_lt hgt)]
          ring

theorem bigintNeg_spec (a : BigInt) (ha : WfInt a) :
    WfInt (bigintNeg a) ∧ intVal (bigintNeg a) = -intVal a := by
  rcases a with ⟨s, d⟩
  cases s <;>
    exact ⟨⟨ha.1, by simpa [bigintNeg, signNeg] using ha.2⟩,
      by simp [bigintNeg, signNeg, intVal]⟩

theorem bigintSub_int_spec (a b : BigInt) (ha : WfInt a) (hb : WfInt b) :
    ∃ c, bigintSub a b = some c ∧ WfInt c ∧ intVal c = intVal a - intVal b := by
  obtain ⟨hnw, hnv⟩ := bigintNeg_spec b hb
  obtain ⟨c, hc, hcw, hcv⟩ := bigintAdd_spec a (bigintNeg b) ha hnw
  refine ⟨c, hc, hcw, ?_⟩
  rw [hcv, hnv]
  ring

theorem signFactor_mul (sa sb : Sign) :
    signFactor (signMul sa sb) = signFactor sa * signFactor sb := by
  cases sa <;> cases sb <;> simp [signMul, signFactor]

theorem bigintMul_spec (a b : BigInt) (ha : WfInt a) (hb : WfInt b) :
    WfInt (bigintMul a b) ∧ intVal (bigintMul a b) = intVal a * intVal b := by
  have hwm : Wf (biguintMul a.data b.data) := Wf_ofNat _
  obtain ⟨hw, hv⟩ := from_biguint_spec (signMul a.sign b.sign) (biguintMul a.data b.data) hwm
  refine ⟨hw, ?_⟩
  show intVal (from_biguint (signMul a.sign b.sign) (biguintMul a.data b.data)) = _
  rw [hv, signFactor_mul]
  have : val (biguintMul a.data b.data) = val a.data * val b.data := by
    simp [biguintMul, val_ofNat]
  rw [this, intVal_eq a, intVal_eq b]
  push_cast
  ring

theorem bigintMulAssign_eq (a b : BigInt) (ha : WfInt a) (hb : WfInt b) :
    bigintMulAssign a b = bigintMul a b := by
  unfold bigintMulAssign bigintMul
  by_cases hemp : (biguintMul a.data b.data).isEmpty
  · have hdeq : biguintMul a.data b.data = [] := by
      cases hm : biguintMul a.data b.data with
      | nil => rfl
      | cons x xs =>
        rw [hm] at hemp
        simp at hemp
    rw [if_pos hemp, hdeq, from_biguint]
    simp [bigintZero]
  · rw [if_neg hemp, from_biguint]
    have hsm : signMul a.sign b.sign ≠ .NoSign := by
      intro hcontra
      have hz : val a.data = 0 ∨ val b.data = 0 := by
        cases hsa : a.sign <;> cases hsb : b.sign <;>
          rw [hsa, hsb] at hcontra <;> simp [signMul] at hcontra <;>
          first
          | (left
             have : a.data = [] := ha.2.mp hsa
             simp [this, val])
          | (right
             have : b.data = [] := hb.2.mp hsb
             simp [this, val])
      have hval0 : val (biguintMul a.data b.data) = 0 := by
        simp only [biguintMul, val_ofNat]
        rcases hz with h | h <;> simp [h]
      have : biguintMul a.data b.data = [] :=
        (val_eq_zero_iff _ (Wf_ofNat _)).mp hval0
      rw [this] at hemp
      simp at hemp
    rw [if_neg]
    push_neg
    refine ⟨hsm, ?_⟩
    simpa using hemp

theorem bigintDivRem_spec (a b : BigInt) (ha : WfInt a) (hb : WfInt b)
    (hbne : val b.data ≠ 0) :
    ∃ q r, bigintDivRem a b = some (q, r) ∧ WfInt q ∧ WfInt r ∧
      q = from_biguint (signMul a.sign b.sign) (ofNat (val a.data / val b.data)) ∧
      r = from_biguint a.sign (ofNat (val a.data % val b.data)) ∧
      intVal q = signFactor a.sign * signFactor b.sign *
        ((val a.data / val b.data : Nat) : Int) ∧
      intVal r = signFactor a.sign * ((val a.data % val b.data : Nat) : Int) := by
  obtain ⟨hwq, hvq⟩ := from_biguint_spec (signMul a.sign b.sign)
    (ofNat (val a.data / val b.data)) (Wf_ofNat _)
  obtain ⟨hwr, hvr⟩ := from_biguint_spec a.sign
    (ofNat (val a.data % val b.data)) (Wf_ofNat _)
  refine ⟨_, _, ?_, hwq, hwr, rfl, rfl, ?_, ?_⟩
  · show (biguintDivRem a.data b.data).map _ = _
    rw [biguintDivRem, if_neg hbne]
    rfl
  · rw [hvq, signFactor_mul, val_ofNat]
  · rw [hvr, val_ofNat]

theorem isNegative_iff (x : BigInt) (hx : WfInt x) :
    bigintIsNegative x = true ↔ intVal x < 0 := by
  rcases x with ⟨s, d⟩
  cases s with
  | NoSign =>
    simp [bigintIsNegative, intVal]
  | Plus =>
    simp only [bigintIsNegative, intVal]
    constructor
    · intro h
      simp at h
    · intro h
      omega
  | Minus =>
    simp only [bigintIsNegative, intVal]
    have := val_pos_of_sign ⟨.Minus, d⟩ hx (by simp)
    simp only [] at this
    constructor
    · intro _
      omega
    · intro _
      rfl

theorem isPositive_iff (x : BigInt) (hx : WfInt x) :
    bigintIsPositive x = true ↔ 0 < intVal x := by
  rcases x with ⟨s, d⟩
  cases s with
  | NoSign =>
    simp [bigintIsPositive, intVal]
  | Minus =>
    simp only [bigintIsPositive, intVal]
    have := val_pos_of_sign ⟨.Minus, d⟩ hx (by simp)
    simp only [] at this
    constructor
    · intro h
      simp at h
    · intro h
      omega
  | Plus =>
    simp only [bigintIsPositive, intVal]
    have := val_pos_of_sign ⟨.Plus, d⟩ hx (by simp)
    simp only [] at this
    constructor
    · intro _
      omega
    · intro _
      rfl

theorem WfInt_one : WfInt bigintOne := by
  refine ⟨⟨?_, ?_⟩, ?_⟩
  · intro d hd
    simp [bigintOne] at hd
    subst hd
    exact one_lt_B
  · simp [bigintOne]
  · simp [bigintOne]

theorem intVal_one : intVal bigintOne = 1 := by
  simp [intVal, bigintOne, val]

theorem bigintRem_spec (a b : BigInt) (ha : WfInt a) (hb : WfInt b)
    (hbne : val b.data ≠ 0) :
    bigintRem a b = some (from_biguint a.sign (ofNat (val a.data % val b.data))) := by
  have hbs : b.sign ≠ .NoSign := by
    intro h
    have : b.data = [] := hb.2.mp h
    rw [this] at hbne
    exact hbne rfl
  have hbpos : 0 < val b.data := Nat.pos_of_ne_zero hbne
  cases hsb : b.sign with
  | NoSign => exact absurd hsb hbs
  | Plus =>
    have hivb : intVal b = (val b.data : Int) := by
      rw [intVal_eq, hsb]
      simp [signFactor]
    by_cases hsmall : val b.data < 2 ^ 32
    · have htou : bigintToU32 b = some (val b.data) := by
        rw [bigintToU32, if_pos]
        · rw [hivb]
          simp
        · rw [hivb]
          constructor
          · positivity
          · exact_mod_cast hsmall
      simp only [bigintRem, htou]
      simp [bigintRemU32, biguintModU32, if_neg hbne]
    · have htou : bigintToU32 b = none := by
        rw [bigintToU32, if_neg]
        push_neg
        intro _
        rw [hivb]
        push_neg at hsmall
        exact_mod_cast hsmall
      have htoi : bigintToI32 b = none := by
        rw [bigintToI32, if_neg]
        push_neg
        intro _
        rw [hivb]
        push_neg at hsmall
        have : (2 : Int) ^ 31 ≤ (2 : Int) ^ 32 := by norm_num
        have h2 : (2 : Int) ^ 32 ≤ (val b.data : Int) := by exact_mod_cast hsmall
        omega
      simp only [bigintRem, htou, htoi]
      obtain ⟨q, r, hqr, _, _, _, hreq, _, _⟩ := bigintDivRem_spec a b ha hb hbne
      rw [hqr]
      simp [hreq]
  | Minus =>
    have hivb : intVal b = -(val b.data : Int) := by
      rw [intVal_eq, hsb]
      simp [signFactor]
    have htou : bigintToU32 b = none := by
      rw [bigintToU32, if_neg]
      push_neg
      intro hge
      exfalso
      rw [hivb] at hge
      omega
    by_cases hsmall : val b.data ≤ 2 ^ 31
    · have htoi : bigintToI32 b = some (intVal b) := by
        rw [bigintToI32, if_pos]
        constructor
        · rw [hivb]
          have : (val b.data : Int) ≤ 2 ^ 31 := by exact_mod_cast hsmall
          omega
        · rw [hivb]
          have : (0 : Int) < 2 ^ 31 := by norm_num
          omega
      simp only [bigintRem, htou, htoi]
      have hnatabs : (intVal b).natAbs = val b.data := by
        rw [hivb]
        simp
      rw [hnatabs]
      simp [bigintRemU32, biguintModU32, if_neg hbne]
    · have htoi : bigintToI32 b = none := by
        rw [bigintToI32, if_neg]
        push_neg
        intro hge
        exfalso
        rw [hivb] at hge
        push_neg at hsmall
        have : (2 : Int) ^ 31 < (val b.data : Int) := by exact_mod_cast hsmall
        omega
      simp only [bigintRem, htou, htoi]
      obtain ⟨q, r, hqr, _, _, _, hreq, _, _⟩ := bigintDivRem_spec a b ha hb hbne
      rw [hqr]
      simp [hreq]

theorem euclid_spec (a b : BigInt) (ha : WfInt a) (hb : WfInt b)
    (hbne : val b.data ≠ 0) :
    ∃ q r qe re, bigintDivRem a b = some (q, r) ∧ WfInt q ∧ WfInt r ∧
      bigintRem a b = some r ∧
      bigintDivEuclid a b = some qe ∧ bigintRemEuclid a b = some re ∧
      bigintDivRemEuclid a b = some (qe, re) ∧
      WfInt qe ∧ WfInt re ∧
      (0 ≤ intVal r → qe = q ∧ re = r) ∧
      (intVal r < 0 → 0 < intVal b →
        intVal qe = intVal q - 1 ∧ intVal re = intVal r + intVal b) ∧
      (intVal r < 0 → intVal b < 0 →
        intVal qe = intVal q + 1 ∧ intVal re = intVal r - intVal b) := by
  obtain ⟨q, r, hqr, hwq, hwr, hqeq, hreq, hvq, hvr⟩ := bigintDivRem_spec a b ha hb hbne
  have hrem : bigintRem a b = some r := by
    rw [bigintRem_spec a b ha hb hbne, hreq]
  have hbs : b.sign ≠ .NoSign := by
    intro h
    have : b.data = [] := hb.2.mp h
    rw [this] at hbne
    exact hbne rfl
  by_cases hneg : bigintIsNegative r
  · have hrneg : intVal r < 0 := (isNegative_iff r hwr).mp hneg
    by_cases hpos : bigintIsPositive b
    · have hbpos : 0 < intVal b := (isPositive_iff b hb).mp hpos
      obtain ⟨qe, hqe, hwqe, hvqe⟩ := bigintSub_int_spec q bigintOne hwq WfInt_one
      obtain ⟨re, hre, hwre, hvre⟩ := bigintAdd_spec r b hwr hb
      refine ⟨q, r, qe, re, hqr, hwq, hwr, hrem, ?_, ?_, ?_, hwqe, hwre, ?_, ?_, ?_⟩
      · simp only [bigintDivEuclid, hqr, Option.bind_eq_bind, Option.some_bind]
        simp only [hneg, if_pos, hpos, hqe]
      · simp only [bigintRemEuclid, hrem, Option.bind_eq_bind, Option.some_bind]
        simp only [hneg, if_pos, hpos, hre]
      · simp only [bigintDivRemEuclid, hqr, Option.bind_eq_bind, Option.some_bind]
        simp only [hneg, if_pos, hpos, hqe, hre, Option.some_bind]
        rfl
      · intro h
        omega
      · intro _ _
        rw [hvqe, hvre, intVal_one]
        exact ⟨rfl, rfl⟩
      · intro _ h
        omega
    · have hbneg : intVal b < 0 := by
        cases hsb : b.sign with
        | NoSign => exact absurd hsb hbs
        | Plus =>
          exfalso
          apply hpos
          simp [bigintIsPositive, hsb]
        | Minus =>
          have := val_pos_of_sign b hb (by rw [hsb]; simp)
          rw [intVal_eq, hsb]
          simp only [signFactor]
          omega
      obtain ⟨qe, hqe, hwqe, hvqe⟩ := bigintAdd_spec q bigintOne hwq WfInt_one
      obtain ⟨re, hre, hwre, hvre⟩ := bigintSub_int_spec r b hwr hb
      have hposf : bigintIsPositive b = false := by
        simp only [Bool.not_eq_true] at hpos
        exact hpos
      refine ⟨q, r, qe, re, hqr, hwq, hwr, hrem, ?_, ?_, ?_, hwqe, hwre, ?_, ?_, ?_⟩
      · simp only [bigintDivEuclid, hqr, Option.bind_eq_bind, Option.some_bind]
        simp only [hneg, if_pos, hposf, Bool.false_eq_true, if_false, hqe]
      · simp only [bigintRemEuclid, hrem, Option.bind_eq_bind, Option.some_bind]
        simp only [hneg, if_pos, hposf, Bool.false_eq_true, if_false, hre]
      · simp only [bigintDivRemEuclid, hqr, Option.bind_eq_bind, Option.some_bind]
        simp only [hneg, if_pos, hposf, Bool.false_eq_true, if_false, hqe, hre,
          Option.some_bind]
        rfl
      · intro h
        omega
      · intro _ h
        omega
      · intro _ _
        rw [hvqe, hvre, intVal_one]
        exact ⟨rfl, rfl⟩
  · have hrpos : 0 ≤ intVal r := by
      have := (isNegative_iff r hwr).not.mp (by simpa using hneg)
      omega
    have hnegf : bigintIsNegative r = false := by
      simp only [Bool.not_eq_true] at hneg
      exact hneg
    refine ⟨q, r, q, r, hqr, hwq, hwr, hrem, ?_, ?_, ?_, hwq, hwr, ?_, ?_, ?_⟩
    · simp only [bigintDivEuclid, hqr, Option.bind_eq_bind, Option.some_bind]
      simp only [hnegf, Bool.false_eq_true, if_false]
      rfl
    · simp only [bigintRemEuclid, hrem, Option.bind_eq_bind, Option.some_bind]
      simp only [hnegf, Bool.false_eq_true, if_false]
      rfl
    · simp only [bigintDivRemEuclid, hqr, Option.bind_eq_bind, Option.some_bind]
      simp only [hnegf, Bool.false_eq_true, if_false]
      rfl
    · intro _
      exact ⟨rfl, rfl⟩
    · intro h
      omega
    · intro h
      omega

theorem neg_tmod (a b : Int) : (-a).tmod b = -(a.tmod b) := by
  rw [Int.tmod_def, Int.tmod_def, Int.neg_tdiv]
  ring

theorem signFactor_tdiv (sa sb : Sign) (A Bv : Nat) :
    (signFactor sa * (A : Int)).tdiv (signFactor sb * (Bv : Int)) =
      signFactor sa * signFactor sb * ((A / Bv : Nat) : Int) := by
  cases sa <;> cases sb <;>
    simp only [signFactor, one_mul, neg_one_mul, zero_mul, Int.zero_tdiv,
      Int.tdiv_zero, Int.neg_tdiv, Int.tdiv_neg, neg_neg, ← Int.ofNat_tdiv,
      Nat.cast_zero, neg_zero, mul_zero, mul_one] <;>
    ring

theorem signFactor_tmod (sa sb : Sign) (A Bv : Nat) (hsb : sb ≠ .NoSign) :
    (signFactor sa * (A : Int)).tmod (signFactor sb * (Bv : Int)) =
      signFactor sa * ((A % Bv : Nat) : Int) := by
  cases sb with
  | NoSign => exact absurd rfl hsb
  | Plus =>
    cases sa <;>
      simp only [signFactor, one_mul, neg_one_mul, zero_mul, Int.zero_tmod,
        neg_tmod, Int.tmod_neg, neg_neg, ← Int.ofNat_tmod, Nat.cast_zero,
        neg_zero, mul_zero, mul_one]
  | Minus =>
    cases sa <;>
      simp only [signFactor, one_mul, neg_one_mul, zero_mul, Int.zero_tmod,
        neg_tmod, Int.tmod_neg, neg_neg, ← Int.ofNat_tmod, Nat.cast_zero,
        neg_zero, mul_zero, mul_one]

theorem divrem_identity (a b : BigInt) (hb : WfInt b) (hbne : val b.data ≠ 0)
    (q r : BigInt)
    (hvq : intVal q = signFactor a.sign * signFactor b.sign *
      ((val a.data / val b.data : Nat) : Int))
    (hvr : intVal r = signFactor a.sign * ((val a.data % val b.data : Nat) : Int)) :
    intVal q * intVal b + intVal r = intVal a := by
  have hdm : (val a.data / val b.data) * val b.data + val a.data % val b.data =
      val a.data := by
    have h := Nat.div_add_mod (val a.data) (val b.data)
    rw [Nat.mul_comm] at h
    exact h
  have hcast : ((val a.data / val b.data : Nat) : Int) * (val b.data : Int) +
      ((val a.data % val b.data : Nat) : Int) = (val a.data : Int) := by
    exact_mod_cast hdm
  rw [hvq, hvr, intVal_eq a, intVal_eq b]
  cases hs : b.sign with
  | NoSign =>
    exfalso
    have : b.data = [] := hb.2.mp hs
    rw [this] at hbne
    exact hbne rfl
  | Plus =>
    simp only [signFactor]
    calc signFactor a.sign * 1 * ((val a.data / val b.data : Nat) : Int) *
          (1 * (val b.data : Int)) +
          signFactor a.sign * ((val a.data % val b.data : Nat) : Int)
        = signFactor a.sign * (((val a.data / val b.data : Nat) : Int) * (val b.data : Int) +
            ((val a.data % val b.data : Nat) : Int)) := by ring
    _ = signFactor a.sign * (val a.data : Int) := by rw [hcast]
  | Minus =>
    simp only [signFactor]
    calc signFactor a.sign * -1 * ((val a.data / val b.data : Nat) : Int) *
          (-1 * (val b.data : Int)) +
          signFactor a.sign * ((val a.data % val b.data : Nat) : Int)
        = signFactor a.sign * (((val a.data / val b.data : Nat) : Int) * (val b.data : Int) +
            ((val a.data % val b.data : Nat) : Int)) := by ring
    _ = signFactor a.sign * (val a.data : Int) := by rw [hcast]

theorem intVal_ne_zero_val (b : BigInt) (hbne : intVal b ≠ 0) : val b.data ≠ 0 := by
  intro h
  apply hbne
  rw [intVal_eq, h]
  simp

theorem abs_intVal (b : BigInt) (hbs : b.sign ≠ .NoSign) :
    |intVal b| = (val b.data : Int) := by
  rw [intVal_eq]
  cases hs : b.sign with
  | NoSign => exact absurd hs hbs
  | Plus =>
    simp only [signFactor, one_mul]
    exact abs_of_nonneg (by positivity)
  | Minus =>
    simp only [signFactor, neg_one_mul]
    rw [abs_neg]
    exact abs_of_nonneg (by positivity)

theorem ofNat_small (n : Nat) (h1 : n ≠ 0) (h2 : n < B) : ofNat n = [n] := by
  rw [ofNat, dif_neg h1, Nat.mod_eq_of_lt h2, Nat.div_eq_of_lt h2, ofNat]
  simp

theorem rem_bounds (a b : BigInt) (ha : WfInt a) (hb : WfInt b)
    (hbne : val b.data ≠ 0) (r : BigInt)
    (hvr : intVal r = signFactor a.sign * ((val a.data % val b.data : Nat) : Int)) :
    -(val b.data : Int) < intVal r ∧ intVal r < (val b.data : Int) := by
  have hmod : val a.data % val b.data < val b.data :=
    Nat.mod_lt _ (Nat.pos_of_ne_zero hbne)
  have hmodc : ((val a.data % val b.data : Nat) : Int) < (val b.data : Int) := by
    exact_mod_cast hmod
  have hmodnn : (0 : Int) ≤ ((val a.data % val b.data : Nat) : Int) := by positivity
  rw [hvr]
  cases a.sign <;> simp only [signFactor, one_mul, neg_one_mul, zero_mul] <;> omega

/-- Claim C1: the claim is right and `checked_div_rem_euclid` is a code bug:
it calls `div_rem_euclid` without the zero-divisor check its siblings have,
so a zero divisor panics (division by zero in `div_rem`) instead of
returning `None`.  This theorem evaluates the five checked variants at
dividend 1 and divisor 0: the four guarded ones return the absent-result
signal (`some none` = the Rust `None`), while `checked_div_rem_euclid`
hits the fatal path (`none` = panic). -/
theorem claim_C1_zero_divisor :
    checkedDiv bigintOne bigintZero = some none ∧
    checkedRem bigintOne bigintZero = some none ∧
    checkedDivEuclid bigintOne bigintZero = some none ∧
    checkedRemEuclid bigintOne bigintZero = some none ∧
    checkedDivRemEuclid bigintOne bigintZero = none := by
  exact ⟨rfl, rfl, rfl, rfl, rfl⟩

/-- Claim C2 (amended): for nonzero `b`, `rem_euclid` is non-negative
regardless of the divisor's sign (the code never produces a non-positive
remainder for a negative divisor: it produces `r - v ≥ 0`); `div_euclid`
and `rem_euclid` are obtained from the truncating quotient/remainder by a
±1 adjustment exactly when the truncating remainder is negative: `q - 1`
and `r + v` for a positive divisor, `q + 1` and `r - v` for a negative
one, and unchanged otherwise. -/
theorem claim_C2 (a b : BigInt) (ha : WfInt a) (hb : WfInt b)
    (hbne : intVal b ≠ 0) :
    ∃ q r qe re, bigintDivRem a b = some (q, r) ∧
      bigintDivEuclid a b = some qe ∧ bigintRemEuclid a b = some re ∧
      0 ≤ intVal re ∧
      (0 ≤ intVal r → qe = q ∧ re = r) ∧
      (intVal r < 0 → 0 < intVal b →
        intVal qe = intVal q - 1 ∧ intVal re = intVal r + intVal b) ∧
      (intVal r < 0 → intVal b < 0 →
        intVal qe = intVal q + 1 ∧ intVal re = intVal r - intVal b) := by
  have hvne : val b.data ≠ 0 := intVal_ne_zero_val b hbne
  obtain ⟨q, r, qe, re, hqr, hwq, hwr, hrem, hqe, hre, hqre, hwqe, hwre, hcase0,
    hcasep, hcasen⟩ := euclid_spec a b ha hb hvne
  obtain ⟨q', r', hqr', _, _, _, _, hvq, hvr⟩ := bigintDivRem_spec a b ha hb hvne
  rw [hqr] at hqr'
  injection hqr' with hqr2
  injection hqr2 with hq2 hr2
  subst hq2
  subst hr2
  have hbounds := rem_bounds a b ha hb hvne r hvr
  have habs : |intVal b| = (val b.data : Int) :=
    abs_intVal b (by
      intro h
      have : b.data = [] := hb.2.mp h
      rw [this] at hvne
      exact hvne rfl)
  refine ⟨q, r, qe, re, hqr, hqe, hre, ?_, hcase0, hcasep, hcasen⟩
  by_cases hrneg : 0 ≤ intVal r
  · obtain ⟨_, hre2⟩ := hcase0 hrneg
    rw [hre2]
    exact hrneg
  · push_neg at hrneg
    by_cases hbpos : 0 < intVal b
    · obtain ⟨_, hre2⟩ := hcasep hrneg hbpos
      rw [hre2]
      have : |intVal b| = intVal b := abs_of_pos hbpos
      omega
    · have hbneg : intVal b < 0 := by
        rcases lt_trichotomy (intVal b) 0 with h | h | h
        · exact h
        · exact absurd h hbne
        · exact absurd h hbpos
      obtain ⟨_, hre2⟩ := hcasen hrneg hbneg
      rw [hre2]
      have : |intVal b| = -intVal b := abs_of_neg hbneg
      omega

/-- Claim C2, counterexample to the claim as stated: with a negative
divisor the Euclidean remainder is strictly positive, not non-positive:
`(-7).rem_euclid(-2)` is `1 > 0`. -/
theorem claim_C2_counterexample :
    bigintRemEuclid ⟨.Minus, [7]⟩ ⟨.Minus, [2]⟩ = some ⟨.Plus, [1]⟩ ∧
    intVal ⟨.Minus, [2]⟩ < 0 ∧
    ¬ (intVal (⟨.Plus, [1]⟩ : BigInt) ≤ 0) := by
  refine ⟨?_, by decide, by decide⟩
  have hwa : WfInt ⟨.Minus, [7]⟩ := ⟨⟨by decide, by decide⟩, by decide⟩
  have hwb : WfInt ⟨.Minus, [2]⟩ := ⟨⟨by decide, by decide⟩, by decide⟩
  have hv2 : val [2] ≠ 0 := by decide
  have hrem := bigintRem_spec ⟨.Minus, [7]⟩ ⟨.Minus, [2]⟩ hwa hwb hv2
  have hmod : val [7] % val [2] = 1 := by decide
  rw [hmod] at hrem
  rw [ofNat_small 1 one_ne_zero one_lt_B] at hrem
  have hfb : from_biguint (⟨.Minus, [7]⟩ : BigInt).sign [1] = ⟨.Minus, [1]⟩ := by decide
  rw [hfb] at hrem
  simp only [bigintRemEuclid, hrem, Option.bind_eq_bind, Option.some_bind]
  have hneg : bigintIsNegative ⟨.Minus, [1]⟩ = true := by decide
  have hpos : bigintIsPositive ⟨.Minus, [2]⟩ = false := by decide
  simp only [hneg, if_pos, hpos, Bool.false_eq_true, if_false]
  decide

/-- Claim C2, witness for the amended theorem at a concrete input. -/
theorem claim_C2_witness :
    ∃ q r qe re,
      bigintDivRem ⟨.Minus, [7]⟩ ⟨.Minus, [2]⟩ = some (q, r) ∧
      bigintDivEuclid ⟨.Minus, [7]⟩ ⟨.Minus, [2]⟩ = some qe ∧
      bigintRemEuclid ⟨.Minus, [7]⟩ ⟨.Minus, [2]⟩ = some re ∧
      0 ≤ intVal re ∧
      (0 ≤ intVal r → qe = q ∧ re = r) ∧
      (intVal r < 0 → 0 < intVal ⟨.Minus, [2]⟩ →
        intVal qe = intVal q - 1 ∧ intVal re = intVal r + intVal ⟨.Minus, [2]⟩) ∧
      (intVal r < 0 → intVal ⟨.Minus, [2]⟩ < 0 →
        intVal qe = intVal q + 1 ∧ intVal re = intVal r - intVal ⟨.Minus, [2]⟩) :=
  claim_C2 ⟨.Minus, [7]⟩ ⟨.Minus, [2]⟩ ⟨⟨by decide, by decide⟩, by decide⟩
    ⟨⟨by decide, by decide⟩, by decide⟩ (by decide)

/-- Claim C3: for every `BigInt` a and nonzero b, the Euclidean
quotient/remainder satisfy `div_euclid(a,b) * b + rem_euclid(a,b) = a` and
`0 ≤ rem_euclid(a,b) < |b|` regardless of signs; in particular
`(-7).div_euclid(2)` is `-4` with `rem_euclid` 1. -/
theorem claim_C3 (a b : BigInt) (ha : WfInt a) (hb : WfInt b)
    (hbne : intVal b ≠ 0) :
    ∃ qe re, bigintDivEuclid a b = some qe ∧ bigintRemEuclid a b = some re ∧
      intVal qe * intVal b + intVal re = intVal a ∧
      0 ≤ intVal re ∧ intVal re < |intVal b| ∧
      (∃ q7 r7, bigintDivEuclid ⟨.Minus, [7]⟩ ⟨.Plus, [2]⟩ = some q7 ∧
        bigintRemEuclid ⟨.Minus, [7]⟩ ⟨.Plus, [2]⟩ = some r7 ∧
        intVal q7 = -4 ∧ intVal r7 = 1) := by
  have hvne : val b.data ≠ 0 := intVal_ne_zero_val b hbne
  have hbs : b.sign ≠ .NoSign := by
    intro h
    have : b.data = [] := hb.2.mp h
    rw [this] at hvne
    exact hvne rfl
  have habs : |intVal b| = (val b.data : Int) := abs_intVal b hbs
  have main : ∀ a' b' : BigInt, WfInt a' → WfInt b' → intVal b' ≠ 0 →
      ∃ qe re, bigintDivEuclid a' b' = some qe ∧ bigintRemEuclid a' b' = some re ∧
        intVal qe * intVal b' + intVal re = intVal a' ∧
        0 ≤ intVal re ∧ intVal re < |intVal b'| := by
    intro a' b' ha' hb' hbne'
    have hvne' : val b'.data ≠ 0 := intVal_ne_zero_val b' hbne'
    obtain ⟨q, r, qe, re, hqr, hwq, hwr, hrem, hqe, hre, hqre, hwqe, hwre, hcase0,
      hcasep, hcasen⟩ := euclid_spec a' b' ha' hb' hvne'
    obtain ⟨q2, r2, hqr', _, _, _, _, hvq, hvr⟩ := bigintDivRem_spec a' b' ha' hb' hvne'
    rw [hqr] at hqr'
    injection hqr' with hqr2
    injection hqr2 with hq2 hr2
    subst hq2
    subst hr2
    have hbounds := rem_bounds a' b' ha' hb' hvne' r hvr
    have hident := divrem_identity a' b' hb' hvne' q r hvq hvr
    have hbs' : b'.sign ≠ .NoSign := by
      intro h
      have : b'.data = [] := hb'.2.mp h
      rw [this] at hvne'
      exact hvne' rfl
    have habs' : |intVal b'| = (val b'.data : Int) := abs_intVal b' hbs'
    have hconn : intVal b' = (val b'.data : Int) ∨ intVal b' = -(val b'.data : Int) := by
      rw [intVal_eq b']
      cases hsx : b'.sign with
      | NoSign => exact absurd hsx hbs'
      | Plus =>
        left
        simp [signFactor]
      | Minus =>
        right
        simp [signFactor]
    refine ⟨qe, re, hqe, hre, ?_, ?_, ?_⟩
    · by_cases hrneg : 0 ≤ intVal r
      · obtain ⟨hq3, hr3⟩ := hcase0 hrneg
        rw [hq3, hr3]
        exact hident
      · push_neg at hrneg
        by_cases hbpos : 0 < intVal b'
        · obtain ⟨hq3, hr3⟩ := hcasep hrneg hbpos
          rw [hq3, hr3]
          ring_nf
          ring_nf at hident
          omega
        · have hbneg : intVal b' < 0 := by
            rcases lt_trichotomy (intVal b') 0 with h | h | h
            · exact h
            · exact absurd h hbne'
            · exact absurd h hbpos
          obtain ⟨hq3, hr3⟩ := hcasen hrneg hbneg
          rw [hq3, hr3]
          ring_nf
          ring_nf at hident
          omega
    · by_cases hrneg : 0 ≤ intVal r
      · rw [(hcase0 hrneg).2]
        exact hrneg
      · push_neg at hrneg
        by_cases hbpos : 0 < intVal b'
        · rw [(hcasep hrneg hbpos).2]
          have hposv : intVal b' = (val b'.data : Int) := by
            rcases hconn with h | h
            · exact h
            · omega
          omega
        · have hbneg : intVal b' < 0 := by
            rcases lt_trichotomy (intVal b') 0 with h | h | h
            · exact h
            · exact absurd h hbne'
            · exact absurd h hbpos
          rw [(hcasen hrneg hbneg).2]
          have hnegv : intVal b' = -(val b'.data : Int) := by
            rcases hconn with h | h
            · omega
            · exact h
          omega
    · rw [habs']
      by_cases hrneg : 0 ≤ intVal r
      · rw [(hcase0 hrneg).2]
        omega
      · push_neg at hrneg
        by_cases hbpos : 0 < intVal b'
        · rw [(hcasep hrneg hbpos).2]
          have hposv : intVal b' = (val b'.data : Int) := by
            rcases hconn with h | h
            · exact h
            · omega
          omega
        · have hbneg : intVal b' < 0 := by
            rcases lt_trichotomy (intVal b') 0 with h | h | h
            · exact h
            · exact absurd h hbne'
            · exact absurd h hbpos
          rw [(hcasen hrneg hbneg).2]
          have hnegv : intVal b' = -(val b'.data : Int) := by
            rcases hconn with h | h
            · omega
            · exact h
          omega
  obtain ⟨qe, re, h1, h2, h3, h4, h5⟩ := main a b ha hb hbne
  refine ⟨qe, re, h1, h2, h3, h4, h5, ?_⟩
  obtain ⟨qe7, re7, h71, h72, h73, h74, h75⟩ := main ⟨.Minus, [7]⟩ ⟨.Plus, [2]⟩
    ⟨⟨by decide, by decide⟩, by decide⟩ ⟨⟨by decide, by decide⟩, by decide⟩ (by decide)
  refine ⟨qe7, re7, h71, h72, ?_, ?_⟩
  · have hia : intVal (⟨.Minus, [7]⟩ : BigInt) = -7 := by decide
    have hib : intVal (⟨.Plus, [2]⟩ : BigInt) = 2 := by decide
    have habs7 : |intVal (⟨.Plus, [2]⟩ : BigInt)| = 2 := by decide
    rw [hia, hib] at h73
    rw [habs7] at h75
    omega
  · have hia : intVal (⟨.Minus, [7]⟩ : BigInt) = -7 := by decide
    have hib : intVal (⟨.Plus, [2]⟩ : BigInt) = 2 := by decide
    have habs7 : |intVal (⟨.Plus, [2]⟩ : BigInt)| = 2 := by decide
    rw [hia, hib] at h73
    rw [habs7] at h75
    omega

/-- Claim C3, witness at a concrete input. -/
theorem claim_C3_witness :
    ∃ qe re, bigintDivEuclid ⟨.Minus, [7]⟩ ⟨.Plus, [2]⟩ = some qe ∧
      bigintRemEuclid ⟨.Minus, [7]⟩ ⟨.Plus, [2]⟩ = some re ∧
      intVal qe * intVal ⟨.Plus, [2]⟩ + intVal re = intVal ⟨.Minus, [7]⟩ ∧
      0 ≤ intVal re ∧ intVal re < |intVal ⟨.Plus, [2]⟩| ∧
      (∃ q7 r7, bigintDivEuclid ⟨.Minus, [7]⟩ ⟨.Plus, [2]⟩ = some q7 ∧
        bigintRemEuclid ⟨.Minus, [7]⟩ ⟨.Plus, [2]⟩ = some r7 ∧
        intVal q7 = -4 ∧ intVal r7 = 1) :=
  claim_C3 ⟨.Minus, [7]⟩ ⟨.Plus, [2]⟩ ⟨⟨by decide, by decide⟩, by decide⟩
    ⟨⟨by decide, by decide⟩, by decide⟩ (by decide)

/-- Claim C4: for every `BigInt` a and nonzero b, the `/` and `%` operators
satisfy the truncating identity `(a / b) * b + (a % b) = a`, with the
quotient rounded toward zero (`Int.tdiv`) and the remainder carrying the
sign of the dividend (`Int.tmod`); in particular `(-7) / 2` is `-3` with
remainder `-1`. -/
theorem claim_C4 (a b : BigInt) (ha : WfInt a) (hb : WfInt b)
    (hbne : intVal b ≠ 0) :
    ∃ q r, bigintDiv a b = some q ∧ bigintRem a b = some r ∧
      intVal q * intVal b + intVal r = intVal a ∧
      intVal q = (intVal a).tdiv (intVal b) ∧
      intVal r = (intVal a).tmod (intVal b) ∧
      (∃ q7 r7, bigintDiv ⟨.Minus, [7]⟩ ⟨.Plus, [2]⟩ = some q7 ∧
        bigintRem ⟨.Minus, [7]⟩ ⟨.Plus, [2]⟩ = some r7 ∧
        intVal q7 = -3 ∧ intVal r7 = -1) := by
  have main : ∀ a' b' : BigInt, WfInt a' → WfInt b' → intVal b' ≠ 0 →
      ∃ q r, bigintDiv a' b' = some q ∧ bigintRem a' b' = some r ∧
        intVal q * intVal b' + intVal r = intVal a' ∧
        intVal q = (intVal a').tdiv (intVal b') ∧
        intVal r = (intVal a').tmod (intVal b') := by
    intro a' b' ha' hb' hbne'
    have hvne' : val b'.data ≠ 0 := intVal_ne_zero_val b' hbne'
    obtain ⟨q, r, hqr, hwq, hwr, hqeq, hreq, hvq, hvr⟩ :=
      bigintDivRem_spec a' b' ha' hb' hvne'
    have hbs' : b'.sign ≠ .NoSign := by
      intro h
      have : b'.data = [] := hb'.2.mp h
      rw [this] at hvne'
      exact hvne' rfl
    refine ⟨q, r, ?_, ?_, ?_, ?_, ?_⟩
    · simp [bigintDiv, hqr]
    · rw [bigintRem_spec a' b' ha' hb' hvne', hreq]
    · exact divrem_identity a' b' hb' hvne' q r hvq hvr
    · rw [hvq, intVal_eq a', intVal_eq b']
      exact (signFactor_tdiv a'.sign b'.sign (val a'.data) (val b'.data)).symm
    · rw [hvr, intVal_eq a', intVal_eq b']
      exact (signFactor_tmod a'.sign b'.sign (val a'.data) (val b'.data) hbs').symm
  obtain ⟨q, r, h1, h2, h3, h4, h5⟩ := main a b ha hb hbne
  refine ⟨q, r, h1, h2, h3, h4, h5, ?_⟩
  obtain ⟨q7, r7, h71, h72, _, h74, h75⟩ := main ⟨.Minus, [7]⟩ ⟨.Plus, [2]⟩
    ⟨⟨by decide, by decide⟩, by decide⟩ ⟨⟨by decide, by decide⟩, by decide⟩ (by decide)
  refine ⟨q7, r7, h71, h72, ?_, ?_⟩
  · rw [h74]
    decide
  · rw [h75]
    decide

/-- Claim C4, witness at a concrete input. -/
theorem claim_C4_witness :
    ∃ q r, bigintDiv ⟨.Minus, [7]⟩ ⟨.Plus, [2]⟩ = some q ∧
      bigintRem ⟨.Minus, [7]⟩ ⟨.Plus, [2]⟩ = some r ∧
      intVal q * intVal ⟨.Plus, [2]⟩ + intVal r = intVal ⟨.Minus, [7]⟩ ∧
      intVal q = (intVal ⟨.Minus, [7]⟩).tdiv (intVal ⟨.Plus, [2]⟩) ∧
      intVal r = (intVal ⟨.Minus, [7]⟩).tmod (intVal ⟨.Plus, [2]⟩) ∧
      (∃ q7 r7, bigintDiv ⟨.Minus, [7]⟩ ⟨.Plus, [2]⟩ = some q7 ∧
        bigintRem ⟨.Minus, [7]⟩ ⟨.Plus, [2]⟩ = some r7 ∧
        intVal q7 = -3 ∧ intVal r7 = -1) :=
  claim_C4 ⟨.Minus, [7]⟩ ⟨.Plus, [2]⟩ ⟨⟨by decide, by decide⟩, by decide⟩
    ⟨⟨by decide, by decide⟩, by decide⟩ (by decide)

/-- Claim C7: the `BigInt`-producing kernel operations preserve the
sign/magnitude invariant (`NoSign` exactly when the magnitude is zero, and
`Plus`/`Minus` never paired with a zero magnitude): signed addition, both
multiplication forms, and truncating division/remainder; and `a + (-a)`
(the dispatch of `a - a`) is the canonical `NoSign` zero for every `a`. -/
theorem claim_C7 (a b : BigInt) (ha : WfInt a) (hb : WfInt b) :
    (∃ c, bigintAdd a b = some c ∧ WfInt c) ∧
    WfInt (bigintMul a b) ∧
    WfInt (bigintMulAssign a b) ∧
    (∀ q r, bigintDivRem a b = some (q, r) → WfInt q ∧ WfInt r) ∧
    bigintAdd a (bigintNeg a) = some bigintZero := by
  refine ⟨?_, (bigintMul_spec a b ha hb).1, ?_, ?_, ?_⟩
  · obtain ⟨c, hc, hcw, _⟩ := bigintAdd_spec a b ha hb
    exact ⟨c, hc, hcw⟩
  · rw [bigintMulAssign_eq a b ha hb]
    exact (bigintMul_spec a b ha hb).1
  · intro q r hqr
    by_cases hbz : val b.data = 0
    · exfalso
      have : bigintDivRem a b = none := by
        simp [bigintDivRem, biguintDivRem, hbz]
      rw [this] at hqr
      exact Option.noConfusion hqr
    · obtain ⟨q2, r2, hqr2, hwq, hwr, _⟩ := bigintDivRem_spec a b ha hb hbz
      rw [hqr2] at hqr
      injection hqr with h3
      injection h3 with h4 h5
      rw [h4] at hwq
      rw [h5] at hwr
      exact ⟨hwq, hwr⟩
  · obtain ⟨hnw, hnv⟩ := bigintNeg_spec a ha
    obtain ⟨c, hc, hcw, hcv⟩ := bigintAdd_spec a (bigintNeg a) ha hnw
    have hzero : intVal c = 0 := by
      rw [hcv, hnv]
      ring
    have := (intVal_eq_zero_iff c hcw).mp hzero
    rw [hc, this]

theorem mapDigits_none_iff (radix : Nat) (s : List Nat) :
    mapDigits radix s = none ↔ ∃ b ∈ s, b ≠ 95 ∧ radix ≤ charDigit b := by
  induction s with
  | nil => simp [mapDigits]
  | cons x xs ih =>
    by_cases hx : x = 95
    · subst hx
      rw [show mapDigits radix (95 :: xs) = mapDigits radix xs from by
        rw [mapDigits]
        simp]
      rw [ih]
      constructor
      · rintro ⟨b, hb, hbne, hble⟩
        exact ⟨b, by simp [hb], hbne, hble⟩
      · rintro ⟨b, hb, hbne, hble⟩
        rcases List.mem_cons.mp hb with h | h
        · exact absurd h hbne
        · exact ⟨b, h, hbne, hble⟩
    · by_cases hd : charDigit x < radix
      · rw [show mapDigits radix (x :: xs) =
            (mapDigits radix xs).map (charDigit x :: ·) from by
          rw [mapDigits]
          simp [hx, hd]]
        constructor
        · intro h
          have hnone : mapDigits radix xs = none := by
            cases hmx : mapDigits radix xs with
            | none => rfl
            | some v =>
              rw [hmx] at h
              simp at h
          obtain ⟨b, hb, hbne, hble⟩ := ih.mp hnone
          exact ⟨b, by simp [hb], hbne, hble⟩
        · rintro ⟨b, hb, hbne, hble⟩
          rcases List.mem_cons.mp hb with h | h
          · subst h
            omega
          · rw [ih.mpr ⟨b, h, hbne, hble⟩]
            rfl
      · rw [show mapDigits radix (x :: xs) = none from by
          rw [mapDigits]
          simp [hx, hd]]
        simp only [true_iff]
        exact ⟨x, by simp, hx, by omega⟩

/-- Claim C8: `from_str_radix` (radix 2..=36) fails with the "empty input"
error exactly when the input, after the optional single leading `+` is
removed, is empty; it fails with the "invalid digit" error when any
non-underscore character of the stripped input is not a valid digit for the
radix, and also when an underscore leads; `""` gives the empty-input error
and `"9"` in radix 8 the invalid-digit error. -/
theorem claim_C8 (s : List Nat) (radix : Nat) (h2 : 2 ≤ radix) (h36 : radix ≤ 36) :
    (fromStrRadix s radix = some (.error .empty) ↔ stripPlus s = []) ∧
    ((stripPlus s).head? = some 95 → fromStrRadix s radix = some (.error .invalid)) ∧
    ((∃ b ∈ stripPlus s, b ≠ 95 ∧ radix ≤ charDigit b) →
      fromStrRadix s radix = some (.error .invalid)) ∧
    fromStrRadix [] radix = some (.error .empty) ∧
    fromStrRadix [57] 8 = some (.error .invalid) := by
  have hassert : ¬¬(2 ≤ radix ∧ radix ≤ 36) := not_not_intro ⟨h2, h36⟩
  have hred : fromStrRadix s radix =
      (if (stripPlus s).isEmpty then some (.error .empty)
       else if (stripPlus s).head? = some 95 then some (.error .invalid)
       else
         match mapDigits radix (stripPlus s) with
         | none => some (.error .invalid)
         | some v =>
           if isPowerOfTwo radix then
             if 32 % Nat.log2 radix = 0 then
               some (.ok (fromBitwiseDigitsLe v.reverse (Nat.log2 radix)))
             else some (.ok (fromInexactBitwiseDigitsLe v.reverse (Nat.log2 radix)))
           else (fromRadixDigitsBe v radix).map .ok) := by
    rw [fromStrRadix, if_neg hassert]
  refine ⟨⟨?_, ?_⟩, ?_, ?_, ?_, ?_⟩
  · intro h
    rw [hred] at h
    by_cases hemp : (stripPlus s).isEmpty
    · cases hsp : stripPlus s with
      | nil => rfl
      | cons x xs =>
        rw [hsp] at hemp
        simp at hemp
    · exfalso
      rw [if_neg hemp] at h
      by_cases hund : (stripPlus s).head? = some 95
      · rw [if_pos hund] at h
        simp at h
      · rw [if_neg hund] at h
        cases hmd : mapDigits radix (stripPlus s) with
        | none =>
          rw [hmd] at h
          simp at h
        | some v =>
          rw [hmd] at h
          by_cases hp2 : isPowerOfTwo radix
          · by_cases hdvd : 32 % Nat.log2 radix = 0
            · simp [hp2, hdvd] at h
            · simp [hp2, hdvd] at h
          · simp only [Bool.not_eq_true] at hp2
            simp only [hp2, Bool.false_eq_true, if_false] at h
            cases hfr : fromRadixDigitsBe v radix with
            | none =>
              rw [hfr] at h
              simp at h
            | some w =>
              rw [hfr] at h
              simp at h
  · intro h
    rw [hred, h]
    rfl
  · intro hund
    rw [hred]
    have hne : ¬ (stripPlus s).isEmpty := by
      cases hsp : stripPlus s with
      | nil =>
        rw [hsp] at hund
        simp at hund
      | cons x xs => simp
    rw [if_neg hne, if_pos hund]
  · intro hinv
    rw [hred]
    have hnone : mapDigits radix (stripPlus s) = none := (mapDigits_none_iff _ _).mpr hinv
    obtain ⟨b, hb, _, _⟩ := hinv
    have hne : ¬ (stripPlus s).isEmpty := by
      cases hsp : stripPlus s with
      | nil =>
        rw [hsp] at hb
        simp at hb
      | cons x xs => simp
    rw [if_neg hne]
    by_cases hund : (stripPlus s).head? = some 95
    · rw [if_pos hund]
    · rw [if_neg hund, hnone]
  · rw [fromStrRadix, if_neg hassert]
    rfl
  · rfl

/-- Claim C8, witness at concrete inputs (`"+1_0"` in radix 10). -/
theorem claim_C8_witness :
    (fromStrRadix [43, 49, 95, 48] 10 = some (.error .empty) ↔
      stripPlus [43, 49, 95, 48] = []) ∧
    ((stripPlus [43, 49, 95, 48]).head? = some 95 →
      fromStrRadix [43, 49, 95, 48] 10 = some (.error .invalid)) ∧
    ((∃ b ∈ stripPlus [43, 49, 95, 48], b ≠ 95 ∧ 10 ≤ charDigit b) →
      fromStrRadix [43, 49, 95, 48] 10 = some (.error .invalid)) ∧
    fromStrRadix [] 10 = some (.error .empty) ∧
    fromStrRadix [57] 8 = some (.error .invalid) :=
  claim_C8 [43, 49, 95, 48] 10 (by norm_num) (by norm_num)

/-- Claim C7, witness at a concrete input. -/
theorem claim_C7_witness :
    (∃ c, bigintAdd ⟨.Plus, [5]⟩ ⟨.Minus, [3]⟩ = some c ∧ WfInt c) ∧
    WfInt (bigintMul ⟨.Plus, [5]⟩ ⟨.Minus, [3]⟩) ∧
    WfInt (bigintMulAssign ⟨.Plus, [5]⟩ ⟨.Minus, [3]⟩) ∧
    (∀ q r, bigintDivRem ⟨.Plus, [5]⟩ ⟨.Minus, [3]⟩ = some (q, r) → WfInt q ∧ WfInt r) ∧
    bigintAdd ⟨.Plus, [5]⟩ (bigintNeg ⟨.Plus, [5]⟩) = some bigintZero :=
  claim_C7 ⟨.Plus, [5]⟩ ⟨.Minus, [3]⟩ ⟨⟨by decide, by decide⟩, by decide⟩
    ⟨⟨by decide, by decide⟩, by decide⟩

/-!
Radix-conversion correctness (claims C9 and C10).  Generic facts about
radix digit sequences first.
-/

theorem valR_append (r : Nat) (a b : List Nat) :
    valR r (a ++ b) = valR r a + r ^ a.length * valR r b := by
  induction a with
  | nil => simp [valR]
  | cons d ds ih =>
    simp only [List.cons_append, valR, List.append_eq, ih, List.length_cons, pow_succ]
    ring

theorem valR_lt (r : Nat) (l : List Nat) (h : ∀ d ∈ l, d < r) :
    valR r l < r ^ l.length := by
  induction l with
  | nil => simp [valR]
  | cons d ds ih =>
    have hd := h d (List.mem_cons_self _ _)
    have hds := ih fun e he => h e (List.mem_cons_of_mem _ he)
    have hstep : r * valR r ds + r ≤ r * r ^ ds.length := by
      rw [← Nat.mul_succ]
      exact Nat.mul_le_mul_left r (Nat.succ_le_of_lt hds)
    simp only [valR, List.length_cons, pow_succ]
    rw [Nat.mul_comm (r ^ ds.length) r]
    omega

theorem val_eq_valR (l : List Nat) : val l = valR B l := by
  induction l with
  | nil => rfl
  | cons d ds ih => simp [val, valR, ih]

theorem valR_eq_zero_of_nonempty (r : Nat) (l : List Nat) (h : valR r l ≠ 0) :
    l ≠ [] := by
  intro hl
  rw [hl] at h
  exact h rfl

theorem mod_pow_split (b k n : Nat) (hb : 0 < b) :
    n % b ^ (k + 1) = n % b + b * (n / b % b ^ k) := by
  have h1 := Nat.div_add_mod n b
  have h3 := Nat.div_add_mod n (b ^ (k + 1))
  have h2 := Nat.div_add_mod (n / b) (b ^ k)
  have h2b : b * (b ^ k * (n / b / b ^ k)) + b * (n / b % b ^ k) = b * (n / b) := by
    rw [← Nat.mul_add, h2]
  have h4 : n / b / b ^ k = n / b ^ (k + 1) := by
    rw [Nat.div_div_eq_div_mul, ← pow_succ']
  rw [h4] at h2b
  have hp : b * (b ^ k * (n / b ^ (k + 1))) = b ^ (k + 1) * (n / b ^ (k + 1)) := by
    rw [← Nat.mul_assoc, ← pow_succ']
  rw [hp] at h2b
  omega

theorem fixedDigits_length (r : Nat) : ∀ k n, (fixedDigits r k n).length = k := by
  intro k
  induction k with
  | zero => intro n; rfl
  | succ k ih => intro n; simp [fixedDigits, ih]

theorem fixedDigits_lt (r : Nat) (hr : 0 < r) :
    ∀ k n d, d ∈ fixedDigits r k n → d < r := by
  intro k
  induction k with
  | zero =>
    intro n d hd
    simp [fixedDigits] at hd
  | succ k ih =>
    intro n d hd
    simp only [fixedDigits, List.mem_cons] at hd
    rcases hd with h | h
    · rw [h]; exact Nat.mod_lt _ hr
    · exact ih _ _ h

theorem fixedDigits_val (r : Nat) (hr : 0 < r) :
    ∀ k n, valR r (fixedDigits r k n) = n % r ^ k := by
  intro k
  induction k with
  | zero => intro n; simp [fixedDigits, valR, Nat.mod_one]
  | succ k ih =>
    intro n
    simp only [fixedDigits, valR, ih]
    rw [mod_pow_split r k n hr]

theorem digitsOf_val (r : Nat) (hr : 2 ≤ r) (n : Nat) :
    valR r (digitsOf r n) = n := by
  induction n using Nat.strong_induction_on with
  | _ n ih =>
    rw [digitsOf]
    split
    · rename_i h
      rcases h with h | h
      · simp [valR, h]
      · omega
    · rename_i h
      push_neg at h
      simp only [valR]
      rw [ih (n / r) (Nat.div_lt_self (Nat.pos_of_ne_zero h.1) hr)]
      exact Nat.mod_add_div n r

theorem digitsOf_lt (r : Nat) (hr : 2 ≤ r) (n : Nat) :
    ∀ d ∈ digitsOf r n, d < r := by
  induction n using Nat.strong_induction_on with
  | _ n ih =>
    intro d hd
    rw [digitsOf] at hd
    split at hd
    · simp at hd
    · rename_i h
      push_neg at h
      simp only [List.mem_cons] at hd
      rcases hd with h1 | h1
      · rw [h1]; exact Nat.mod_lt _ (by omega)
      · exact ih (n / r) (Nat.div_lt_self (Nat.pos_of_ne_zero h.1) (by omega)) d h1

theorem length_flatMap_const (k : Nat) (f : Nat → List Nat) (l : List Nat)
    (hf : ∀ x ∈ l, (f x).length = k) : (l.flatMap f).length = l.length * k := by
  induction l with
  | nil => simp
  | cons x xs ih =>
    simp only [List.flatMap_cons, List.length_append, List.length_cons]
    rw [hf x (List.mem_cons_self _ _), ih fun y hy => hf y (List.mem_cons_of_mem _ hy)]
    ring

theorem valR_flatMap (rr k : Nat) (f : Nat → List Nat) (l : List Nat)
    (hf : ∀ x ∈ l, (f x).length = k ∧ valR rr (f x) = x) :
    valR rr (l.flatMap f) = valR (rr ^ k) l := by
  induction l with
  | nil => simp [valR]
  | cons x xs ih =>
    have hx := hf x (List.mem_cons_self _ _)
    simp only [List.flatMap_cons, valR]
    rw [valR_append, hx.1, hx.2, ih fun y hy => hf y (List.mem_cons_of_mem _ hy)]

theorem flatMap_lt (rr : Nat) (f : Nat → List Nat) (l : List Nat)
    (hf : ∀ x ∈ l, ∀ d ∈ f x, d < rr) : ∀ d ∈ l.flatMap f, d < rr := by
  intro d hd
  rw [List.mem_flatMap] at hd
  obtain ⟨x, hx, hdx⟩ := hd
  exact hf x hx d hdx

theorem foldl_radix (r : Nat) (c : List Nat) :
    ∀ a, c.foldl (fun acc d => acc * r + d) a = a * r ^ c.length + foldChunk r c := by
  induction c with
  | nil => intro a; simp [foldChunk]
  | cons d ds ih =>
    intro a
    have hchunk : foldChunk r (d :: ds) = d * r ^ ds.length + foldChunk r ds := by
      simp only [foldChunk, List.foldl_cons, Nat.zero_mul, Nat.zero_add]
      exact ih d
    simp only [List.foldl_cons, List.length_cons]
    rw [ih (a * r + d), hchunk, pow_succ]
    ring

theorem foldChunk_cons (r d : Nat) (ds : List Nat) :
    foldChunk r (d :: ds) = d * r ^ ds.length + foldChunk r ds := by
  simp only [foldChunk, List.foldl_cons, Nat.zero_mul, Nat.zero_add]
  exact foldl_radix r ds d

theorem foldChunk_append (r : Nat) (x y : List Nat) :
    foldChunk r (x ++ y) = foldChunk r x * r ^ y.length + foldChunk r y := by
  simp only [foldChunk]
  rw [List.foldl_append]
  exact foldl_radix r y _

theorem foldChunk_lt (r : Nat) (hr : 2 ≤ r) (c : List Nat) (hc : ∀ d ∈ c, d < r) :
    foldChunk r c < r ^ c.length := by
  induction c with
  | nil => simp [foldChunk]
  | cons d ds ih =>
    have hd := hc d (List.mem_cons_self _ _)
    have hds := ih fun e he => hc e (List.mem_cons_of_mem _ he)
    rw [foldChunk_cons]
    simp only [List.length_cons, pow_succ]
    have h1 : (d + 1) * r ^ ds.length ≤ r * r ^ ds.length :=
      Nat.mul_le_mul_right _ hd
    have h2 : d * r ^ ds.length + r ^ ds.length = (d + 1) * r ^ ds.length := by ring
    rw [Nat.mul_comm (r ^ ds.length) r]
    omega

theorem foldChunk_reverse (r : Nat) (l : List Nat) :
    foldChunk r l.reverse = valR r l := by
  induction l with
  | nil => simp [foldChunk, valR]
  | cons d ds ih =>
    have h1 : foldChunk r [d] = d := by simp [foldChunk]
    rw [List.reverse_cons, foldChunk_append, ih, h1]
    simp only [List.length_cons, List.length_nil, pow_one, valR]
    ring

theorem valR_eq_foldChunk_reverse (r : Nat) (l : List Nat) :
    foldChunk r l = valR r l.reverse := by
  rw [← foldChunk_reverse r l.reverse, List.reverse_reverse]

theorem chunksOf_flatten (k : Nat) (hk : 0 < k) :
    ∀ (n : Nat) (l : List Nat), l.length ≤ n → (chunksOf k l).flatten = l := by
  intro n
  induction n with
  | zero =>
    intro l hl
    have : l = [] := List.length_eq_zero.mp (Nat.le_zero.mp hl)
    rw [this, chunksOf]
    simp
  | succ n ih =>
    intro l hl
    rw [chunksOf]
    by_cases he : l.isEmpty
    · rw [if_pos (Or.inr he)]
      rw [List.isEmpty_iff] at he
      simp [he]
    · have hne : l ≠ [] := by simpa [List.isEmpty_iff] using he
      have hpos : 0 < l.length := List.length_pos.mpr hne
      rw [if_neg (by simp [he]; omega)]
      have hlen : (l.drop k).length ≤ n := by
        simp only [List.length_drop]
        omega
      simp only [List.flatten_cons]
      rw [ih _ hlen, List.take_append_drop]

theorem chunksOf_mem_facts (k : Nat) :
    ∀ (n : Nat) (l c : List Nat), l.length ≤ n → c ∈ chunksOf k l →
      c.length ≤ k ∧ ∀ x ∈ c, x ∈ l := by
  intro n
  induction n with
  | zero =>
    intro l c hl hc
    have : l = [] := List.length_eq_zero.mp (Nat.le_zero.mp hl)
    rw [this, chunksOf] at hc
    simp at hc
  | succ n ih =>
    intro l c hl hc
    rw [chunksOf] at hc
    by_cases he : l.isEmpty
    · rw [if_pos (Or.inr he)] at hc
      simp at hc
    · have hne : l ≠ [] := by simpa [List.isEmpty_iff] using he
      have hpos : 0 < l.length := List.length_pos.mpr hne
      by_cases hk0 : k = 0
      · rw [if_pos (Or.inl hk0)] at hc
        simp at hc
      · rw [if_neg (by simp [he, hk0])] at hc
        rcases List.mem_cons.mp hc with h | h
        · subst h
          refine ⟨?_, fun x hx => List.take_subset _ _ hx⟩
          simp only [List.length_take]
          omega
        · have hlen : (l.drop k).length ≤ n := by
            simp only [List.length_drop]
            omega
          obtain ⟨h1, h2⟩ := ih _ c hlen h
          exact ⟨h1, fun x hx => List.drop_subset _ _ (h2 x hx)⟩

theorem chunksOf_full (k : Nat) (hk : 0 < k) :
    ∀ (n : Nat) (l c : List Nat), l.length ≤ n → l.length % k = 0 →
      c ∈ chunksOf k l → c.length = k := by
  intro n
  induction n with
  | zero =>
    intro l c hl _ hc
    have : l = [] := List.length_eq_zero.mp (Nat.le_zero.mp hl)
    rw [this, chunksOf] at hc
    simp at hc
  | succ n ih =>
    intro l c hl hmod hc
    rw [chunksOf] at hc
    by_cases he : l.isEmpty
    · rw [if_pos (Or.inr he)] at hc
      simp at hc
    · have hne : l ≠ [] := by simpa [List.isEmpty_iff] using he
      have hpos : 0 < l.length := List.length_pos.mpr hne
      obtain ⟨m, hm⟩ := Nat.dvd_of_mod_eq_zero hmod
      have hmpos : 0 < m := by
        rcases Nat.eq_zero_or_pos m with h0 | h0
        · rw [h0, Nat.mul_zero] at hm; omega
        · exact h0
      have hkl : k ≤ l.length := by
        calc k = k * 1 := by ring
          _ ≤ k * m := Nat.mul_le_mul_left k hmpos
          _ = l.length := hm.symm
      rw [if_neg (by simp [he]; omega)] at hc
      rcases List.mem_cons.mp hc with h | h
      · subst h
        simp only [List.length_take]
        omega
      · have hlen : (l.drop k).length ≤ n := by
          simp only [List.length_drop]
          omega
        have hmod2 : (l.drop k).length % k = 0 := by
          simp only [List.length_drop]
          have : l.length - k = k * (m - 1) := by
            rw [hm, Nat.mul_sub, Nat.mul_one]
          rw [this, Nat.mul_comm]
          exact Nat.mul_mod_left _ _
        exact ih _ c hlen hmod2 h

theorem toBitwiseDigitsLe_spec (u : List Nat) (bits : Nat) (hb1 : 1 ≤ bits)
    (hdvd : 32 % bits = 0) (hu : ∀ d ∈ u, d < B) :
    valR (2 ^ bits) (toBitwiseDigitsLe u bits) = val u ∧
    ∀ d ∈ toBitwiseDigitsLe u bits, d < 2 ^ bits := by
  have hdv : bits ∣ 32 := Nat.dvd_of_mod_eq_zero hdvd
  have hk : bits * (32 / bits) = 32 := Nat.mul_div_cancel' hdv
  have hrr2 : 2 ≤ 2 ^ bits := by
    calc 2 = 2 ^ 1 := (pow_one 2).symm
      _ ≤ 2 ^ bits := Nat.pow_le_pow_right (by norm_num) hb1
  have hpow : (2 ^ bits) ^ (32 / bits) = B := by
    rw [← pow_mul, hk]
    rfl
  have hf : ∀ x ∈ u.dropLast,
      (fixedDigits (2 ^ bits) (32 / bits) x).length = 32 / bits ∧
      valR (2 ^ bits) (fixedDigits (2 ^ bits) (32 / bits) x) = x := by
    intro x hx
    have hxB : x < B := hu x (List.dropLast_subset _ hx)
    refine ⟨fixedDigits_length _ _ _, ?_⟩
    rw [fixedDigits_val _ (by omega) _ _, hpow]
    exact Nat.mod_eq_of_lt hxB
  have hlast : u.getLastD 0 < B := by
    cases hu2 : u.getLast? with
    | none =>
      rw [List.getLastD_eq_getLast?, hu2]
      simp [B_pos]
    | some x =>
      rw [List.getLastD_eq_getLast?, hu2]
      have hxmem : x ∈ u := by
        obtain ⟨h', hx⟩ :=
          List.mem_getLast?_eq_getLast (l := u) (x := x) (Option.mem_def.mpr hu2)
        rw [hx]
        exact List.getLast_mem h'
      exact hu x hxmem
  constructor
  · rw [toBitwiseDigitsLe, valR_append]
    rw [valR_flatMap _ _ _ _ hf, hpow, ← val_eq_valR]
    rw [length_flatMap_const _ _ _ fun x hx => (hf x hx).1]
    rw [digitsOf_val _ hrr2]
    rw [← pow_mul]
    have hexp : bits * (u.dropLast.length * (32 / bits)) = u.dropLast.length * 32 := by
      rw [← Nat.mul_assoc, Nat.mul_comm bits u.dropLast.length, Nat.mul_assoc, hk]
    rw [hexp]
    have hval : val u = val u.dropLast + (2 ^ (u.dropLast.length * 32)) * u.getLastD 0 := by
      cases hu3 : u.getLast? with
      | none =>
        have : u = [] := by
          cases u with
          | nil => rfl
          | cons a as => simp [List.getLast?_eq_getLast] at hu3
        subst this
        simp [val]
      | some x =>
        have hne : u ≠ [] := by
          intro h
          rw [h] at hu3
          simp at hu3
        have hdec : u.dropLast ++ [u.getLast hne] = u := List.dropLast_append_getLast hne
        have hx : u.getLastD 0 = u.getLast hne := by
          rw [List.getLastD_eq_getLast?, List.getLast?_eq_getLast u hne]
          rfl
        conv_lhs => rw [← hdec]
        rw [val_append, val_single, hx]
        have : B ^ u.dropLast.length = 2 ^ (u.dropLast.length * 32) := by
          show (2 ^ 32) ^ u.dropLast.length = _
          rw [← pow_mul, Nat.mul_comm]
        rw [this]
    rw [hval]
  · intro d hd
    rw [toBitwiseDigitsLe, List.mem_append] at hd
    rcases hd with h | h
    · exact flatMap_lt _ _ _
        (fun x _ e he => fixedDigits_lt _ (by omega) _ _ _ he) d h
    · exact digitsOf_lt _ hrr2 _ d h

theorem valR_chunks (rr k : Nat) (hk : 0 < k) :
    ∀ (n : Nat) (v : List Nat), v.length ≤ n →
      valR (rr ^ k) ((chunksOf k v).map (valR rr)) = valR rr v := by
  intro n
  induction n with
  | zero =>
    intro v hv
    have : v = [] := List.length_eq_zero.mp (Nat.le_zero.mp hv)
    subst this
    rw [chunksOf]
    simp [valR]
  | succ n ih =>
    intro v hv
    rw [chunksOf]
    by_cases he : v.isEmpty
    · rw [if_pos (Or.inr he)]
      have : v = [] := List.isEmpty_iff.mp he
      subst this
      simp [valR]
    · have hne : v ≠ [] := by simpa [List.isEmpty_iff] using he
      have hpos : 0 < v.length := List.length_pos.mpr hne
      rw [if_neg (by simp [he]; omega)]
      simp only [List.map_cons, valR]
      rw [ih (v.drop k) (by simp only [List.length_drop]; omega)]
      conv_rhs => rw [← List.take_append_drop k v, valR_append]
      by_cases hlen : k ≤ v.length
      · rw [List.length_take, Nat.min_eq_left hlen]
      · have hdrop : v.drop k = [] := List.drop_eq_nil_of_le (by omega)
        rw [hdrop]
        simp [valR]

theorem fromBitwiseDigitsLe_spec (v : List Nat) (bits : Nat) (hb1 : 1 ≤ bits)
    (hdvd : 32 % bits = 0) (hv : ∀ d ∈ v, d < 2 ^ bits) :
    val (fromBitwiseDigitsLe v bits) = valR (2 ^ bits) v ∧
    Wf (fromBitwiseDigitsLe v bits) := by
  have hdv : bits ∣ 32 := Nat.dvd_of_mod_eq_zero hdvd
  have hk : bits * (32 / bits) = 32 := Nat.mul_div_cancel' hdv
  have hbits32 : bits ≤ 32 := Nat.le_of_dvd (by norm_num) hdv
  have hkpos : 0 < 32 / bits := Nat.div_pos hbits32 (by omega)
  have hpow : (2 ^ bits) ^ (32 / bits) = B := by
    rw [← pow_mul, hk]
    rfl
  have hmap : (chunksOf (32 / bits) v).map
        (fun chunk => chunk.reverse.foldl (fun acc c => acc * 2 ^ bits + c) 0)
      = (chunksOf (32 / bits) v).map (valR (2 ^ bits)) := by
    apply List.map_congr_left
    intro c _
    exact foldChunk_reverse (2 ^ bits) c
  have hbound : ∀ d ∈ (chunksOf (32 / bits) v).map (valR (2 ^ bits)), d < B := by
    intro d hd
    rw [List.mem_map] at hd
    obtain ⟨c, hc, hcd⟩ := hd
    obtain ⟨hlen, hmem⟩ := chunksOf_mem_facts (32 / bits) v.length v c le_rfl hc
    have h1 : valR (2 ^ bits) c < (2 ^ bits) ^ c.length :=
      valR_lt _ _ fun e he => hv e (hmem e he)
    have h2 : (2 ^ bits) ^ c.length ≤ (2 ^ bits) ^ (32 / bits) :=
      Nat.pow_le_pow_right (by positivity) hlen
    rw [← hcd, ← hpow]
    omega
  have hval : val ((chunksOf (32 / bits) v).map (valR (2 ^ bits))) = valR (2 ^ bits) v := by
    rw [val_eq_valR, ← hpow, valR_chunks _ _ hkpos v.length v le_rfl]
  constructor
  · simp only [fromBitwiseDigitsLe, biguint_from_vec]
    rw [hmap, val_stripTrailingZeros, hval]
  · simp only [fromBitwiseDigitsLe, biguint_from_vec]
    rw [hmap]
    exact Wf_stripTrailingZeros _ hbound

theorem trunc_algebra (dbits bits q s V : Nat) (hd : dbits < 32) (h32 : 32 ≤ dbits + bits) :
    s * 2 ^ dbits + B * (q + 2 ^ (dbits + bits - 32) * V)
      = 2 ^ dbits * (2 ^ (32 - dbits) * q + s + 2 ^ bits * V) := by
  have e1 : (2:Nat) ^ dbits * 2 ^ (32 - dbits) = B := by
    show _ = 2 ^ 32
    rw [← pow_add]
    congr 1
    omega
  have e2 : B * 2 ^ (dbits + bits - 32) = 2 ^ dbits * 2 ^ bits := by
    show 2 ^ 32 * _ = _
    rw [← pow_add, ← pow_add]
    congr 1
    omega
  calc s * 2 ^ dbits + B * (q + 2 ^ (dbits + bits - 32) * V)
      = s * 2 ^ dbits + B * q + B * 2 ^ (dbits + bits - 32) * V := by ring
    _ = s * 2 ^ dbits + 2 ^ dbits * 2 ^ (32 - dbits) * q + 2 ^ dbits * 2 ^ bits * V := by
        rw [e1, e2]
    _ = 2 ^ dbits * (2 ^ (32 - dbits) * q + s + 2 ^ bits * V) := by ring

theorem truncation_facts (c dbits bits : Nat) (hd : dbits < 32) (h32 : 32 ≤ dbits + bits)
    (hb : bits ≤ 32) (hc : c < 2 ^ bits) :
    c * 2 ^ dbits % B = c % 2 ^ (32 - dbits) * 2 ^ dbits ∧
    c % 2 ^ (32 - dbits) * 2 ^ dbits + 2 ^ dbits ≤ B ∧
    c / 2 ^ (32 - dbits) < 2 ^ (dbits + bits - 32) := by
  have hQpos : (0:Nat) < 2 ^ (32 - dbits) := by positivity
  have hp32 : (2:Nat) ^ 32 = 2 ^ (32 - dbits) * 2 ^ dbits := by
    rw [← pow_add]
    congr 1
    omega
  refine ⟨?_, ?_, ?_⟩
  · show c * 2 ^ dbits % 2 ^ 32 = _
    rw [hp32, Nat.mul_mod_mul_right]
  · have h1 : c % 2 ^ (32 - dbits) < 2 ^ (32 - dbits) := Nat.mod_lt _ hQpos
    have h2 : (c % 2 ^ (32 - dbits) + 1) * 2 ^ dbits ≤ 2 ^ (32 - dbits) * 2 ^ dbits :=
      Nat.mul_le_mul_right _ h1
    have h3 : c % 2 ^ (32 - dbits) * 2 ^ dbits + 2 ^ dbits
        = (c % 2 ^ (32 - dbits) + 1) * 2 ^ dbits := by ring
    show _ ≤ 2 ^ 32
    rw [hp32]
    omega
  · rw [Nat.div_lt_iff_lt_mul hQpos]
    calc c < 2 ^ bits := hc
      _ ≤ 2 ^ (dbits + bits - 32) * 2 ^ (32 - dbits) := by
        rw [← pow_add]
        apply Nat.pow_le_pow_right (by norm_num)
        omega

theorem fromInexactLoop_spec (bits : Nat) (hb1 : 1 ≤ bits) (hb32 : bits ≤ 32) :
    ∀ (v : List Nat) (d dbits : Nat), d < 2 ^ dbits → dbits < 32 →
      (∀ c ∈ v, c < 2 ^ bits) →
      val (fromInexactLoop bits v d dbits) = d + 2 ^ dbits * valR (2 ^ bits) v ∧
      ∀ e ∈ fromInexactLoop bits v d dbits, e < B := by
  intro v
  induction v with
  | nil =>
    intro d dbits hd hdb _
    simp only [fromInexactLoop, valR]
    by_cases h : 0 < dbits
    · rw [if_pos h]
      refine ⟨by simp [val], ?_⟩
      intro e he
      simp only [List.mem_singleton] at he
      subst he
      have h1 : (2:Nat) ^ dbits ≤ 2 ^ 31 := Nat.pow_le_pow_right (by norm_num) (by omega)
      have hB : (2:Nat) ^ 31 < B := by norm_num [B]
      omega
    · rw [if_neg h]
      have hdb0 : dbits = 0 := by omega
      subst hdb0
      simp only [pow_zero] at hd
      refine ⟨?_, by intro e he; simp at he⟩
      simp only [val]
      omega
  | cons c rest ih =>
    intro d dbits hd hdb hv
    have hc : c < 2 ^ bits := hv c (List.mem_cons_self _ _)
    have hrest : ∀ x ∈ rest, x < 2 ^ bits := fun x hx => hv x (List.mem_cons_of_mem _ hx)
    simp only [fromInexactLoop]
    by_cases hcase : 32 ≤ dbits + bits
    · rw [if_pos hcase]
      have harg : bits - (dbits + bits - 32) = 32 - dbits := by omega
      rw [harg]
      obtain ⟨hmod, hlo, hchi⟩ := truncation_facts c dbits bits hdb hcase hb32 hc
      obtain ⟨ihval, ihlt⟩ :=
        ih (c / 2 ^ (32 - dbits)) (dbits + bits - 32) hchi (by omega) hrest
      constructor
      · simp only [val, valR]
        rw [ihval, hmod]
        have halg := trunc_algebra dbits bits (c / 2 ^ (32 - dbits)) (c % 2 ^ (32 - dbits))
          (valR (2 ^ bits) rest) hdb hcase
        have hc2 : 2 ^ (32 - dbits) * (c / 2 ^ (32 - dbits)) + c % 2 ^ (32 - dbits) = c :=
          Nat.div_add_mod c _
        rw [hc2] at halg
        omega
      · intro e he
        rcases List.mem_cons.mp he with h | h
        · subst h
          rw [hmod]
          omega
        · exact ihlt e h
    · rw [if_neg hcase]
      have h3 : (2:Nat) ^ bits * 2 ^ dbits = 2 ^ (dbits + bits) := by
        rw [← pow_add]
        congr 1
        omega
      have hmod : c * 2 ^ dbits % B = c * 2 ^ dbits := by
        apply Nat.mod_eq_of_lt
        have h1 : (c + 1) * 2 ^ dbits ≤ 2 ^ bits * 2 ^ dbits := Nat.mul_le_mul_right _ hc
        have h2 : c * 2 ^ dbits + 2 ^ dbits = (c + 1) * 2 ^ dbits := by ring
        have h4 : (2:Nat) ^ (dbits + bits) < 2 ^ 32 :=
          Nat.pow_lt_pow_right (by norm_num) (by omega)
        show _ < 2 ^ 32
        omega
      have hd1 : d + c * 2 ^ dbits % B < 2 ^ (dbits + bits) := by
        rw [hmod]
        have h1 : (c + 1) * 2 ^ dbits ≤ 2 ^ bits * 2 ^ dbits := Nat.mul_le_mul_right _ hc
        have h2 : c * 2 ^ dbits + 2 ^ dbits = (c + 1) * 2 ^ dbits := by ring
        omega
      obtain ⟨ihval, ihlt⟩ := ih (d + c * 2 ^ dbits % B) (dbits + bits) hd1 (by omega) hrest
      refine ⟨?_, ihlt⟩
      rw [ihval, hmod]
      simp only [valR]
      rw [show (2:Nat) ^ (dbits + bits) = 2 ^ dbits * 2 ^ bits by rw [← pow_add]]
      ring

theorem valR_stripTrailingZeros (r : Nat) (l : List Nat) :
    valR r (stripTrailingZeros l) = valR r l := by
  induction l using List.reverseRecOn with
  | nil => simp [stripTrailingZeros, valR]
  | append_singleton xs x ih =>
    by_cases hx : x = 0
    · subst hx
      rw [stripTrailingZeros_concat_zero, ih, valR_append]
      simp [valR]
    · rw [stripTrailingZeros_concat_ne _ _ hx]

theorem mem_stripTrailingZeros (l : List Nat) (d : Nat) (hd : d ∈ stripTrailingZeros l) :
    d ∈ l := by
  simp only [stripTrailingZeros] at hd
  rw [List.mem_reverse] at hd
  have h1 : d ∈ l.reverse := (List.dropWhile_sublist _).subset hd
  exact List.mem_reverse.mp h1

theorem fromInexactBitwiseDigitsLe_spec (v : List Nat) (bits : Nat) (hb1 : 1 ≤ bits)
    (hb32 : bits ≤ 32) (hv : ∀ d ∈ v, d < 2 ^ bits) :
    val (fromInexactBitwiseDigitsLe v bits) = valR (2 ^ bits) v ∧
    Wf (fromInexactBitwiseDigitsLe v bits) := by
  obtain ⟨hval, hlt⟩ :=
    fromInexactLoop_spec bits hb1 hb32 v 0 0 (by norm_num) (by norm_num) hv
  constructor
  · simp only [fromInexactBitwiseDigitsLe, biguint_from_vec]
    rw [val_stripTrailingZeros, hval]
    simp
  · simp only [fromInexactBitwiseDigitsLe, biguint_from_vec]
    exact Wf_stripTrailingZeros _ hlt

theorem toInexactInner_stop (bits c r rbits : Nat) (h : rbits < bits) :
    toInexactInner bits c r rbits = ([], r, rbits) := by
  rw [toInexactInner]
  by_cases hb : bits = 0
  · rw [dif_pos hb]
  · rw [dif_neg hb, dif_neg (by omega)]

theorem toInexactInner_step (bits c r rbits : Nat) (hb : bits ≠ 0) (hle : bits ≤ rbits) :
    toInexactInner bits c r rbits =
      ((r % 2 ^ bits) ::
        (toInexactInner bits c
          (if 32 < rbits then c / 2 ^ (32 - (rbits - bits)) else r / 2 ^ bits)
          (rbits - bits)).1,
       (toInexactInner bits c
          (if 32 < rbits then c / 2 ^ (32 - (rbits - bits)) else r / 2 ^ bits)
          (rbits - bits)).2) := by
  rw [toInexactInner, dif_neg hb, dif_pos hle]

theorem toInexactInner_spec (bits c : Nat) (hb1 : 1 ≤ bits) (hb32 : bits ≤ 32) :
    ∀ (rbits r F : Nat),
      F < 2 ^ rbits →
      (rbits ≤ 32 → r = F) →
      (32 < rbits → rbits < 32 + bits ∧ r = F % 2 ^ 32 ∧ c = F / 2 ^ (rbits - 32)) →
      (toInexactInner bits c r rbits).1.length * bits ≤ rbits ∧
      (toInexactInner bits c r rbits).2.2
        = rbits - (toInexactInner bits c r rbits).1.length * bits ∧
      (toInexactInner bits c r rbits).2.2 < bits ∧
      (toInexactInner bits c r rbits).2.1
        = F / 2 ^ ((toInexactInner bits c r rbits).1.length * bits) ∧
      valR (2 ^ bits) (toInexactInner bits c r rbits).1
        + 2 ^ ((toInexactInner bits c r rbits).1.length * bits)
          * (toInexactInner bits c r rbits).2.1 = F ∧
      ∀ d ∈ (toInexactInner bits c r rbits).1, d < 2 ^ bits := by
  intro rbits
  induction rbits using Nat.strong_induction_on with
  | _ rbits ih =>
    intro r F hF hle32 hgt32
    by_cases hle : bits ≤ rbits
    · have hFmod : r % 2 ^ bits = F % 2 ^ bits := by
        by_cases h32 : 32 < rbits
        · obtain ⟨_, hr, _⟩ := hgt32 h32
          rw [hr]
          exact Nat.mod_mod_of_dvd F (pow_dvd_pow 2 hb32)
        · rw [hle32 (by omega)]
      have hr2 : (if 32 < rbits then c / 2 ^ (32 - (rbits - bits)) else r / 2 ^ bits)
          = F / 2 ^ bits := by
        by_cases h32 : 32 < rbits
        · rw [if_pos h32]
          obtain ⟨hlt, _, hcF⟩ := hgt32 h32
          rw [hcF, Nat.div_div_eq_div_mul, ← pow_add]
          congr 2
          omega
        · rw [if_neg h32, hle32 (by omega)]
      have hstep := toInexactInner_step bits c r rbits (by omega) hle
      rw [hr2, hFmod] at hstep
      have hF' : F / 2 ^ bits < 2 ^ (rbits - bits) := by
        rw [Nat.div_lt_iff_lt_mul (by positivity)]
        calc F < 2 ^ rbits := hF
          _ = 2 ^ (rbits - bits) * 2 ^ bits := by
            rw [← pow_add]
            congr 1
            omega
      have hrb' : rbits - bits ≤ 32 := by
        by_cases h32 : 32 < rbits
        · obtain ⟨hlt, _, _⟩ := hgt32 h32
          omega
        · omega
      obtain ⟨ih1, ih2, ih3, ih4, ih5, ih6⟩ :=
        ih (rbits - bits) (by omega) (F / 2 ^ bits) (F / 2 ^ bits) hF'
          (fun _ => rfl) (fun h => absurd h (by omega))
      rw [hstep]
      refine ⟨?_, ?_, ?_, ?_, ?_, ?_⟩
      · simp only [List.length_cons]
        have hdist : ((toInexactInner bits c (F / 2 ^ bits) (rbits - bits)).1.length + 1) * bits
            = (toInexactInner bits c (F / 2 ^ bits) (rbits - bits)).1.length * bits + bits := by
          ring
        omega
      · simp only [List.length_cons]
        have hdist : ((toInexactInner bits c (F / 2 ^ bits) (rbits - bits)).1.length + 1) * bits
            = (toInexactInner bits c (F / 2 ^ bits) (rbits - bits)).1.length * bits + bits := by
          ring
        omega
      · exact ih3
      · simp only [List.length_cons]
        rw [ih4, Nat.div_div_eq_div_mul, ← pow_add]
        congr 2
        ring
      · simp only [List.length_cons, valR]
        have hdist : ((toInexactInner bits c (F / 2 ^ bits) (rbits - bits)).1.length + 1) * bits
            = bits + (toInexactInner bits c (F / 2 ^ bits) (rbits - bits)).1.length * bits := by
          ring
        rw [hdist, pow_add]
        calc F % 2 ^ bits
              + 2 ^ bits * valR (2 ^ bits) (toInexactInner bits c (F / 2 ^ bits) (rbits - bits)).1
              + 2 ^ bits * 2 ^ ((toInexactInner bits c (F / 2 ^ bits) (rbits - bits)).1.length * bits)
                * (toInexactInner bits c (F / 2 ^ bits) (rbits - bits)).2.1
            = F % 2 ^ bits + 2 ^ bits *
                (valR (2 ^ bits) (toInexactInner bits c (F / 2 ^ bits) (rbits - bits)).1
                  + 2 ^ ((toInexactInner bits c (F / 2 ^ bits) (rbits - bits)).1.length * bits)
                    * (toInexactInner bits c (F / 2 ^ bits) (rbits - bits)).2.1) := by ring
          _ = F % 2 ^ bits + 2 ^ bits * (F / 2 ^ bits) := by rw [ih5]
          _ = F := Nat.mod_add_div F (2 ^ bits)
      · intro d hd
        rcases List.mem_cons.mp hd with h | h
        · subst h
          exact Nat.mod_lt _ (by positivity)
        · exact ih6 d h
    · have hstop := toInexactInner_stop bits c r rbits (by omega)
      rw [hstop]
      have hrF : r = F := hle32 (by omega)
      refine ⟨by simp, by simp, ?_, ?_, ?_, by intro d hd; simp at hd⟩
      · show rbits < bits
        omega
      · show r = F / 2 ^ (([] : List Nat).length * bits)
        simp [hrF]
      · show valR (2 ^ bits) [] + 2 ^ (([] : List Nat).length * bits) * r = F
        simp [valR, hrF]

theorem toInexactOuter_spec (bits : Nat) (hb1 : 1 ≤ bits) (hb32 : bits ≤ 32) :
    ∀ (u : List Nat) (r rbits : Nat), r < 2 ^ rbits → rbits < bits →
      (∀ c ∈ u, c < B) →
      valR (2 ^ bits) (toInexactOuter bits u r rbits) = r + 2 ^ rbits * val u ∧
      ∀ d ∈ toInexactOuter bits u r rbits, d < 2 ^ bits := by
  intro u
  induction u with
  | nil =>
    intro r rbits hr hrb _
    simp only [toInexactOuter, val]
    by_cases h : rbits ≠ 0
    · rw [if_pos h]
      refine ⟨by simp [valR], ?_⟩
      intro d hd
      simp only [List.mem_singleton] at hd
      subst hd
      calc d < 2 ^ rbits := hr
        _ ≤ 2 ^ bits := Nat.pow_le_pow_right (by norm_num) (by omega)
    · rw [if_neg h]
      push_neg at h
      subst h
      simp only [pow_zero] at hr
      refine ⟨?_, by intro d hd; simp at hd⟩
      simp only [valR, pow_zero]
      omega
  | cons c rest ih =>
    intro r rbits hr hrb hu
    have hcB : c < B := hu c (List.mem_cons_self _ _)
    have hc32 : c < 2 ^ 32 := hcB
    have hrest : ∀ x ∈ rest, x < B := fun x hx => hu x (List.mem_cons_of_mem _ hx)
    simp only [toInexactOuter]
    have hFlt : r + c * 2 ^ rbits < 2 ^ (rbits + 32) := by
      have h1 : (c + 1) * 2 ^ rbits ≤ 2 ^ 32 * 2 ^ rbits :=
        Nat.mul_le_mul_right _ (by omega)
      have h2 : c * 2 ^ rbits + 2 ^ rbits = (c + 1) * 2 ^ rbits := by ring
      have h3 : (2:Nat) ^ 32 * 2 ^ rbits = 2 ^ (rbits + 32) := by
        rw [← pow_add]
        congr 1
        omega
      omega
    have hin1 : rbits + 32 ≤ 32 → r + c * 2 ^ rbits % B = r + c * 2 ^ rbits := by
      intro h
      have hrb0 : rbits = 0 := by omega
      subst hrb0
      simp only [pow_zero, Nat.mul_one]
      rw [Nat.mod_eq_of_lt hcB]
    have hin2 : 32 < rbits + 32 → rbits + 32 < 32 + bits ∧
        r + c * 2 ^ rbits % B = (r + c * 2 ^ rbits) % 2 ^ 32 ∧
        c = (r + c * 2 ^ rbits) / 2 ^ (rbits + 32 - 32) := by
      intro h
      have hrbpos : 0 < rbits := by omega
      refine ⟨by omega, ?_, ?_⟩
      · obtain ⟨hmod, hlo, _⟩ :=
          truncation_facts c rbits 32 (by omega) (by omega) le_rfl hc32
        have hsplit : 2 ^ (32 - rbits) * (c / 2 ^ (32 - rbits)) + c % 2 ^ (32 - rbits) = c :=
          Nat.div_add_mod c _
        have hQ32 : (2:Nat) ^ (32 - rbits) * 2 ^ rbits = 2 ^ 32 := by
          rw [← pow_add]
          congr 1
          omega
        have hFdecomp : r + c * 2 ^ rbits
            = r + c % 2 ^ (32 - rbits) * 2 ^ rbits
              + 2 ^ 32 * (c / 2 ^ (32 - rbits)) := by
          calc r + c * 2 ^ rbits
              = r + (2 ^ (32 - rbits) * (c / 2 ^ (32 - rbits)) + c % 2 ^ (32 - rbits))
                  * 2 ^ rbits := by rw [hsplit]
            _ = r + c % 2 ^ (32 - rbits) * 2 ^ rbits
                  + 2 ^ (32 - rbits) * 2 ^ rbits * (c / 2 ^ (32 - rbits)) := by ring
            _ = _ := by rw [hQ32]
        have hlo' : c % 2 ^ (32 - rbits) * 2 ^ rbits + 2 ^ rbits ≤ 2 ^ 32 := hlo
        rw [hmod]
        conv_rhs => rw [hFdecomp]
        rw [Nat.add_mul_mod_self_left]
        exact (Nat.mod_eq_of_lt (by omega)).symm
      · have h0 : rbits + 32 - 32 = rbits := by omega
        rw [h0]
        rw [Nat.add_mul_div_right r c (show (0:Nat) < 2 ^ rbits by positivity)]
        rw [Nat.div_eq_of_lt hr]
        omega
    obtain ⟨i1, i2, i3, i4, i5, i6⟩ :=
      toInexactInner_spec bits c hb1 hb32 (rbits + 32) (r + c * 2 ^ rbits % B)
        (r + c * 2 ^ rbits) hFlt hin1 hin2
    have hnext : (toInexactInner bits c (r + c * 2 ^ rbits % B) (rbits + 32)).2.1
        < 2 ^ (toInexactInner bits c (r + c * 2 ^ rbits % B) (rbits + 32)).2.2 := by
      rw [i4, i2, Nat.div_lt_iff_lt_mul (by positivity)]
      calc r + c * 2 ^ rbits < 2 ^ (rbits + 32) := hFlt
        _ = 2 ^ (rbits + 32
              - (toInexactInner bits c (r + c * 2 ^ rbits % B) (rbits + 32)).1.length * bits)
            * 2 ^ ((toInexactInner bits c (r + c * 2 ^ rbits % B) (rbits + 32)).1.length
              * bits) := by
          rw [← pow_add]
          congr 1
          omega
    obtain ⟨o1, o2⟩ := ih _ _ hnext i3 hrest
    constructor
    · rw [valR_append, o1]
      have hpl : (2 ^ bits) ^ (toInexactInner bits c (r + c * 2 ^ rbits % B) (rbits + 32)).1.length
          = 2 ^ ((toInexactInner bits c (r + c * 2 ^ rbits % B) (rbits + 32)).1.length * bits) := by
        rw [← pow_mul, Nat.mul_comm]
      have hLexp : 2 ^ ((toInexactInner bits c (r + c * 2 ^ rbits % B) (rbits + 32)).1.length * bits)
            * 2 ^ (toInexactInner bits c (r + c * 2 ^ rbits % B) (rbits + 32)).2.2
          = 2 ^ rbits * 2 ^ 32 := by
        rw [i2, ← pow_add, ← pow_add]
        congr 1
        omega
      rw [hpl]
      simp only [val, B]
      calc valR (2 ^ bits) (toInexactInner bits c (r + c * 2 ^ rbits % B) (rbits + 32)).1
            + 2 ^ ((toInexactInner bits c (r + c * 2 ^ rbits % B) (rbits + 32)).1.length * bits)
              * ((toInexactInner bits c (r + c * 2 ^ rbits % B) (rbits + 32)).2.1
                + 2 ^ (toInexactInner bits c (r + c * 2 ^ rbits % B) (rbits + 32)).2.2 * val rest)
          = (valR (2 ^ bits) (toInexactInner bits c (r + c * 2 ^ rbits % B) (rbits + 32)).1
              + 2 ^ ((toInexactInner bits c (r + c * 2 ^ rbits % B) (rbits + 32)).1.length * bits)
                * (toInexactInner bits c (r + c * 2 ^ rbits % B) (rbits + 32)).2.1)
            + (2 ^ ((toInexactInner bits c (r + c * 2 ^ rbits % B) (rbits + 32)).1.length * bits)
                * 2 ^ (toInexactInner bits c (r + c * 2 ^ rbits % B) (rbits + 32)).2.2)
              * val rest := by ring
        _ = (r + c * 2 ^ rbits) + (2 ^ rbits * 2 ^ 32) * val rest := by rw [i5, hLexp]
        _ = r + 2 ^ rbits * (c + 2 ^ 32 * val rest) := by ring
    · intro d hd
      rcases List.mem_append.mp hd with h | h
      · exact i6 d h
      · exact o2 d h

theorem toInexactBitwiseDigitsLe_spec (u : List Nat) (bits : Nat) (hb1 : 1 ≤ bits)
    (hb32 : bits ≤ 32) (hu : ∀ d ∈ u, d < B) :
    valR (2 ^ bits) (toInexactBitwiseDigitsLe u bits) = val u ∧
    ∀ d ∈ toInexactBitwiseDigitsLe u bits, d < 2 ^ bits := by
  obtain ⟨h1, h2⟩ := toInexactOuter_spec bits hb1 hb32 u 0 0 (by norm_num) (by omega) hu
  constructor
  · simp only [toInexactBitwiseDigitsLe]
    rw [valR_stripTrailingZeros, h1]
    simp
  · intro d hd
    exact h2 d (mem_stripTrailingZeros _ _ hd)

theorem val_lt_of_last_zero (l : List Nat) (hd : ∀ d ∈ l, d < B)
    (hz : l.getLast? = some 0) : val l < B ^ (l.length - 1) := by
  have hne : l ≠ [] := by
    intro h
    rw [h] at hz
    simp at hz
  have hdec : l.dropLast ++ [l.getLast hne] = l := List.dropLast_append_getLast hne
  have hlast : l.getLast hne = 0 := by
    have h1 := List.getLast?_eq_getLast l hne
    rw [h1] at hz
    exact Option.some.inj hz
  have hlen : l.dropLast.length = l.length - 1 := List.length_dropLast l
  conv_lhs => rw [← hdec]
  rw [val_append, hlast]
  simp only [val, Nat.mul_zero, Nat.add_zero, Nat.zero_add]
  rw [← hlen]
  exact val_lt _ fun d hdm => hd d (List.dropLast_subset _ hdm)

theorem getRadixBase_facts (radix : Nat) (h2 : 2 ≤ radix) (h256 : radix ≤ 256) :
    1 ≤ Nat.log radix (B - 1) ∧ radix ^ Nat.log radix (B - 1) < B := by
  have hle : radix ≤ B - 1 := by
    have h0 : (256:Nat) ≤ B - 1 := by norm_num [B]
    omega
  constructor
  · exact Nat.log_pos (by omega) hle
  · have h1 := Nat.pow_log_le_self radix (show B - 1 ≠ 0 by norm_num [B])
    have hB := B_pos
    omega

theorem mulDigitLoop_spec (base : Nat) (hbase : base < B) :
    ∀ (l : List Nat) (carry : Nat), (∀ d ∈ l, d < B) → carry < B →
      (mulDigitLoop base l carry).1.length = l.length ∧
      (∀ d ∈ (mulDigitLoop base l carry).1, d < B) ∧
      (mulDigitLoop base l carry).2 < B ∧
      val (mulDigitLoop base l carry).1 + B ^ l.length * (mulDigitLoop base l carry).2
        = val l * base + carry := by
  intro l
  induction l with
  | nil =>
    intro carry _ hc
    refine ⟨rfl, ?_, hc, ?_⟩
    · intro d hd
      simp [mulDigitLoop] at hd
    · simp [mulDigitLoop, val]
  | cons d ds ih =>
    intro carry hl hc
    have hdB : d < B := hl d (List.mem_cons_self _ _)
    have hds : ∀ x ∈ ds, x < B := fun x hx => hl x (List.mem_cons_of_mem _ hx)
    have hx : B = (B - 1) + 1 := by
      have := B_pos
      omega
    have h1 : d * base ≤ (B - 1) * (B - 1) := Nat.mul_le_mul (by omega) (by omega)
    have h2 : ((B - 1) + 1) * ((B - 1) + 1) = (B - 1) * (B - 1) + 2 * (B - 1) + 1 := by
      ring
    have htlt : 0 + d * base + carry < B * B := by
      rw [hx]
      omega
    have hq2 : (0 + d * base + carry) / B < B := by
      rw [Nat.div_lt_iff_lt_mul B_pos]
      exact htlt
    obtain ⟨ih1, ih2, ih3, ih4⟩ := ih ((0 + d * base + carry) / B) hds hq2
    simp only [mulDigitLoop, macWithCarry]
    refine ⟨?_, ?_, ?_, ?_⟩
    · simp only [List.length_cons, ih1]
    · intro x hxm
      rcases List.mem_cons.mp hxm with h | h
      · subst h
        exact Nat.mod_lt _ B_pos
      · exact ih2 x h
    · exact ih3
    · simp only [val, List.length_cons]
      rw [pow_succ]
      calc (0 + d * base + carry) % B
            + B * val (mulDigitLoop base ds ((0 + d * base + carry) / B)).1
            + B ^ ds.length * B * (mulDigitLoop base ds ((0 + d * base + carry) / B)).2
          = (0 + d * base + carry) % B
            + B * (val (mulDigitLoop base ds ((0 + d * base + carry) / B)).1
              + B ^ ds.length * (mulDigitLoop base ds ((0 + d * base + carry) / B)).2) := by
            ring
        _ = (0 + d * base + carry) % B
            + B * (val ds * base + (0 + d * base + carry) / B) := by rw [ih4]
        _ = (0 + d * base + carry) % B + B * ((0 + d * base + carry) / B)
            + B * (val ds * base) := by ring
        _ = 0 + d * base + carry + B * (val ds * base) := by rw [Nat.mod_add_div]
        _ = (d + B * val ds) * base + carry := by ring

theorem add2_small_spec (a : List Nat) (n : Nat) (ha : ∀ d ∈ a, d < B) (hn : n < B)
    (hlen1 : 1 ≤ a.length) (hsum : val a + n < B ^ a.length) :
    ∃ out, add2 a [n] = some out ∧ out.length = a.length ∧ (∀ d ∈ out, d < B) ∧
      val out = val a + n := by
  obtain ⟨res, cres, heq, hreslen, hresd, hcle, hval⟩ :=
    __add2_spec a [n] (by simpa using hlen1) ha
      (by
        intro d hd
        simp only [List.mem_singleton] at hd
        omega)
  rw [val_single] at hval
  have hc0 : cres = 0 := by
    by_contra hcne
    have hc1 : cres = 1 := by omega
    rw [hc1, Nat.mul_one] at hval
    have : val res < B ^ a.length → False := by omega
    exact this (by
      rw [← hreslen]
      exact val_lt _ hresd)
  rw [hc0, Nat.mul_zero, Nat.add_zero] at hval
  refine ⟨res, ?_, hreslen, hresd, hval⟩
  simp only [add2, heq]
  rfl

theorem foldl_chunks (radix p : Nat) :
    ∀ (chunks : List (List Nat)) (a : Nat), (∀ c ∈ chunks, c.length = p) →
      chunks.foldl (fun acc c => acc * radix ^ p + foldChunk radix c) a
        = a * radix ^ chunks.flatten.length + foldChunk radix chunks.flatten := by
  intro chunks
  induction chunks with
  | nil =>
    intro a _
    simp [foldChunk]
  | cons c rest ih =>
    intro a hc
    simp only [List.foldl_cons, List.flatten_cons]
    rw [ih _ fun x hx => hc x (List.mem_cons_of_mem _ hx)]
    rw [foldChunk_append]
    simp only [List.length_append]
    rw [hc c (List.mem_cons_self _ _)]
    rw [pow_add]
    ring

theorem fromRadixChunkLoop_spec (radix base power : Nat) (h2 : 2 ≤ radix)
    (hbase : base = radix ^ power) (hbB : base < B) :
    ∀ (chunks : List (List Nat)) (data : List Nat), data ≠ [] → (∀ d ∈ data, d < B) →
      (∀ ch ∈ chunks, ch.length = power ∧ ∀ d ∈ ch, d < radix) →
      ∃ out, fromRadixChunkLoop radix base chunks data = some out ∧
        out ≠ [] ∧ (∀ d ∈ out, d < B) ∧
        val out = chunks.foldl (fun acc ch => acc * base + foldChunk radix ch) (val data) := by
  intro chunks
  induction chunks with
  | nil =>
    intro data hne hd _
    exact ⟨data, rfl, hne, hd, rfl⟩
  | cons chunk rest ih =>
    intro data hne hd hch
    obtain ⟨hclen, hcd⟩ := hch chunk (List.mem_cons_self _ _)
    have hrestch : ∀ ch ∈ rest, ch.length = power ∧ ∀ d ∈ ch, d < radix :=
      fun ch hc => hch ch (List.mem_cons_of_mem _ hc)
    have hn : foldChunk radix chunk < base := by
      have h0 := foldChunk_lt radix h2 chunk hcd
      rw [hclen] at h0
      rw [hbase]
      exact h0
    have hnB : foldChunk radix chunk < B := lt_trans hn hbB
    -- facts about the grown accumulator
    have hd1facts : ∀ data1 : List Nat,
        data1 = (if data.getLast? ≠ some 0 then data ++ [0] else data) →
        data1 ≠ [] ∧ (∀ d ∈ data1, d < B) ∧ val data1 = val data ∧
          val data1 * base + foldChunk radix chunk < B ^ data1.length := by
      intro data1 h1
      subst h1
      split_ifs with h
      · refine ⟨by simp, ?_, ?_, ?_⟩
        · intro d hdm
          rcases List.mem_append.mp hdm with hm | hm
          · exact hd d hm
          · simp only [List.mem_singleton] at hm
            subst hm
            exact B_pos
        · rw [val_append]
          simp [val]
        · rw [val_append]
          simp only [val, Nat.mul_zero, Nat.add_zero, Nat.zero_add, List.length_append,
            List.length_cons, List.length_nil]
          have hv : val data < B ^ data.length := val_lt data hd
          have ha1 : val data * base + base ≤ B ^ data.length * base := by
            calc val data * base + base = (val data + 1) * base := by ring
              _ ≤ B ^ data.length * base := Nat.mul_le_mul_right _ hv
          have ha3 : B ^ data.length * base ≤ B ^ data.length * B :=
            Nat.mul_le_mul_left _ (le_of_lt hbB)
          have ha4 : B ^ data.length * B = B ^ (data.length + 1) := (pow_succ B _).symm
          omega
      · push_neg at h
        refine ⟨hne, hd, rfl, ?_⟩
        have hv : val data < B ^ (data.length - 1) := val_lt_of_last_zero data hd h
        have hlen1 : 1 ≤ data.length := List.length_pos.mpr hne
        have ha1 : val data * base + base ≤ B ^ (data.length - 1) * base := by
          calc val data * base + base = (val data + 1) * base := by ring
            _ ≤ B ^ (data.length - 1) * base := Nat.mul_le_mul_right _ hv
        have ha3 : B ^ (data.length - 1) * base ≤ B ^ (data.length - 1) * B :=
          Nat.mul_le_mul_left _ (le_of_lt hbB)
        have ha4 : B ^ (data.length - 1) * B = B ^ (data.length - 1 + 1) := (pow_succ B _).symm
        have ha5 : data.length - 1 + 1 = data.length := by omega
        rw [ha5] at ha4
        omega
    obtain ⟨hd1ne, hd1d, hd1val, hd1bound⟩ := hd1facts _ rfl
    have hd1len : 1 ≤ (if data.getLast? ≠ some 0 then data ++ [0] else data).length :=
      List.length_pos.mpr hd1ne
    obtain ⟨mlen, md, m2, mval⟩ := mulDigitLoop_spec base hbB _ 0 hd1d B_pos
    rw [Nat.add_zero] at mval
    have hm2 : (mulDigitLoop base (if data.getLast? ≠ some 0 then data ++ [0] else data) 0).2
        = 0 := by
      by_contra hm
      have hc1 : 1 ≤ (mulDigitLoop base
          (if data.getLast? ≠ some 0 then data ++ [0] else data) 0).2 :=
        Nat.pos_of_ne_zero hm
      have hcB : B ^ (if data.getLast? ≠ some 0 then data ++ [0] else data).length
          ≤ B ^ (if data.getLast? ≠ some 0 then data ++ [0] else data).length
            * (mulDigitLoop base (if data.getLast? ≠ some 0 then data ++ [0] else data) 0).2 :=
        Nat.le_mul_of_pos_right _ hc1
      omega
    rw [hm2, Nat.mul_zero, Nat.add_zero] at mval
    have hmbound : val (mulDigitLoop base
          (if data.getLast? ≠ some 0 then data ++ [0] else data) 0).1
        + foldChunk radix chunk
        < B ^ (mulDigitLoop base (if data.getLast? ≠ some 0 then data ++ [0] else data) 0).1.length := by
      rw [mval, mlen]
      exact hd1bound
    obtain ⟨data2, hd2eq, hd2len, hd2d, hd2val⟩ :=
      add2_small_spec _ (foldChunk radix chunk) md hnB (by rw [mlen]; exact hd1len) hmbound
    have hd2ne : data2 ≠ [] := by
      have : 0 < data2.length := by
        rw [hd2len, mlen]
        exact hd1len
      exact List.length_pos.mp this
    obtain ⟨out, hout, houtne, houtd, houtval⟩ := ih data2 hd2ne hd2d hrestch
    refine ⟨out, ?_, houtne, houtd, ?_⟩
    · show (fromRadixChunkLoop radix base (chunk :: rest) data) = some out
      rw [fromRadixChunkLoop]
      simp only [hd2eq, Option.bind_eq_bind, Option.some_bind]
      exact hout
    · rw [houtval]
      simp only [List.foldl_cons]
      rw [hd2val, mval, hd1val]

theorem fromRadixDigitsBe_spec (v : List Nat) (radix : Nat) (h2 : 2 ≤ radix)
    (h256 : radix ≤ 256) (hv : ∀ d ∈ v, d < radix) :
    ∃ out, fromRadixDigitsBe v radix = some out ∧ Wf out ∧
      val out = foldChunk radix v := by
  obtain ⟨hp1, hbB⟩ := getRadixBase_facts radix h2 h256
  simp only [fromRadixDigitsBe, getRadixBase]
  have hi : (if v.length % Nat.log radix (B - 1) = 0 then Nat.log radix (B - 1)
      else v.length % Nat.log radix (B - 1)) ≤ Nat.log radix (B - 1) := by
    split_ifs with h
    · exact le_rfl
    · exact le_of_lt (Nat.mod_lt _ (by omega))
  have hdropmod : (v.drop (if v.length % Nat.log radix (B - 1) = 0 then Nat.log radix (B - 1)
      else v.length % Nat.log radix (B - 1))).length % Nat.log radix (B - 1) = 0 := by
    simp only [List.length_drop]
    split_ifs with h
    · obtain ⟨q, hq⟩ := Nat.dvd_of_mod_eq_zero h
      rcases Nat.eq_zero_or_pos q with h0 | h0
      · rw [h0, Nat.mul_zero] at hq
        rw [hq]
        simp
      · have hsub : v.length - Nat.log radix (B - 1) = Nat.log radix (B - 1) * (q - 1) := by
          rw [hq, Nat.mul_sub, Nat.mul_one]
        rw [hsub, Nat.mul_comm]
        exact Nat.mul_mod_left _ _
    · have hdm := Nat.div_add_mod v.length (Nat.log radix (B - 1))
      have hsub : v.length - v.length % Nat.log radix (B - 1)
          = Nat.log radix (B - 1) * (v.length / Nat.log radix (B - 1)) := by
        omega
      rw [hsub, Nat.mul_comm]
      exact Nat.mul_mod_left _ _
  have hchunks : ∀ ch ∈ chunksOf (Nat.log radix (B - 1))
      (v.drop (if v.length % Nat.log radix (B - 1) = 0 then Nat.log radix (B - 1)
        else v.length % Nat.log radix (B - 1))),
      ch.length = Nat.log radix (B - 1) ∧ ∀ d ∈ ch, d < radix := by
    intro ch hc
    constructor
    · exact chunksOf_full _ (by omega) _ _ _ le_rfl hdropmod hc
    · intro d hdm
      obtain ⟨_, hmem⟩ := chunksOf_mem_facts _ _ _ _ le_rfl hc
      exact hv d (List.drop_subset _ _ (hmem d hdm))
  have hheadlt : foldChunk radix (v.take (if v.length % Nat.log radix (B - 1) = 0
      then Nat.log radix (B - 1) else v.length % Nat.log radix (B - 1))) < B := by
    have h1 := foldChunk_lt radix h2
      (v.take (if v.length % Nat.log radix (B - 1) = 0 then Nat.log radix (B - 1)
        else v.length % Nat.log radix (B - 1)))
      fun d hdm => hv d (List.take_subset _ _ hdm)
    have h2l : (v.take (if v.length % Nat.log radix (B - 1) = 0 then Nat.log radix (B - 1)
        else v.length % Nat.log radix (B - 1))).length ≤ Nat.log radix (B - 1) := by
      simp only [List.length_take]
      omega
    have h3 : radix ^ (v.take (if v.length % Nat.log radix (B - 1) = 0
        then Nat.log radix (B - 1) else v.length % Nat.log radix (B - 1))).length
        ≤ radix ^ Nat.log radix (B - 1) := Nat.pow_le_pow_right (by omega) h2l
    omega
  obtain ⟨out0, hout0, hout0ne, hout0d, hout0val⟩ :=
    fromRadixChunkLoop_spec radix (radix ^ Nat.log radix (B - 1)) (Nat.log radix (B - 1))
      h2 rfl hbB _ [foldChunk radix (v.take (if v.length % Nat.log radix (B - 1) = 0
        then Nat.log radix (B - 1) else v.length % Nat.log radix (B - 1)))]
      (by simp)
      (by
        intro d hdm
        simp only [List.mem_singleton] at hdm
        subst hdm
        exact hheadlt)
      hchunks
  rw [hout0]
  refine ⟨biguint_from_vec out0, rfl, ?_, ?_⟩
  · simp only [biguint_from_vec]
    exact Wf_stripTrailingZeros _ hout0d
  · simp only [biguint_from_vec]
    rw [val_stripTrailingZeros, hout0val, val_single]
    rw [foldl_chunks radix (Nat.log radix (B - 1)) _ _ fun c hc => (hchunks c hc).1]
    rw [chunksOf_flatten _ (by omega) _ _ le_rfl]
    rw [← foldChunk_append]
    rw [List.take_append_drop]

theorem natLen_le_one_iff (d : Nat) : natLen d ≤ 1 ↔ d < B := by
  simp only [natLen]
  split_ifs with h
  · subst h
    simp [B_pos]
  · constructor
    · intro h1
      have h3 : Nat.log2 d < 32 := by omega
      exact (Nat.log2_lt h).mp h3
    · intro hdB
      have h3 : Nat.log2 d < 32 := (Nat.log2_lt h).mpr hdB
      omega

theorem headD_ofNat (s : Nat) (hs : s < B) : (ofNat s).headD 0 = s := by
  by_cases h0 : s = 0
  · subst h0
    rw [ofNat]
    simp
  · rw [ofNat_small s h0 hs]
    rfl

theorem emitGroups_spec (radix base power : Nat) (h2 : 2 ≤ radix)
    (hbase : base = radix ^ power) (hb1 : 1 < base) :
    ∀ (k bigR : Nat),
      (emitGroups radix base power k bigR).length = k * power ∧
      valR radix (emitGroups radix base power k bigR) = bigR % base ^ k ∧
      ∀ d ∈ emitGroups radix base power k bigR, d < radix := by
  intro k
  induction k with
  | zero =>
    intro bigR
    refine ⟨by simp [emitGroups], ?_, by intro d hd; simp [emitGroups] at hd⟩
    simp [emitGroups, valR, Nat.mod_one]
  | succ k ih =>
    intro bigR
    obtain ⟨ih1, ih2, ih3⟩ := ih (bigR / base)
    refine ⟨?_, ?_, ?_⟩
    · simp only [emitGroups, List.length_append, fixedDigits_length, ih1]
      ring
    · simp only [emitGroups]
      rw [valR_append, fixedDigits_val _ (by omega), fixedDigits_length, ih2, ← hbase]
      rw [Nat.mod_mod_of_dvd bigR (dvd_refl base)]
      rw [mod_pow_split base k bigR (by omega)]
    · intro d hd
      simp only [emitGroups] at hd
      rcases List.mem_append.mp hd with h | h
      · exact fixedDigits_lt _ (by omega) _ _ _ h
      · exact ih3 d h

theorem toRadixSmallLoop_spec (radix base power : Nat) (h2 : 2 ≤ radix)
    (hbase : base = radix ^ power) (hb1 : 1 < base) :
    ∀ d : Nat,
      valR radix (toRadixSmallLoop radix base power d).1
        + radix ^ (toRadixSmallLoop radix base power d).1.length
          * (toRadixSmallLoop radix base power d).2 = d ∧
      (toRadixSmallLoop radix base power d).2 < B ∧
      ∀ e ∈ (toRadixSmallLoop radix base power d).1, e < radix := by
  intro d
  induction d using Nat.strong_induction_on with
  | _ d ih =>
    rw [toRadixSmallLoop]
    by_cases h : 1 < base ∧ 1 < natLen d
    · rw [dif_pos h]
      have hdpos : d ≠ 0 := by
        intro h0
        rw [h0] at h
        simp [natLen] at h
      have hdec : d / base < d := Nat.div_lt_self (Nat.pos_of_ne_zero hdpos) hb1
      obtain ⟨ih1, ih2, ih3⟩ := ih (d / base) hdec
      refine ⟨?_, ih2, ?_⟩
      · show valR radix (fixedDigits radix power (d % base)
              ++ (toRadixSmallLoop radix base power (d / base)).1)
            + radix ^ (fixedDigits radix power (d % base)
              ++ (toRadixSmallLoop radix base power (d / base)).1).length
              * (toRadixSmallLoop radix base power (d / base)).2 = d
        have hsplit : valR radix (fixedDigits radix power (d % base)) = d % base := by
          rw [fixedDigits_val _ (show 0 < radix by omega), ← hbase]
          exact Nat.mod_mod_of_dvd _ (dvd_refl base)
        simp only [valR_append, List.length_append, fixedDigits_length, pow_add, hsplit]
        rw [← hbase]
        have h7 : base * radix ^ (toRadixSmallLoop radix base power (d / base)).1.length
              * (toRadixSmallLoop radix base power (d / base)).2
            = base * (radix ^ (toRadixSmallLoop radix base power (d / base)).1.length
              * (toRadixSmallLoop radix base power (d / base)).2) := by
          ring
        have h5 : base * valR radix (toRadixSmallLoop radix base power (d / base)).1
              + base * (radix ^ (toRadixSmallLoop radix base power (d / base)).1.length
                * (toRadixSmallLoop radix base power (d / base)).2)
            = base * (d / base) := by
          rw [← Nat.mul_add, ih1]
        have h6 := Nat.mod_add_div d base
        omega
      · intro e he
        have he2 : e ∈ fixedDigits radix power (d % base)
            ++ (toRadixSmallLoop radix base power (d / base)).1 := he
        rcases List.mem_append.mp he2 with hm | hm
        · exact fixedDigits_lt _ (by omega) _ _ _ hm
        · exact ih3 e hm
    · rw [dif_neg h]
      refine ⟨?_, ?_, by intro e he; simp at he⟩
      · show valR radix ([] : List Nat) + radix ^ (([] : List Nat)).length * d = d
        simp [valR]
      · show d < B
        have hn : ¬ 1 < natLen d := fun hc => h ⟨hb1, hc⟩
        exact (natLen_le_one_iff d).mp (by omega)

theorem toRadixBigLoop_spec (radix base power bigBase bigPower : Nat) (h2 : 2 ≤ radix)
    (hbase : base = radix ^ power) (hb1 : 1 < base) (hbig : bigBase = base ^ bigPower) :
    ∀ d : Nat,
      valR radix (toRadixBigLoop radix base power bigBase bigPower d).1
        + radix ^ (toRadixBigLoop radix base power bigBase bigPower d).1.length
          * (toRadixBigLoop radix base power bigBase bigPower d).2 = d ∧
      ∀ e ∈ (toRadixBigLoop radix base power bigBase bigPower d).1, e < radix := by
  intro d
  induction d using Nat.strong_induction_on with
  | _ d ih =>
    rw [toRadixBigLoop]
    by_cases h : 1 < bigBase ∧ bigBase < d
    · rw [dif_pos h]
      have hdec : d / bigBase < d := Nat.div_lt_self (by omega) h.1
      obtain ⟨ih1, ih2⟩ := ih (d / bigBase) hdec
      obtain ⟨e1, e2, e3⟩ :=
        emitGroups_spec radix base power h2 hbase hb1 bigPower (d % bigBase)
      have hpb : radix ^ (bigPower * power) = bigBase := by
        rw [hbig, hbase, ← pow_mul, Nat.mul_comm]
      constructor
      · show valR radix (emitGroups radix base power bigPower (d % bigBase)
              ++ (toRadixBigLoop radix base power bigBase bigPower (d / bigBase)).1)
            + radix ^ (emitGroups radix base power bigPower (d % bigBase)
              ++ (toRadixBigLoop radix base power bigBase bigPower (d / bigBase)).1).length
              * (toRadixBigLoop radix base power bigBase bigPower (d / bigBase)).2 = d
        simp only [valR_append, List.length_append, e1, pow_add, hpb]
        rw [e2, ← hbig, Nat.mod_mod_of_dvd d (dvd_refl bigBase)]
        have h7 : bigBase * radix ^ (toRadixBigLoop radix base power bigBase bigPower
                (d / bigBase)).1.length
              * (toRadixBigLoop radix base power bigBase bigPower (d / bigBase)).2
            = bigBase * (radix ^ (toRadixBigLoop radix base power bigBase bigPower
                (d / bigBase)).1.length
              * (toRadixBigLoop radix base power bigBase bigPower (d / bigBase)).2) := by
          ring
        have h5 : bigBase * valR radix (toRadixBigLoop radix base power bigBase bigPower
                (d / bigBase)).1
              + bigBase * (radix ^ (toRadixBigLoop radix base power bigBase bigPower
                (d / bigBase)).1.length
                * (toRadixBigLoop radix base power bigBase bigPower (d / bigBase)).2)
            = bigBase * (d / bigBase) := by
          rw [← Nat.mul_add, ih1]
        have h6 := Nat.mod_add_div d bigBase
        omega
      · intro e he
        have he2 : e ∈ emitGroups radix base power bigPower (d % bigBase)
            ++ (toRadixBigLoop radix base power bigBase bigPower (d / bigBase)).1 := he
        rcases List.mem_append.mp he2 with hm | hm
        · exact e3 e hm
        · exact ih2 e hm
    · rw [dif_neg h]
      refine ⟨?_, by intro e he; simp at he⟩
      show valR radix ([] : List Nat) + radix ^ (([] : List Nat)).length * d = d
      simp [valR]

theorem growBase_pow (targetLen base : Nat) :
    ∀ (bb bp : Nat), bb = base ^ bp →
      (growBase targetLen bb bp).1 = base ^ (growBase targetLen bb bp).2 := by
  intro bb bp
  induction bb, bp using growBase.induct targetLen with
  | case1 bb bp h ih =>
    intro hb
    rw [growBase, dif_pos h]
    refine ih ?_
    rw [hb, ← pow_add]
    congr 1
    omega
  | case2 bb bp h =>
    intro hb
    rw [growBase, dif_neg h]
    exact hb

theorem toRadixDigitsLe_spec (u : List Nat) (radix : Nat) (h2 : 2 ≤ radix)
    (h256 : radix ≤ 256) :
    valR radix (toRadixDigitsLe u radix) = val u ∧
    ∀ d ∈ toRadixDigitsLe u radix, d < radix := by
  obtain ⟨hp1, hbB⟩ := getRadixBase_facts radix h2 h256
  have hb1 : 1 < radix ^ Nat.log radix (B - 1) := by
    calc 1 < radix := by omega
      _ = radix ^ 1 := (pow_one radix).symm
      _ ≤ radix ^ Nat.log radix (B - 1) := Nat.pow_le_pow_right (by omega) hp1
  have key : ∀ big : List Nat × Nat,
      valR radix big.1 + radix ^ big.1.length * big.2 = val u →
      (∀ e ∈ big.1, e < radix) →
      valR radix (big.1
          ++ (toRadixSmallLoop radix (radix ^ Nat.log radix (B - 1))
            (Nat.log radix (B - 1)) big.2).1
          ++ digitsOf radix ((ofNat (toRadixSmallLoop radix (radix ^ Nat.log radix (B - 1))
            (Nat.log radix (B - 1)) big.2).2).headD 0)) = val u ∧
      ∀ d ∈ big.1
          ++ (toRadixSmallLoop radix (radix ^ Nat.log radix (B - 1))
            (Nat.log radix (B - 1)) big.2).1
          ++ digitsOf radix ((ofNat (toRadixSmallLoop radix (radix ^ Nat.log radix (B - 1))
            (Nat.log radix (B - 1)) big.2).2).headD 0), d < radix := by
    intro big hbv hbd
    obtain ⟨hsv, hs2, hsd⟩ :=
      toRadixSmallLoop_spec radix (radix ^ Nat.log radix (B - 1)) (Nat.log radix (B - 1))
        h2 rfl hb1 big.2
    have hlastval : valR radix (digitsOf radix ((ofNat (toRadixSmallLoop radix
        (radix ^ Nat.log radix (B - 1)) (Nat.log radix (B - 1)) big.2).2).headD 0))
        = (toRadixSmallLoop radix (radix ^ Nat.log radix (B - 1))
          (Nat.log radix (B - 1)) big.2).2 := by
      rw [headD_ofNat _ hs2]
      exact digitsOf_val radix h2 _
    constructor
    · rw [valR_append, valR_append, List.length_append, hlastval, pow_add]
      have h7 : radix ^ big.1.length
            * radix ^ (toRadixSmallLoop radix (radix ^ Nat.log radix (B - 1))
              (Nat.log radix (B - 1)) big.2).1.length
            * (toRadixSmallLoop radix (radix ^ Nat.log radix (B - 1))
              (Nat.log radix (B - 1)) big.2).2
          = radix ^ big.1.length
            * (radix ^ (toRadixSmallLoop radix (radix ^ Nat.log radix (B - 1))
              (Nat.log radix (B - 1)) big.2).1.length
              * (toRadixSmallLoop radix (radix ^ Nat.log radix (B - 1))
                (Nat.log radix (B - 1)) big.2).2) := by
        ring
      have h5 : radix ^ big.1.length
            * valR radix (toRadixSmallLoop radix (radix ^ Nat.log radix (B - 1))
              (Nat.log radix (B - 1)) big.2).1
            + radix ^ big.1.length
              * (radix ^ (toRadixSmallLoop radix (radix ^ Nat.log radix (B - 1))
                (Nat.log radix (B - 1)) big.2).1.length
                * (toRadixSmallLoop radix (radix ^ Nat.log radix (B - 1))
                  (Nat.log radix (B - 1)) big.2).2)
          = radix ^ big.1.length * big.2 := by
        rw [← Nat.mul_add, hsv]
      omega
    · intro e he
      rcases List.mem_append.mp he with hm | hm
      · rcases List.mem_append.mp hm with hm2 | hm2
        · exact hbd e hm2
        · exact hsd e hm2
      · exact digitsOf_lt radix h2 _ e hm
  by_cases h64 : 64 ≤ natLen (val u)
  · simp only [toRadixDigitsLe, getRadixBase, if_pos h64]
    have hgrow : (growBase (Nat.sqrt (natLen (val u)))
          (radix ^ Nat.log radix (B - 1)) 1).1
        = (radix ^ Nat.log radix (B - 1))
          ^ (growBase (Nat.sqrt (natLen (val u))) (radix ^ Nat.log radix (B - 1)) 1).2 :=
      growBase_pow _ _ _ _ (pow_one _).symm
    obtain ⟨hbv, hbd⟩ :=
      toRadixBigLoop_spec radix (radix ^ Nat.log radix (B - 1)) (Nat.log radix (B - 1))
        (growBase (Nat.sqrt (natLen (val u))) (radix ^ Nat.log radix (B - 1)) 1).1
        (growBase (Nat.sqrt (natLen (val u))) (radix ^ Nat.log radix (B - 1)) 1).2
        h2 rfl hb1 hgrow (val u)
    exact key _ hbv hbd
  · simp only [toRadixDigitsLe, getRadixBase, if_neg h64]
    refine key ([], val u) ?_ ?_
    · simp [valR]
    · intro e he
      simp at he

theorem isPowerOfTwo_eq (n : Nat) (h : isPowerOfTwo n = true) : 2 ^ Nat.log2 n = n := by
  simp only [isPowerOfTwo, Bool.and_eq_true, decide_eq_true_eq, beq_iff_eq] at h
  exact h.2

theorem pow2_bits_facts (radix : Nat) (h2 : 2 ≤ radix) (h256 : radix ≤ 256)
    (hp : isPowerOfTwo radix = true) :
    1 ≤ Nat.log2 radix ∧ Nat.log2 radix ≤ 8 ∧ 2 ^ Nat.log2 radix = radix := by
  have heq := isPowerOfTwo_eq radix hp
  have h1 : 1 ≤ Nat.log2 radix := by
    by_contra hc
    push_neg at hc
    have h0 : Nat.log2 radix = 0 := by omega
    rw [h0, pow_zero] at heq
    omega
  have h8 : Nat.log2 radix ≤ 8 := by
    by_contra hc
    push_neg at hc
    have h9 : (2:Nat) ^ 9 ≤ 2 ^ Nat.log2 radix := Nat.pow_le_pow_right (by norm_num) hc
    rw [heq] at h9
    omega
  exact ⟨h1, h8, heq⟩

theorem toRadixLe_spec (u : List Nat) (radix : Nat) (h2 : 2 ≤ radix) (h256 : radix ≤ 256)
    (hu : ∀ d ∈ u, d < B) :
    valR radix (toRadixLe u radix) = val u ∧ (∀ d ∈ toRadixLe u radix, d < radix) ∧
    toRadixLe u radix ≠ [] := by
  by_cases hz : val u = 0
  · simp only [toRadixLe, if_pos hz]
    refine ⟨?_, ?_, by simp⟩
    · simp [valR, hz]
    · intro d hd
      simp only [List.mem_singleton] at hd
      omega
  · simp only [toRadixLe, if_neg hz]
    by_cases hp : isPowerOfTwo radix = true
    · obtain ⟨hb1, hb8, heq⟩ := pow2_bits_facts radix h2 h256 hp
      rw [if_pos hp]
      by_cases hdvd : 32 % Nat.log2 radix = 0
      · rw [if_pos hdvd]
        obtain ⟨hv, hd⟩ := toBitwiseDigitsLe_spec u (Nat.log2 radix) hb1 hdvd hu
        rw [heq] at hv hd
        refine ⟨hv, hd, ?_⟩
        intro hnil
        rw [hnil] at hv
        simp only [valR] at hv
        exact hz hv.symm
      · rw [if_neg hdvd]
        obtain ⟨hv, hd⟩ := toInexactBitwiseDigitsLe_spec u (Nat.log2 radix) hb1 (by omega) hu
        rw [heq] at hv hd
        refine ⟨hv, hd, ?_⟩
        intro hnil
        rw [hnil] at hv
        simp only [valR] at hv
        exact hz hv.symm
    · rw [if_neg hp]
      obtain ⟨hv, hd⟩ := toRadixDigitsLe_spec u radix h2 h256
      refine ⟨hv, hd, ?_⟩
      intro hnil
      rw [hnil] at hv
      simp only [valR] at hv
      exact hz hv.symm

theorem fromRadixLe_of_digits (buf : List Nat) (radix : Nat) (h2 : 2 ≤ radix)
    (h256 : radix ≤ 256) (hd : ∀ d ∈ buf, d < radix) :
    ∃ out, fromRadixLe buf radix = some (some out) ∧ Wf out ∧ val out = valR radix buf := by
  simp only [fromRadixLe]
  rw [if_neg (not_not_intro ⟨h2, h256⟩)]
  by_cases he : buf.isEmpty
  · rw [if_pos he]
    refine ⟨[], rfl, ⟨by intro d hd2; simp at hd2, by simp⟩, ?_⟩
    have hbe : buf = [] := List.isEmpty_iff.mp he
    subst hbe
    simp [val, valR]
  · rw [if_neg he]
    have hnot : ¬(radix ≠ 256 ∧ buf.any (fun b => radix ≤ b) = true) := by
      rintro ⟨-, hany⟩
      rw [List.any_eq_true] at hany
      obtain ⟨b, hb, hble⟩ := hany
      have := hd b hb
      simp only [decide_eq_true_eq] at hble
      omega
    rw [if_neg hnot]
    by_cases hp : isPowerOfTwo radix = true
    · rw [if_pos hp]
      obtain ⟨hb1, hb8, heq⟩ := pow2_bits_facts radix h2 h256 hp
      have hdig : ∀ d ∈ buf, d < 2 ^ Nat.log2 radix := by
        rw [heq]
        exact hd
      by_cases hdvd : 32 % Nat.log2 radix = 0
      · rw [if_pos hdvd]
        obtain ⟨hv, hwf⟩ := fromBitwiseDigitsLe_spec buf (Nat.log2 radix) hb1 hdvd hdig
        exact ⟨_, rfl, hwf, by rw [hv, heq]⟩
      · rw [if_neg hdvd]
        obtain ⟨hv, hwf⟩ :=
          fromInexactBitwiseDigitsLe_spec buf (Nat.log2 radix) hb1 (by omega) hdig
        exact ⟨_, rfl, hwf, by rw [hv, heq]⟩
    · rw [if_neg hp]
      obtain ⟨out, hout, hwf, hval⟩ := fromRadixDigitsBe_spec buf.reverse radix h2 h256
        fun d hdm => hd d (List.mem_reverse.mp hdm)
      rw [hout]
      refine ⟨out, rfl, hwf, ?_⟩
      rw [hval, foldChunk_reverse]

theorem charDigit_ascii (r : Nat) (h36 : r < 36) :
    charDigit (if r < 10 then r + 48 else r + 97 - 10) = r := by
  by_cases h : r < 10
  · rw [if_pos h]
    simp only [charDigit]
    rw [if_pos (by omega)]
    omega
  · rw [if_neg h]
    simp only [charDigit]
    rw [if_neg (by omega), if_pos (by omega)]
    omega

theorem ascii_ne_95 (r : Nat) :
    (if r < 10 then r + 48 else r + 97 - 10) ≠ 95 := by
  split_ifs with h <;> omega

theorem ascii_ne_43 (r : Nat) :
    (if r < 10 then r + 48 else r + 97 - 10) ≠ 43 := by
  split_ifs with h <;> omega

theorem mapDigits_all (radix : Nat) :
    ∀ s : List Nat, (∀ b ∈ s, b ≠ 95 ∧ charDigit b < radix) →
      mapDigits radix s = some (s.map charDigit) := by
  intro s
  induction s with
  | nil => intro _; rfl
  | cons b bs ih =>
    intro h
    obtain ⟨hb95, hblt⟩ := h b (List.mem_cons_self _ _)
    simp only [mapDigits]
    rw [if_neg hb95, if_pos hblt, ih fun x hx => h x (List.mem_cons_of_mem _ hx)]
    rfl

theorem toStrRadixReversed_eq (u : List Nat) (radix : Nat) (h2 : 2 ≤ radix)
    (h36 : radix ≤ 36) :
    toStrRadixReversed u radix
      = some ((toRadixLe u radix).map fun r => if r < 10 then r + 48 else r + 97 - 10) := by
  simp only [toStrRadixReversed]
  rw [if_neg (not_not_intro ⟨h2, h36⟩)]
  by_cases hz : val u = 0
  · rw [if_pos hz]
    have h0 : toRadixLe u radix = [0] := by simp only [toRadixLe, if_pos hz]
    rw [h0]
    rfl
  · rw [if_neg hz]

theorem fromStrRadix_of_ascii (x : List Nat) (radix : Nat) (hx : Wf x) (h2 : 2 ≤ radix)
    (h36 : radix ≤ 36) (l : List Nat) (hlne : l ≠ []) (hl : ∀ d ∈ l, d < radix)
    (hlv : valR radix l = val x) :
    fromStrRadix ((l.map fun r => if r < 10 then r + 48 else r + 97 - 10).reverse) radix
      = some (.ok x) := by
  have h256 : radix ≤ 256 := by omega
  have hs_all : ∀ b ∈ (l.map fun r => if r < 10 then r + 48 else r + 97 - 10).reverse,
      b ≠ 95 ∧ b ≠ 43 ∧ charDigit b < radix := by
    intro b hb
    rw [List.mem_reverse, List.mem_map] at hb
    obtain ⟨r, hr, hbr⟩ := hb
    have hrlt : r < radix := hl r hr
    have hr36 : r < 36 := by omega
    subst hbr
    refine ⟨ascii_ne_95 r, ascii_ne_43 r, ?_⟩
    rw [charDigit_ascii r hr36]
    exact hrlt
  have hsne : (l.map fun r => if r < 10 then r + 48 else r + 97 - 10).reverse ≠ [] := by
    simp only [ne_eq, List.reverse_eq_nil_iff, List.map_eq_nil_iff]
    exact hlne
  have hstrip : stripPlus ((l.map fun r => if r < 10 then r + 48 else r + 97 - 10).reverse)
      = (l.map fun r => if r < 10 then r + 48 else r + 97 - 10).reverse := by
    simp only [stripPlus]
    split
    · rename_i tail heq
      exfalso
      have hb := hs_all 43 (by rw [heq]; exact List.mem_cons_self _ _)
      exact hb.2.1 rfl
    · rfl
  have hhead : ¬((l.map fun r => if r < 10 then r + 48 else r + 97 - 10).reverse).head?
      = some 95 := by
    cases hsc : (l.map fun r => if r < 10 then r + 48 else r + 97 - 10).reverse with
    | nil => simp
    | cons b bs =>
      simp only [List.head?_cons]
      intro hc
      have hb := hs_all b (by rw [hsc]; exact List.mem_cons_self _ _)
      exact hb.1 (Option.some.inj hc)
  have hmap := mapDigits_all radix
    ((l.map fun r => if r < 10 then r + 48 else r + 97 - 10).reverse)
    fun b hb => ⟨(hs_all b hb).1, (hs_all b hb).2.2⟩
  have hmapeq : ((l.map fun r => if r < 10 then r + 48 else r + 97 - 10).reverse).map charDigit
      = l.reverse := by
    rw [List.map_reverse, List.map_map]
    congr 1
    calc l.map (charDigit ∘ fun r => if r < 10 then r + 48 else r + 97 - 10)
        = l.map id := List.map_congr_left fun r hr => charDigit_ascii r (by
            have := hl r hr
            omega)
      _ = l := List.map_id l
  rw [hmapeq] at hmap
  simp only [fromStrRadix]
  rw [if_neg (not_not_intro ⟨h2, h36⟩), hstrip]
  rw [if_neg (by simp only [List.isEmpty_iff]; exact hsne)]
  rw [if_neg hhead]
  simp only [hmap]
  by_cases hp : isPowerOfTwo radix = true
  · obtain ⟨hb1, hb8, heq⟩ := pow2_bits_facts radix h2 h256 hp
    rw [if_pos hp]
    by_cases hdvd : 32 % Nat.log2 radix = 0
    · rw [if_pos hdvd, List.reverse_reverse]
      obtain ⟨hv, hwf⟩ := fromBitwiseDigitsLe_spec l (Nat.log2 radix) hb1 hdvd
        (by rw [heq]; exact hl)
      have hxeq : fromBitwiseDigitsLe l (Nat.log2 radix) = x :=
        val_inj_of_wf _ _ hwf hx (by rw [hv, heq, hlv])
      rw [hxeq]
    · rw [if_neg hdvd, List.reverse_reverse]
      obtain ⟨hv, hwf⟩ := fromInexactBitwiseDigitsLe_spec l (Nat.log2 radix) hb1 (by omega)
        (by rw [heq]; exact hl)
      have hxeq : fromInexactBitwiseDigitsLe l (Nat.log2 radix) = x :=
        val_inj_of_wf _ _ hwf hx (by rw [hv, heq, hlv])
      rw [hxeq]
  · rw [if_neg hp]
    obtain ⟨out, hout, hwf, hov⟩ := fromRadixDigitsBe_spec l.reverse radix h2 h256
      fun d hdm => hl d (List.mem_reverse.mp hdm)
    rw [hout]
    have hxeq : out = x := val_inj_of_wf _ _ hwf hx (by rw [hov, foldChunk_reverse, hlv])
    rw [hxeq]
    rfl

/-- C9: radix-conversion round-trips.  For every well-formed `BigUint`
magnitude `x` and radix `2 ≤ radix ≤ 256`, converting to little-endian
radix bytes and parsing back (`from_radix_le ∘ to_radix_le`) returns `x`
exactly; for `radix ≤ 36`, formatting with `to_str_radix` and parsing the
text back with `from_str_radix` returns `x`; zero formats as the single
digit `0`, and the byte export is never an empty sequence. -/
theorem claim_C9 (x : List Nat) (radix : Nat) (hx : Wf x) (h2 : 2 ≤ radix)
    (h256 : radix ≤ 256) :
    fromRadixLe (toRadixLe x radix) radix = some (some x) ∧
    (radix ≤ 36 →
      ∃ s, toStrRadix x radix = some s ∧ fromStrRadix s radix = some (.ok x)) ∧
    (val x = 0 → toRadixLe x radix = [0]) ∧
    toRadixLe x radix ≠ [] := by
  obtain ⟨hval, hdig, hne⟩ := toRadixLe_spec x radix h2 h256 hx.1
  refine ⟨?_, ?_, ?_, hne⟩
  · obtain ⟨out, hout, hwf, hov⟩ :=
      fromRadixLe_of_digits (toRadixLe x radix) radix h2 h256 hdig
    rw [hout]
    have hxeq : out = x := val_inj_of_wf out x hwf hx (by rw [hov, hval])
    rw [hxeq]
  · intro h36
    refine ⟨((toRadixLe x radix).map
        fun r => if r < 10 then r + 48 else r + 97 - 10).reverse, ?_, ?_⟩
    · simp only [toStrRadix, toStrRadixReversed_eq x radix h2 h36]
      rfl
    · exact fromStrRadix_of_ascii x radix hx h2 h36 (toRadixLe x radix) hne hdig hval
  · intro hz
    simp only [toRadixLe, if_pos hz]

/-- C10: for every radix `2 ≤ radix ≤ 256`, the byte parsers `from_radix_be`
and `from_radix_le` accept the empty byte sequence and return the canonical
zero (the empty magnitude) rather than an error, while the formatter
`to_radix_le` never produces an empty sequence. -/
theorem claim_C10 (radix : Nat) (h2 : 2 ≤ radix) (h256 : radix ≤ 256)
    (x : List Nat) (hx : Wf x) :
    fromRadixBe [] radix = some (some []) ∧
    fromRadixLe [] radix = some (some []) ∧
    toRadixLe x radix ≠ [] := by
  refine ⟨?_, ?_, (toRadixLe_spec x radix h2 h256 hx.1).2.2⟩
  · simp only [fromRadixBe]
    rw [if_neg (not_not_intro ⟨h2, h256⟩)]
    rfl
  · simp only [fromRadixLe]
    rw [if_neg (not_not_intro ⟨h2, h256⟩)]
    rfl

theorem claim_C9_witness :
    Wf [5] ∧ 2 ≤ 10 ∧ 10 ≤ 256 ∧
      (fromRadixLe (toRadixLe [5] 10) 10 = some (some [5]) ∧
        (10 ≤ 36 →
          ∃ s, toStrRadix [5] 10 = some s ∧ fromStrRadix s 10 = some (.ok [5])) ∧
        (val [5] = 0 → toRadixLe [5] 10 = [0]) ∧
        toRadixLe [5] 10 ≠ []) :=
  ⟨⟨by decide, by decide⟩, by norm_num, by norm_num,
    claim_C9 [5] 10 ⟨by decide, by decide⟩ (by norm_num) (by norm_num)⟩

theorem claim_C10_witness :
    2 ≤ 10 ∧ 10 ≤ 256 ∧ Wf [7] ∧
      (fromRadixBe [] 10 = some (some []) ∧
        fromRadixLe [] 10 = some (some []) ∧
        toRadixLe [7] 10 ≠ []) :=
  ⟨by norm_num, by norm_num, ⟨by decide, by decide⟩,
    claim_C10 10 (by norm_num) (by norm_num) [7] ⟨by decide, by decide⟩⟩

end NumBigint
